import Mathlib

/-!
# inifileparser: a shallow embedding of `loadIniConfig`

Source: `src/iniparser.go`.  The loader reads a whole file, splits it on line
feeds, and walks the lines once.  A line whose trimmed text starts with `[` and
ends with `]` selects, through the `ini` struct tags, the sub-record that later
key-value lines write into; every other non-blank, non-comment line is validated
as `key=value` and assigned through reflection.

Modelling choices.

* Go strings are modelled as lists of characters (`Str`); the file content is
  therefore valid UTF-8 text.  Every structural character the parser looks at
  (`\n`, `#`, `;`, `[`, `]`, `=`, sign, digits) is ASCII, so byte-wise and
  character-wise tests agree on such text.
* The destination is the value behind the `ic` interface: a list of top-level
  fields, each with its reflected name, `ini` tag, export status and value.
* Go run-time panics (index out of range, `reflect` misuse) are explicit
  outcomes, distinct from a returned `error`.
-/

namespace IniParser

/-- Go strings, as sequences of characters. -/
abbrev Str := List Char

/-! ## Library functions used by the parser (`strings`, `unicode`, `strconv`) -/

/-- Go `unicode.IsSpace`: the Latin-1 cases and the `White_Space` table. -/
def IsSpace (r : Char) : Bool :=
  let n := r.toNat
  n == 0x09 || n == 0x0A || n == 0x0B || n == 0x0C || n == 0x0D || n == 0x20
    || n == 0x85 || n == 0xA0 || n == 0x1680 || (0x2000 ≤ n && n ≤ 0x200A)
    || n == 0x2028 || n == 0x2029 || n == 0x202F || n == 0x205F || n == 0x3000

/-- Go `strings.TrimLeftFunc(s, unicode.IsSpace)`. -/
def TrimLeft : Str → Str
  | [] => []
  | c :: cs => if IsSpace c then TrimLeft cs else c :: cs

/-- Go `strings.TrimRightFunc(s, unicode.IsSpace)`. -/
def TrimRight : Str → Str
  | [] => []
  | c :: cs =>
    match TrimRight cs with
    | [] => if IsSpace c then [] else [c]
    | r => c :: r

/-- Go `strings.TrimSpace`. -/
def TrimSpace (s : Str) : Str := TrimRight (TrimLeft s)

/-- Go `strings.Split(s, sep)` for a one-character separator. -/
def Split (sep : Char) : Str → List Str
  | [] => [[]]
  | c :: cs =>
    if c = sep then [] :: Split sep cs
    else
      match Split sep cs with
      | [] => [[c]]
      | p :: ps => (c :: p) :: ps

/-- Go `strings.HasPrefix(s, prefix)` for a one-character prefix. -/
def HasPrefix (s : Str) (c : Char) : Bool :=
  match s with
  | [] => false
  | x :: _ => x == c

/-- Go `strings.Contains(s, substr)` for a one-character substring. -/
def Contains (s : Str) (c : Char) : Bool := s.elem c

/-- Go `strings.Count(s, substr)` for a one-character substring. -/
def Count (s : Str) (c : Char) : Nat := s.count c

/-- Go indexing `s[i]`; `none` stands for the index-out-of-range panic. -/
def byteAt (s : Str) (i : Nat) : Option Char := s.get? i

/-- Go slicing `s[lo:hi]`; `none` stands for the slice-bounds panic. -/
def slice (s : Str) (lo hi : Nat) : Option Str :=
  if lo ≤ hi ∧ hi ≤ s.length then some ((s.take hi).drop lo) else none

/-- The two `strconv` error causes. -/
inductive NumErr
  | ErrSyntax
  | ErrRange
  deriving DecidableEq

/-- Go `*strconv.NumError` as produced by `Atoi`: the offending text and the cause. -/
structure NumError where
  Num : Str
  Err : NumErr
  deriving DecidableEq

/-- Width of Go `int` on the platform. -/
def intSize : Nat := 64

/-- The digit loop of `strconv.ParseUint(s, 10, 0)`: accumulates decimal digits,
stops with `ErrSyntax` at a non-digit and with `ErrRange` when the value leaves
`uint64`. -/
def parseUintLoop : Str → Nat → Except NumErr Nat
  | [], n => .ok n
  | c :: cs, n =>
    if 48 ≤ c.toNat ∧ c.toNat ≤ 57 then
      if n ≥ (2 ^ 64 - 1) / 10 + 1 then .error .ErrRange
      else if n * 10 + (c.toNat - 48) > 2 ^ 64 - 1 then .error .ErrRange
      else parseUintLoop cs (n * 10 + (c.toNat - 48))
    else .error .ErrSyntax

/-- Go `strconv.ParseUint(s, 10, 0)`. -/
def ParseUint (s : Str) : Except NumErr Nat :=
  match s with
  | [] => .error .ErrSyntax
  | _ => parseUintLoop s 0

/-- Sign and range handling of `strconv.ParseInt(s, 10, 0)` after the leading sign
has been removed (`neg` records a leading minus). -/
def parseSigned (neg : Bool) (digits : Str) : Except NumErr Int :=
  match ParseUint digits with
  | .error .ErrSyntax => .error .ErrSyntax
  | .error .ErrRange => .error .ErrRange
  | .ok un =>
    if neg = false ∧ un ≥ 2 ^ (intSize - 1) then .error .ErrRange
    else if neg = true ∧ un > 2 ^ (intSize - 1) then .error .ErrRange
    else .ok (if neg then -(un : Int) else (un : Int))

/-- Go `strconv.Atoi`.  Its fast path (short inputs) and its slow path
(`ParseInt(s, 10, 0)`) compute the same result; the slow path is the one modelled. -/
def Atoi (s : Str) : Except NumError Int :=
  let r : Except NumErr Int :=
    match s with
    | [] => .error .ErrSyntax
    | c :: cs =>
      if c = '+' then parseSigned false cs
      else if c = '-' then parseSigned true cs
      else parseSigned false (c :: cs)
  match r with
  | .ok n => .ok n
  | .error e => .error ⟨s, e⟩

/-! ## Reflection model of the destination -/

/-- Go `reflect.Kind`. -/
inductive Kind
  | Invalid | Bool | Int | Int8 | Int16 | Int32 | Int64
  | Uint | Uint8 | Uint16 | Uint32 | Uint64 | Uintptr
  | Float32 | Float64 | Complex64 | Complex128
  | Array | Chan | Func | Interface | Map | Ptr | Slice | String | Struct | UnsafePointer
  deriving DecidableEq

/-- The signed integer kinds, the ones the assignment switch handles with `SetInt`. -/
inductive IntKind
  | Int | Int8 | Int16 | Int32 | Int64
  deriving DecidableEq

/-- Bit width of a signed integer kind. -/
def IntKind.bits : IntKind → Nat
  | .Int => intSize
  | .Int8 => 8
  | .Int16 => 16
  | .Int32 => 32
  | .Int64 => 64

/-- The `reflect.Kind` of a signed integer kind. -/
def IntKind.kind : IntKind → Kind
  | .Int => .Int
  | .Int8 => .Int8
  | .Int16 => .Int16
  | .Int32 => .Int32
  | .Int64 => .Int64

/-- The signed integer kind behind a `reflect.Kind`, if it is one (the second `case`
of the assignment switch). -/
def Kind.toIntKind : Kind → Option IntKind
  | .Int => some .Int
  | .Int8 => some .Int8
  | .Int16 => some .Int16
  | .Int32 => some .Int32
  | .Int64 => some .Int64
  | _ => none

/-- The value held by a field of a sub-record.  Values of kinds the parser never
reads or writes keep an uninterpreted payload. -/
inductive Value
  | string (s : Str)
  | int (k : IntKind) (n : Int)
  | other (k : Kind) (payload : Nat)
  deriving DecidableEq

/-- The `reflect.Kind` of a field value. -/
def Value.Kind : Value → Kind
  | .string _ => .String
  | .int k _ => k.kind
  | .other k _ => k

/-- A field of a sub-record: reflected name, `Tag.Get("ini")`, whether the name is
exported, and the current value. -/
structure Field where
  Name : Str
  Tag : Str
  Exported : Bool
  value : Value
  deriving DecidableEq

/-- The value of a top-level field of the destination: a struct (a sub-record) or
something of another kind. -/
inductive SubValue
  | struct (fields : List Field)
  | nonStruct (k : Kind) (payload : Nat)
  deriving DecidableEq

/-- A top-level field of the destination struct. -/
structure TopField where
  Name : Str
  Tag : Str
  Exported : Bool
  Anonymous : Bool
  value : SubValue
  deriving DecidableEq

/-- The struct the `ic` pointer points to. -/
structure Dest where
  fields : List TopField
  deriving DecidableEq

/-- The `ic interface{}` argument, by its dynamic type and value. -/
inductive Arg
  /-- The untyped `nil`: the interface value holds no type. -/
  | untypedNil
  /-- A non-nil pointer to a struct whose current content is `d`. -/
  | structPtr (d : Dest)
  /-- The nil pointer of a type `*T`, `T` a struct type whose zero value is `d`. -/
  | nilStructPtr (d : Dest)
  /-- A struct passed by value, with content `d`. -/
  | structValue (d : Dest)
  /-- A value of any other non-pointer kind `k` (a scalar, a slice, a map, ...). -/
  | value (k : Kind)
      (h : k ≠ Kind.Ptr ∧ k ≠ Kind.Struct ∧ k ≠ Kind.Invalid ∧ k ≠ Kind.Interface)
  /-- A pointer, nil or not, whose element type has the kind `elem`, not a struct. -/
  | pointer (elem : Kind) (h : elem ≠ Kind.Struct ∧ elem ≠ Kind.Invalid)
  deriving DecidableEq

/-- What the guard reads from a non-nil `reflect.Type`: `kind` is `t.Kind()`, and
`elem` is `t.Elem().Kind()` when `t` is a pointer type. -/
structure RType where
  kind : Kind
  elem : Option Kind
  deriving DecidableEq

/-- The result of `reflect.TypeOf(ic)`; `none` is the nil `Type` returned for the
untyped `nil`. -/
def Arg.TypeOf : Arg → Option RType
  | .untypedNil => none
  | .structPtr _ => some ⟨.Ptr, some .Struct⟩
  | .nilStructPtr _ => some ⟨.Ptr, some .Struct⟩
  | .structValue _ => some ⟨.Struct, none⟩
  | .value k _ => some ⟨k, none⟩
  | .pointer elem _ => some ⟨.Ptr, some elem⟩

/-! ## Outcomes -/

/-- The `error` values `loadIniConfig` can return, one constructor per
`errors.New` / `fmt.Errorf` call of the source.  A constructor carries a line
number exactly when the format string of that call has the line-number verb. -/
inductive IniError
  /-- The message "ad param should be a struct pointer". -/
  | InvalidDestination
  /-- A header line with nothing between the brackets; format has the line number. -/
  | EmptySectionName (line : Nat)
  /-- A key-value line containing a bracket; format has the line number. -/
  | ForbiddenBracket (line : Nat)
  /-- A key-value line without an equals sign; format has the line number. -/
  | MissingSeparator (line : Nat)
  /-- A key-value line whose equals-sign count is not 1; format has the line number. -/
  | AmbiguousSeparator (line : Nat)
  /-- Key or value trims to the empty string; format has the line number. -/
  | EmptyKeyOrValue (line : Nat)
  /-- The message "type need is struct"; the format has no line number. -/
  | NeedStruct
  /-- The wrapped `strconv.Atoi` error; the format has only the cause text. -/
  | TypeConversion (cause : NumError)
  deriving DecidableEq

/-- The line number an error value carries, if its message has one. -/
def IniError.lineNo : IniError → Option Nat
  | .InvalidDestination => none
  | .EmptySectionName n => some n
  | .ForbiddenBracket n => some n
  | .MissingSeparator n => some n
  | .AmbiguousSeparator n => some n
  | .EmptyKeyOrValue n => some n
  | .NeedStruct => none
  | .TypeConversion _ => none

/-- Go run-time panics reachable in `loadIniConfig`. -/
inductive PanicKind
  /-- An index expression `s[i]` out of range. -/
  | IndexOutOfRange
  /-- A slice expression `s[lo:hi]` out of bounds. -/
  | SliceBounds
  /-- The panic "reflect: call of reflect.Value.Type on zero Value". -/
  | TypeOnZeroValue
  /-- A `reflect.Value.Set*` call on a value obtained through an unexported field. -/
  | NotSettable
  /-- The nil dereference of a method call on the nil `reflect.Type`. -/
  | NilType
  /-- The panic "reflect: call of reflect.Value.FieldByName on zero Value". -/
  | FieldByNameOnZeroValue
  deriving DecidableEq

/-- Result of a pure sub-computation of the loop body. -/
inductive Res (α : Type)
  | ok (a : α)
  | fail (e : IniError)
  | panic (p : PanicKind)
  deriving DecidableEq

/-- The mutable state of the loop: the destination behind `ic` and the local
variable `structName` (initially the empty string). -/
structure State where
  dest : Dest
  structName : Str
  deriving DecidableEq

/-- What one iteration of the loop does: fall through to the next line, execute a
`return err`, or panic.  Each carries the state at that moment. -/
inductive Step
  | next (st : State)
  | fail (e : IniError) (st : State)
  | panic (p : PanicKind) (st : State)
  deriving DecidableEq

/-- How a call of `loadIniConfig` ends. -/
inductive Outcome
  /-- The function returned `err` (`none` is `nil`) and left `ic` in the given state. -/
  | returned (err : Option IniError) (ic : Arg)
  /-- The function panicked, leaving `ic` in the given state. -/
  | panicked (p : PanicKind) (ic : Arg)
  /-- The process was terminated by `log.Fatal` (the file could not be read). -/
  | exited
  deriving DecidableEq

/-! ## The loop body -/

/-- The section-name loop (source lines 94-110): every top-level field whose `ini`
tag equals `sectionName` overwrites `structName` with its name; there is no
`break` and no action when nothing matches. -/
def selectSection (fields : List TopField) (sectionName : Str) (structName : Str) : Str :=
  fields.foldl (fun acc field => if field.Tag = sectionName then field.Name else acc) structName

/-- The header branch (source lines 85-111). -/
def sectionHeader (idx : Nat) (line : Str) (st : State) : Step :=
  match slice line 1 (line.length - 1) with
  | none => .panic .SliceBounds st
  | some interior =>
    let section_content := TrimSpace interior
    if section_content = [] then .fail (.EmptySectionName (idx + 1)) st
    else .next { st with structName := selectSection st.dest.fields section_content st.structName }

/-- The key-value validation (source lines 113-137): yields `content_key` and
`content_value`. -/
def validateKeyValue (idx : Nat) (line : Str) : Res (Str × Str) :=
  if Contains line '[' ∨ Contains line ']' then .fail (.ForbiddenBracket (idx + 1))
  else if ¬ Contains line '=' then .fail (.MissingSeparator (idx + 1))
  else if Count line '=' ≠ 1 then .fail (.AmbiguousSeparator (idx + 1))
  else
    let key_value := Split '=' line
    match key_value.get? 0 with
    | none => .panic .IndexOutOfRange
    | some k0 =>
      match key_value.get? 1 with
      | none => .panic .IndexOutOfRange
      | some k1 =>
        let content_key := TrimSpace k0
        let content_value := TrimSpace k1
        if content_key = [] ∨ content_value = [] then .fail (.EmptyKeyOrValue (idx + 1))
        else .ok (content_key, content_value)

/-- Go `reflect.Value.FieldByName` on the destination struct, for a name that is
empty or the name of a top-level field: the empty name finds nothing, otherwise the
first field with that name is found.  `none` is the zero `Value`. -/
def Dest.FieldByName (d : Dest) (name : Str) : Option TopField :=
  if name = [] then none else d.fields.find? (fun f => f.Name = name)

/-- Go `reflect.Value.FieldByName` on a sub-record (same convention). -/
def FieldByName (fields : List Field) (name : Str) : Option Field :=
  if name = [] then none else fields.find? (fun f => f.Name = name)

/-- The field-name loop (source lines 152-161): the name of the first field whose
`ini` tag equals the key, or the empty string. -/
def findFieldName (fields : List Field) (content_key : Str) : Str :=
  match fields.find? (fun f => f.Tag = content_key) with
  | some f => f.Name
  | none => []

/-- Go `int8(x)`, `int16(x)`, ...: conversion of an integer to a `bits`-wide signed
integer (two-complement wrap-around). -/
def wrapInt (bits : Nat) (x : Int) : Int :=
  (x + 2 ^ (bits - 1)) % 2 ^ bits - 2 ^ (bits - 1)

/-- Replace the first element satisfying `p`. -/
def updateFirst {α : Type} (p : α → Bool) (f : α → α) : List α → List α
  | [] => []
  | a :: as => if p a then f a :: as else a :: updateFirst p f as

/-- Store `v` in the field named `fieldName` of the sub-record named `structName`
(the memory effect of `SetString` / `SetInt` through the two `FieldByName` handles). -/
def Dest.store (d : Dest) (structName fieldName : Str) (v : Value) : Dest :=
  { fields := updateFirst (fun (t : TopField) => t.Name = structName)
      (fun t =>
        match t.value with
        | .struct fs =>
          { t with value := .struct (updateFirst (fun (f : Field) => f.Name = fieldName)
              (fun f => { f with value := v }) fs) }
        | .nonStruct _ _ => t) d.fields }

/-- The assignment switch (source lines 166-178) on the field handle `str_obj`
found under the name `struct_file_name`; `readOnly` tells whether the handle was
obtained through an unexported field, in which case `SetString` / `SetInt` panic. -/
def assignSwitch (readOnly : Bool) (str_obj : Field) (struct_file_name content_value : Str)
    (st : State) : Step :=
  if str_obj.value.Kind = Kind.String then
    if readOnly then .panic .NotSettable st
    else .next
      ⟨st.dest.store st.structName struct_file_name (.string content_value), st.structName⟩
  else
    match str_obj.value.Kind.toIntKind with
    | some k =>
      match Atoi content_value with
      | .error err => .fail (.TypeConversion err) st
      | .ok num =>
        if readOnly then .panic .NotSettable st
        else .next
          ⟨st.dest.store st.structName struct_file_name (.int k (wrapInt k.bits num)),
            st.structName⟩
    | none => .next st

/-- The reflective assignment (source lines 139-178) for a validated key and value. -/
def assign (content_key content_value : Str) (st : State) : Step :=
  match st.dest.FieldByName st.structName with
  | none => .panic .TypeOnZeroValue st
  | some valuestruct =>
    match valuestruct.value with
    | .nonStruct _ _ => .fail .NeedStruct st
    | .struct fields =>
      let struct_file_name := findFieldName fields content_key
      match FieldByName fields struct_file_name with
      | none => .panic .TypeOnZeroValue st
      | some str_obj =>
        assignSwitch ((!valuestruct.Exported && !valuestruct.Anonymous) || !str_obj.Exported)
          str_obj struct_file_name content_value st

/-- One iteration of the `for idx, line := range slice_string` loop. -/
def processLine (idx : Nat) (raw : Str) (st : State) : Step :=
  let line := TrimSpace raw
  if line = [] then .next st
  else if HasPrefix line '#' ∨ HasPrefix line ';' then .next st
  else
    match byteAt line 0 with
    | none => .panic .IndexOutOfRange st
    | some first =>
      if first = '[' then
        match byteAt line (line.length - 1) with
        | none => .panic .IndexOutOfRange st
        | some last =>
          if last = ']' then sectionHeader idx line st
          else
            match validateKeyValue idx line with
            | .fail e => .fail e st
            | .panic p => .panic p st
            | .ok (content_key, content_value) => assign content_key content_value st
      else
        match validateKeyValue idx line with
        | .fail e => .fail e st
        | .panic p => .panic p st
        | .ok (content_key, content_value) => assign content_key content_value st

/-- The loop over the lines, `idx` being the index of the first remaining line. -/
def runLines : Nat → List Str → State → Step
  | _, [], st => .next st
  | idx, raw :: rest, st =>
    match processLine idx raw st with
    | .next st1 => runLines (idx + 1) rest st1
    | .fail e st1 => .fail e st1
    | .panic p st1 => .panic p st1

/-- One iteration of the loop when `ic` is the nil pointer of a struct pointer type.
The branches that read the type only (`t.Elem()` in the header branch) are those of
`processLine`, with `st.dest` standing for the struct type; at a validated
key-value line `reflect.ValueOf(ic).Elem()` is the zero `Value`, on which
`FieldByName` (source line 143) panics. -/
def processLineNil (idx : Nat) (raw : Str) (st : State) : Step :=
  let line := TrimSpace raw
  if line = [] then .next st
  else if HasPrefix line '#' ∨ HasPrefix line ';' then .next st
  else
    match byteAt line 0 with
    | none => .panic .IndexOutOfRange st
    | some first =>
      if first = '[' then
        match byteAt line (line.length - 1) with
        | none => .panic .IndexOutOfRange st
        | some last =>
          if last = ']' then sectionHeader idx line st
          else
            match validateKeyValue idx line with
            | .fail e => .fail e st
            | .panic p => .panic p st
            | .ok _ => .panic .FieldByNameOnZeroValue st
      else
        match validateKeyValue idx line with
        | .fail e => .fail e st
        | .panic p => .panic p st
        | .ok _ => .panic .FieldByNameOnZeroValue st

/-- The loop over the lines when `ic` is the nil pointer of a struct pointer type. -/
def runLinesNil : Nat → List Str → State → Step
  | _, [], st => .next st
  | idx, raw :: rest, st =>
    match processLineNil idx raw st with
    | .next st1 => runLinesNil (idx + 1) rest st1
    | .fail e st1 => .fail e st1
    | .panic p st1 => .panic p st1

/-- The function `loadIniConfig(filename, ic)`.  The file system is represented by
the result of `os.ReadFile(filename)`: `some content`, or `none` on a read error.
The first statements are `t := reflect.TypeOf(ic)` and the guard
`t.Kind() != reflect.Ptr || t.Elem().Kind() != reflect.Struct` (source lines 44-49);
`t.Kind()` on the nil `Type` is a nil dereference. -/
def loadIniConfig (data_file : Option Str) (ic : Arg) : Outcome :=
  match ic.TypeOf with
  | none => .panicked .NilType ic
  | some t =>
    if t.kind ≠ Kind.Ptr ∨ t.elem ≠ some Kind.Struct then
      .returned (some .InvalidDestination) ic
    else
      match data_file with
      | none => .exited
      | some content =>
        match ic with
        | .structPtr d =>
          match runLines 0 (Split '\n' content) { dest := d, structName := [] } with
          | .next st => .returned none (.structPtr st.dest)
          | .fail e st => .returned (some e) (.structPtr st.dest)
          | .panic p st => .panicked p (.structPtr st.dest)
        | .nilStructPtr d =>
          match runLinesNil 0 (Split '\n' content) { dest := d, structName := [] } with
          | .next _ => .returned none ic
          | .fail e _ => .returned (some e) ic
          | .panic p _ => .panicked p ic
        -- every other argument has left through the guard
        | _ => .returned (some .InvalidDestination) ic

/-! ## The destination type of the repository -/

/-- Zero value of `AppDbIni`. -/
def AppDbIni : List Field :=
  [ ⟨"Host".toList, "host".toList, true, .string []⟩,
    ⟨"Post".toList, "port".toList, true, .int .Int 0⟩,
    ⟨"User".toList, "user".toList, true, .string []⟩,
    ⟨"Pass".toList, "pass".toList, true, .string []⟩,
    ⟨"Name".toList, "name".toList, true, .string []⟩,
    ⟨"Charset".toList, "charset".toList, true, .string []⟩ ]

/-- Zero value of `AppCacheIni`. -/
def AppCacheIni : List Field :=
  [ ⟨"Host".toList, "host".toList, true, .string []⟩,
    ⟨"Post".toList, "port".toList, true, .int .Int 0⟩,
    ⟨"Pass".toList, "pass".toList, true, .string []⟩ ]

/-- Zero value of `IniConfig`: the two embedded structs, tagged `db` and `cache`. -/
def IniConfig : Dest :=
  { fields :=
    [ ⟨"AppDbIni".toList, "db".toList, true, true, .struct AppDbIni⟩,
      ⟨"AppCacheIni".toList, "cache".toList, true, true, .struct AppCacheIni⟩ ] }

/-! ## Vocabulary of the properties -/

/-- The raw lines of a content joined by line feeds (inverse of `Split` on lines
that hold no line feed). -/
def joinLines : List Str → Str
  | [] => []
  | [l] => l
  | l :: ls => l ++ '\n' :: joinLines ls

/-- A string of decimal digits: non-empty, every character in `0`..`9`. -/
def isDigits (s : Str) : Bool :=
  !s.isEmpty && s.all (fun c => decide (48 ≤ c.toNat ∧ c.toNat ≤ 57))

/-- The natural number a string of decimal digits denotes. -/
def decimalValue (digits : Str) : Nat :=
  digits.foldl (fun n c => n * 10 + (c.toNat - 48)) 0

/-- The integer denoted by a base-10 signed integer literal: an optional `+` or `-`
followed by one or more decimal digits; `none` for any other text. -/
def literalInt (s : Str) : Option Int :=
  match s with
  | [] => none
  | c :: cs =>
    if c = '+' then (if isDigits cs then some (decimalValue cs : Int) else none)
    else if c = '-' then (if isDigits cs then some (-(decimalValue cs : Int)) else none)
    else if isDigits (c :: cs) then some (decimalValue (c :: cs) : Int) else none

/-- The range of Go `int`. -/
def InIntRange (v : Int) : Prop := -(2 ^ (intSize - 1) : Int) ≤ v ∧ v < 2 ^ (intSize - 1)

instance (v : Int) : Decidable (InIntRange v) := by
  unfold InIntRange; exact inferInstance

/-- The text is a base-10 signed integer literal within the range of `int`. -/
def IsIntLiteralInRange (s : Str) : Prop := ∃ v, literalInt s = some v ∧ InIntRange v

instance (s : Str) : Decidable (IsIntLiteralInRange s) :=
  match h : literalInt s with
  | none => isFalse (fun ⟨_, hv, _⟩ => by rw [h] at hv; cases hv)
  | some v =>
    if hr : InIntRange v then isTrue ⟨v, h, hr⟩
    else isFalse (fun ⟨w, hw, hr2⟩ => by rw [h] at hw; cases hw; exact hr hr2)

/-- The trimmed line is skipped by the loop: it is blank or a comment. -/
def IsSkipped (line : Str) : Prop :=
  line = [] ∨ HasPrefix line '#' = true ∨ HasPrefix line ';' = true

instance (line : Str) : Decidable (IsSkipped line) := by
  unfold IsSkipped; exact inferInstance

/-- The trimmed line both starts with `[` and ends with `]`. -/
def IsHeaderLine (line : Str) : Prop :=
  line.head? = some '[' ∧ line.getLast? = some ']'

instance (line : Str) : Decidable (IsHeaderLine line) := by
  unfold IsHeaderLine; exact inferInstance

/-- The trimmed line is a key-value candidate: neither skipped nor a header. -/
def IsKeyValueCandidate (line : Str) : Prop :=
  ¬ IsSkipped line ∧ ¬ IsHeaderLine line

instance (line : Str) : Decidable (IsKeyValueCandidate line) := by
  unfold IsKeyValueCandidate; exact inferInstance

/-- The content of an `IniConfig` value: the nine scalar fields of its two embedded
structs. -/
structure IniValues where
  dbHost : Str
  dbPort : Int
  dbUser : Str
  dbPass : Str
  dbName : Str
  dbCharset : Str
  cacheHost : Str
  cachePort : Int
  cachePass : Str

/-- The `IniConfig` value with the given field contents. -/
def IniValues.toDest (v : IniValues) : Dest :=
  { fields :=
    [ ⟨"AppDbIni".toList, "db".toList, true, true, .struct
        [ ⟨"Host".toList, "host".toList, true, .string v.dbHost⟩,
          ⟨"Post".toList, "port".toList, true, .int .Int v.dbPort⟩,
          ⟨"User".toList, "user".toList, true, .string v.dbUser⟩,
          ⟨"Pass".toList, "pass".toList, true, .string v.dbPass⟩,
          ⟨"Name".toList, "name".toList, true, .string v.dbName⟩,
          ⟨"Charset".toList, "charset".toList, true, .string v.dbCharset⟩ ]⟩,
      ⟨"AppCacheIni".toList, "cache".toList, true, true, .struct
        [ ⟨"Host".toList, "host".toList, true, .string v.cacheHost⟩,
          ⟨"Post".toList, "port".toList, true, .int .Int v.cachePort⟩,
          ⟨"Pass".toList, "pass".toList, true, .string v.cachePass⟩ ]⟩ ] }

/-- The value of the field annotated `key` in the sub-record annotated `sec`. -/
def Dest.lookup (d : Dest) (sec key : Str) : Option Value :=
  match d.fields.find? (fun t => t.Tag = sec) with
  | none => none
  | some t =>
    match t.value with
    | .nonStruct _ _ => none
    | .struct fs => (fs.find? (fun f => f.Tag = key)).map (fun f => f.value)

/-- The section name of a raw line that is a section header: the trimmed interior
of a trimmed line that starts with `[` and ends with `]`. -/
def headerName (raw : Str) : Option Str :=
  if IsHeaderLine (TrimSpace raw) then some (TrimSpace ((TrimSpace raw).drop 1).dropLast)
  else none

/-- The name in the nearest preceding section header: the last header among `lines`
(`cur` when there is none). -/
def activeSectionFrom (cur : Option Str) (lines : List Str) : Option Str :=
  lines.foldl (fun cur raw =>
    match headerName raw with
    | some name => some name
    | none => cur) cur

/-- The name in the last section header among `lines`, if any. -/
def activeSection (lines : List Str) : Option Str := activeSectionFrom none lines

/-- A raw line read as a key-value line: not blank, not a comment, no `[` or `]`,
exactly one `=`, and non-empty trimmed texts left and right of it, which are the
key and the value. -/
def keyValueOf (raw : Str) : Option (Str × Str) :=
  if IsSkipped (TrimSpace raw) then none
  else if '[' ∈ raw ∨ ']' ∈ raw then none
  else if raw.count '=' ≠ 1 then none
  else
    let key := TrimSpace (raw.takeWhile (fun c => c ≠ '='))
    let value := TrimSpace ((raw.dropWhile (fun c => c ≠ '=')).drop 1)
    if key = [] ∨ value = [] then none else some (key, value)

/-- The annotated keys of the sub-record of `IniConfig` annotated `sec`. -/
def schemaKeys (sec : Str) : List Str :=
  if sec = "db".toList then
    ["host".toList, "port".toList, "user".toList, "pass".toList, "name".toList,
      "charset".toList]
  else if sec = "cache".toList then ["host".toList, "port".toList, "pass".toList]
  else []

/-- A raw line is acceptable after the header named by `cur`: blank or comment, a
header for `db` or `cache`, or a key-value line whose key is an annotated key of the
sub-record `cur` names and whose value, for key `port`, is an in-range integer
literal. -/
def lineOk (cur : Option Str) (raw : Str) : Bool :=
  decide (IsSkipped (TrimSpace raw)) || decide (headerName raw = some "db".toList)
    || decide (headerName raw = some "cache".toList)
    || (match keyValueOf raw, cur with
        | some (key, value), some sec =>
          decide (key ∈ schemaKeys sec) &&
            (decide (key ≠ "port".toList) || decide (IsIntLiteralInRange value))
        | _, _ => false)

/-- Every line of the file is acceptable after the nearest preceding header. -/
def WellFormed (lines : List Str) : Prop :=
  ∀ i, i < lines.length → lineOk (activeSection (lines.take i)) (lines.getD i []) = true

instance (lines : List Str) : Decidable (WellFormed lines) := by
  unfold WellFormed; exact inferInstance

/-- The field `sec`/`key` of `d` holds the text `value`: verbatim for a text field,
as the denoted integer for `port`. -/
def Holds (d : Dest) (sec key value : Str) : Prop :=
  (key ≠ "port".toList → d.lookup sec key = some (.string value)) ∧
    (key = "port".toList →
      ∃ n, literalInt value = some n ∧ d.lookup sec key = some (.int .Int n))

/-- The destination reflects the key-value lines of `lines`: for every key-value
line `i` with key `key` and value `value` under the header named `sec`, such that
no later line is a key-value line with the same key under a header named `sec`,
the field `sec`/`key` holds `value`. -/
def LastWins (lines : List Str) (d : Dest) : Prop :=
  ∀ i sec key value, i < lines.length →
    keyValueOf (lines.getD i []) = some (key, value) →
    activeSection (lines.take i) = some sec →
    (∀ j v2, i < j → j < lines.length →
      keyValueOf (lines.getD j []) = some (key, v2) →
      activeSection (lines.take j) ≠ some sec) →
    Holds d sec key value

/-- The field name `structName` holds after the header named by `cur` in a load of
`IniConfig`. -/
def structNameOf (cur : Option Str) : Str :=
  match cur with
  | none => []
  | some sec => selectSection IniConfig.fields sec []

/-- If the step ends the call (`return err` or panic), the state at that moment is
`st`. -/
def Step.stopsAt (r : Step) (st : State) : Prop :=
  match r with
  | .next _ => True
  | .fail _ s => s = st
  | .panic _ s => s = st


/-- A destination with an `int8` field: `struct { Limits struct { Level int8 `ini:"level"` } `ini:"limits"` }`,
zero-valued. -/
def Int8Config : Dest :=
  { fields :=
    [ ⟨"Limits".toList, "limits".toList, true, false, .struct
        [ ⟨"Level".toList, "level".toList, true, .int .Int8 0⟩ ]⟩ ] }

/-- A destination with a `bool` field next to a text field. -/
def FlagConfig : Dest :=
  { fields :=
    [ ⟨"Opts".toList, "opts".toList, true, false, .struct
        [ ⟨"Debug".toList, "debug".toList, true, .other .Bool 0⟩,
          ⟨"Name".toList, "name".toList, true, .string []⟩ ]⟩ ] }

/-- How the call ends when the loop ends with the step `r` (the `return nil` after
the loop, a `return err` inside it, or a panic). -/
def Step.toOutcome (r : Step) : Outcome :=
  match r with
  | .next st => .returned none (.structPtr st.dest)
  | .fail e st => .returned (some e) (.structPtr st.dest)
  | .panic p st => .panicked p (.structPtr st.dest)

/-- Whether a panic is a bounds panic of an index or slice expression. -/
def PanicKind.IsBounds : PanicKind → Prop
  | .IndexOutOfRange => True
  | .SliceBounds => True
  | _ => False

/-- The same error reported one line further down. -/
def IniError.shiftLine : IniError → IniError
  | .EmptySectionName n => .EmptySectionName (n + 1)
  | .ForbiddenBracket n => .ForbiddenBracket (n + 1)
  | .MissingSeparator n => .MissingSeparator (n + 1)
  | .AmbiguousSeparator n => .AmbiguousSeparator (n + 1)
  | .EmptyKeyOrValue n => .EmptyKeyOrValue (n + 1)
  | e => e

/-- The kind of an error: the error with its line number, if any, erased. -/
def IniError.eraseLine : IniError → IniError
  | .EmptySectionName _ => .EmptySectionName 0
  | .ForbiddenBracket _ => .ForbiddenBracket 0
  | .MissingSeparator _ => .MissingSeparator 0
  | .AmbiguousSeparator _ => .AmbiguousSeparator 0
  | .EmptyKeyOrValue _ => .EmptyKeyOrValue 0
  | e => e

/-- A validation result with its error reported one line further down. -/
def Res.shiftLine {α : Type} : Res α → Res α
  | .fail e => .fail e.shiftLine
  | r => r

/-- A step with its error reported one line further down. -/
def Step.shiftLine : Step → Step
  | .fail e st => .fail e.shiftLine st
  | r => r

/-- An outcome with its error reported one line further down. -/
def Outcome.shiftLine : Outcome → Outcome
  | .returned (some e) ic => .returned (some e.shiftLine) ic
  | o => o

/-- An outcome with the line number of its error erased: what remains is whether the
call succeeded, the kind of error, the panic, and the destination. -/
def Outcome.eraseLine : Outcome → Outcome
  | .returned (some e) ic => .returned (some e.eraseLine) ic
  | o => o

/-- One write of the loader: the value `value` stored in the field named `fieldName`
of the sub-record named `structName`. -/
structure Write where
  structName : Str
  fieldName : Str
  value : Value

/-- The destination after a write. -/
def Dest.write (d : Dest) (w : Write) : Dest := d.store w.structName w.fieldName w.value

/-- The destination after a sequence of writes, applied in order. -/
def Dest.writeAll (d : Dest) (ws : List Write) : Dest := ws.foldl Dest.write d

/-- A value with its content erased: what remains is its kind (and, for kinds the
loader never writes, the value itself). -/
def Value.erase (v : Value) : Value :=
  if v.Kind = Kind.String then .string []
  else
    match v.Kind.toIntKind with
    | some k => .int k 0
    | none => v

/-- A field with the content of its value erased. -/
def Field.erase (f : Field) : Field := { f with value := f.value.erase }

/-- A sub-record with the contents of its fields erased. -/
def SubValue.erase : SubValue → SubValue
  | .struct fs => .struct (fs.map Field.erase)
  | .nonStruct k p => .nonStruct k p

/-- A top-level field with the contents of its fields erased. -/
def TopField.erase (t : TopField) : TopField := { t with value := t.value.erase }

/-- The shape of a destination: names, tags, export status and kinds, with the
contents of the text and integer fields erased. -/
def Dest.erase (d : Dest) : Dest := { fields := d.fields.map TopField.erase }

/-- What the assignment switch does for a field of kind `kind`: panic, return an
error, skip (`none`) or perform a write. -/
def switchPlan (readOnly : Bool) (kind : Kind) (structName fieldName content_value : Str) :
    Res (Option Write) :=
  if kind = Kind.String then
    if readOnly then .panic .NotSettable
    else .ok (some ⟨structName, fieldName, .string content_value⟩)
  else
    match kind.toIntKind with
    | some k =>
      match Atoi content_value with
      | .error err => .fail (.TypeConversion err)
      | .ok num =>
        if readOnly then .panic .NotSettable
        else .ok (some ⟨structName, fieldName, .int k (wrapInt k.bits num)⟩)
    | none => .ok none

/-- What the reflective assignment does for a validated key and value, as a
function of the destination and the active `structName`. -/
def assignPlan (d : Dest) (structName content_key content_value : Str) : Res (Option Write) :=
  match d.FieldByName structName with
  | none => .panic .TypeOnZeroValue
  | some valuestruct =>
    match valuestruct.value with
    | .nonStruct _ _ => .fail .NeedStruct
    | .struct fields =>
      match FieldByName fields (findFieldName fields content_key) with
      | none => .panic .TypeOnZeroValue
      | some str_obj =>
        switchPlan ((!valuestruct.Exported && !valuestruct.Anonymous) || !str_obj.Exported)
          str_obj.value.Kind structName (findFieldName fields content_key) content_value

/-- The step that carries out a plan in the state `st`. -/
def Step.ofPlan (st : State) : Res (Option Write) → Step
  | .ok none => .next st
  | .ok (some w) => .next ⟨st.dest.write w, st.structName⟩
  | .fail e => .fail e st
  | .panic p => .panic p st

/-- The value of field `j` of the sub-record at position `i` of the destination. -/
def Dest.valueAt (d : Dest) (i j : Nat) : Option Value :=
  match d.fields.get? i with
  | none => none
  | some t =>
    match t.value with
    | .nonStruct _ _ => none
    | .struct fs => (fs.get? j).map (fun f => f.value)

/-- The field names of a sub-record are pairwise distinct. -/
def SubValue.namesNodup : SubValue → Bool
  | .struct fs => decide (fs.map (fun f => f.Name)).Nodup
  | .nonStruct _ _ => true

/-- Within every sub-record of the destination the field names are pairwise
distinct, as in every Go struct without blank fields. -/
def Dest.DistinctNames (d : Dest) : Prop := ∀ t ∈ d.fields, t.value.namesNodup = true

instance (d : Dest) : Decidable d.DistinctNames := by
  unfold Dest.DistinctNames; exact inferInstance

/-- The effect of a store on the sub-record it reaches: the first field named
`fieldName` receives `v`. -/
def TopField.storeField (fieldName : Str) (v : Value) (t : TopField) : TopField :=
  match t.value with
  | .struct fs =>
    { t with value := .struct (updateFirst (fun (f : Field) => decide (f.Name = fieldName))
        (fun f => { f with value := v }) fs) }
  | .nonStruct _ _ => t

/-- Position `n` holds the first element of `l` that satisfies `p`. -/
def IsFirstAt {α : Type} (p : α → Bool) (l : List α) (n : Nat) : Prop :=
  (∃ a, l.get? n = some a ∧ p a = true) ∧ ∀ m b, m < n → l.get? m = some b → p b = false

/-- The raw line, processed in the state `st`, is a key-value line that names field
`j` of the sub-record at position `i`: the line is a valid key-value line, the
sub-record is the active one (its name is `structName`), and the annotation of the
field equals the key. -/
def NamesField (st : State) (raw : Str) (i j : Nat) : Prop :=
  IsKeyValueCandidate (TrimSpace raw) ∧
    ∃ n key value t fs f, validateKeyValue n (TrimSpace raw) = .ok (key, value) ∧
      st.dest.fields.get? i = some t ∧ t.Name = st.structName ∧ t.value = .struct fs ∧
      fs.get? j = some f ∧ f.Tag = key

/-- How a call on a pointer to a struct ends once the file is read, apart from the
destination: the returned value (`none` is `nil`) or the panic. -/
inductive Verdict
  | returned (err : Option IniError)
  | panicked (p : PanicKind)
  deriving DecidableEq

/-- The step of the loop that ends with the verdict `v` in the state `st`;
`returned none` is the fall-through to the next line (and, after the last line, to
`return nil`). -/
def Verdict.toStep (v : Verdict) (st : State) : Step :=
  match v with
  | .returned none => .next st
  | .returned (some e) => .fail e st
  | .panicked p => .panic p st

/-- The outcome with the verdict `v` that leaves the destination `d`. -/
def Verdict.toOutcome (v : Verdict) (d : Dest) : Outcome :=
  match v with
  | .returned err => .returned err (.structPtr d)
  | .panicked p => .panicked p (.structPtr d)

/-- Some key-value line of `lines` names the key `key` under the section `sec`: the
line reads as a key-value line with that key, and the nearest section header above
it carries the name `sec`. -/
def NamedUnder (lines : List Str) (sec key : Str) : Prop :=
  ∃ n ∈ List.range lines.length,
    activeSection (lines.take n) = some sec ∧
      ((lines.get? n).bind keyValueOf).map Prod.fst = some key

instance (lines : List Str) (sec key : Str) : Decidable (NamedUnder lines sec key) := by
  unfold NamedUnder
  infer_instance

/-! ## Properties of the library functions -/

theorem Split_ne_nil (sep : Char) (s : Str) : Split sep s ≠ [] := by
  induction s with
  | nil => simp [Split]
  | cons c cs ih =>
    unfold Split
    split
    · simp
    · split <;> simp

theorem Split_of_not_mem (sep : Char) (s : Str) (h : sep ∉ s) : Split sep s = [s] := by
  induction s with
  | nil => rfl
  | cons c cs ih =>
    have hc : c ≠ sep := fun e => h (by simp [e])
    have hcs : sep ∉ cs := fun m => h (List.mem_cons_of_mem _ m)
    simp [Split, hc, ih hcs]

theorem Split_append_sep (sep : Char) (l r : Str) (h : sep ∉ l) :
    Split sep (l ++ sep :: r) = l :: Split sep r := by
  induction l with
  | nil => simp [Split]
  | cons c cs ih =>
    have hc : c ≠ sep := fun e => h (by simp [e])
    have hcs : sep ∉ cs := fun m => h (List.mem_cons_of_mem _ m)
    simp [Split, hc, ih hcs]

theorem exists_split_of_count_one (c : Char) (s : Str) (h : s.count c = 1) :
    ∃ l r, s = l ++ c :: r ∧ c ∉ l ∧ c ∉ r := by
  induction s with
  | nil => simp at h
  | cons x xs ih =>
    by_cases hx : x = c
    · subst hx
      refine ⟨[], xs, rfl, by simp, ?_⟩
      rw [List.count_cons_self] at h
      exact List.count_eq_zero.mp (by omega)
    · rw [List.count_cons_of_ne (fun e => hx e.symm)] at h
      obtain ⟨l, r, rfl, hl, hr⟩ := ih h
      refine ⟨x :: l, r, rfl, ?_, hr⟩
      intro m
      rcases List.mem_cons.mp m with e | m
      · exact hx e.symm
      · exact hl m

theorem count_split_one (c : Char) (l r : Str) (hl : c ∉ l) (hr : c ∉ r) :
    (l ++ c :: r).count c = 1 := by
  rw [List.count_append, List.count_cons_self, List.count_eq_zero.mpr hl,
    List.count_eq_zero.mpr hr]

theorem split_unique (c : Char) (l r l2 r2 : Str) (hl : c ∉ l) (hl2 : c ∉ l2)
    (h : l ++ c :: r = l2 ++ c :: r2) : l = l2 ∧ r = r2 := by
  induction l generalizing l2 with
  | nil =>
    cases l2 with
    | nil => simpa using h
    | cons y ys =>
      simp at h
      exact absurd (by simp [h.1]) hl2
  | cons x xs ih =>
    cases l2 with
    | nil =>
      simp at h
      exact absurd (by simp [h.1]) hl
    | cons y ys =>
      simp at h
      have hxs : c ∉ xs := fun m => hl (List.mem_cons_of_mem _ m)
      have hys : c ∉ ys := fun m => hl2 (List.mem_cons_of_mem _ m)
      obtain ⟨e1, e2⟩ := ih ys hxs hys h.2
      exact ⟨by rw [h.1, e1], e2⟩

theorem Split_no_sep (sep : Char) (s : Str) : ∀ l ∈ Split sep s, sep ∉ l := by
  induction s with
  | nil =>
    intro l hl
    simp only [Split, List.mem_singleton] at hl
    subst hl
    simp
  | cons c cs ih =>
    intro l hl
    unfold Split at hl
    by_cases hc : c = sep
    · rw [if_pos hc] at hl
      rcases List.mem_cons.mp hl with e | m
      · subst e
        simp
      · exact ih l m
    · rw [if_neg hc] at hl
      cases hsp : Split sep cs with
      | nil => exact absurd hsp (Split_ne_nil sep cs)
      | cons q qs =>
        rw [hsp] at hl ih
        rcases List.mem_cons.mp hl with e | m
        · subst e
          intro hm
          rcases List.mem_cons.mp hm with e2 | m2
          · exact hc e2.symm
          · exact ih q (List.mem_cons_self _ _) m2
        · exact ih l (List.mem_cons_of_mem _ m)

theorem Split_joinLines (ls : List Str) (hne : ls ≠ []) (h : ∀ l ∈ ls, '\n' ∉ l) :
    Split '\n' (joinLines ls) = ls := by
  induction ls with
  | nil => exact absurd rfl hne
  | cons l rest ih =>
    cases rest with
    | nil =>
      exact Split_of_not_mem '\n' l (h l (List.mem_cons_self _ _))
    | cons l2 rest2 =>
      have hj : joinLines (l :: l2 :: rest2) = l ++ '\n' :: joinLines (l2 :: rest2) := rfl
      rw [hj, Split_append_sep '\n' l _ (h l (List.mem_cons_self _ _)),
        ih (by simp) (fun x hx => h x (List.mem_cons_of_mem _ hx))]

/-! ### Trimming -/

theorem TrimRight_cons_of_not_space (c : Char) (r : Str) (hc : IsSpace c = false) :
    TrimRight (c :: r) = c :: TrimRight r := by
  conv_lhs => unfold TrimRight
  split
  · next h => simp [hc, h]
  · rfl

theorem TrimRight_cons_of_ne_nil (c : Char) (r : Str) (h : TrimRight r ≠ []) :
    TrimRight (c :: r) = c :: TrimRight r := by
  conv_lhs => unfold TrimRight
  split
  · next h0 => exact absurd h0 h
  · rfl

theorem TrimRight_cons_space_nil (c : Char) (r : Str) (hc : IsSpace c = true)
    (h : TrimRight r = []) : TrimRight (c :: r) = [] := by
  conv_lhs => unfold TrimRight
  simp [h, hc]

theorem TrimRight_append_of_ne_nil (l r : Str) (h : TrimRight r ≠ []) :
    TrimRight (l ++ r) = l ++ TrimRight r := by
  induction l with
  | nil => rfl
  | cons x xs ih =>
    have hne : TrimRight (xs ++ r) ≠ [] := by
      rw [ih]
      intro e
      exact h (List.append_eq_nil.mp e).2
    rw [List.cons_append, TrimRight_cons_of_ne_nil x (xs ++ r) hne, ih, List.cons_append]

theorem TrimRight_append_cons (l r : Str) (c : Char) (hc : IsSpace c = false) :
    TrimRight (l ++ c :: r) = l ++ c :: TrimRight r := by
  have h : TrimRight (c :: r) = c :: TrimRight r := TrimRight_cons_of_not_space c r hc
  rw [TrimRight_append_of_ne_nil l (c :: r) (by rw [h]; simp), h]

theorem TrimLeft_append_cons (l r : Str) (c : Char) (hc : IsSpace c = false) :
    TrimLeft (l ++ c :: r) = TrimLeft l ++ c :: r := by
  induction l with
  | nil => simp [TrimLeft, hc]
  | cons x xs ih =>
    by_cases hx : IsSpace x = true
    · simp [TrimLeft, hx, ih]
    · simp [TrimLeft, hx]

theorem TrimLeft_idem (s : Str) : TrimLeft (TrimLeft s) = TrimLeft s := by
  induction s with
  | nil => rfl
  | cons x xs ih =>
    by_cases hx : IsSpace x = true
    · simp [TrimLeft, hx, ih]
    · simp [TrimLeft, hx]

theorem TrimLeft_TrimRight_comm (s : Str) : TrimLeft (TrimRight s) = TrimRight (TrimLeft s) := by
  induction s with
  | nil => rfl
  | cons x xs ih =>
    by_cases hx : IsSpace x = true
    · have hl : TrimLeft (x :: xs) = TrimLeft xs := by simp [TrimLeft, hx]
      rw [hl, ← ih]
      by_cases hn : TrimRight xs = []
      · rw [TrimRight_cons_space_nil x xs hx hn, hn]
      · rw [TrimRight_cons_of_ne_nil x xs hn]
        simp [TrimLeft, hx]
    · have hx2 : IsSpace x = false := by simpa using hx
      have hl : TrimLeft (x :: xs) = x :: xs := by simp [TrimLeft, hx2]
      rw [hl, TrimRight_cons_of_not_space x xs hx2]
      simp [TrimLeft, hx2]

theorem TrimRight_idem (s : Str) : TrimRight (TrimRight s) = TrimRight s := by
  induction s with
  | nil => rfl
  | cons x xs ih =>
    by_cases hn : TrimRight xs = []
    · by_cases hx : IsSpace x = true
      · rw [TrimRight_cons_space_nil x xs hx hn]
        rfl
      · have hx2 : IsSpace x = false := by simpa using hx
        rw [TrimRight_cons_of_not_space x xs hx2, TrimRight_cons_of_not_space x _ hx2, ih]
    · rw [TrimRight_cons_of_ne_nil x xs hn, TrimRight_cons_of_ne_nil x _ (by rw [ih]; exact hn),
        ih]

/-- Trimming a line around a non-space character trims the two sides. -/
theorem TrimSpace_append_cons (l r : Str) (c : Char) (hc : IsSpace c = false) :
    TrimSpace (l ++ c :: r) = TrimLeft l ++ c :: TrimRight r := by
  unfold TrimSpace
  rw [TrimLeft_append_cons l r c hc, TrimRight_append_cons _ r c hc]

theorem TrimSpace_TrimLeft (s : Str) : TrimSpace (TrimLeft s) = TrimSpace s := by
  unfold TrimSpace
  rw [TrimLeft_idem]

theorem TrimSpace_TrimRight (s : Str) : TrimSpace (TrimRight s) = TrimSpace s := by
  unfold TrimSpace
  rw [TrimLeft_TrimRight_comm, TrimRight_idem]

theorem TrimSpace_idem (s : Str) : TrimSpace (TrimSpace s) = TrimSpace s := by
  unfold TrimSpace
  rw [TrimLeft_TrimRight_comm (TrimLeft s), TrimLeft_idem, TrimRight_idem]

theorem mem_TrimLeft (c : Char) (s : Str) (hc : IsSpace c = false) :
    c ∈ TrimLeft s ↔ c ∈ s := by
  induction s with
  | nil => rfl
  | cons x xs ih =>
    by_cases hx : IsSpace x = true
    · have hne : c ≠ x := fun e => by rw [e, hx] at hc; cases hc
      simp [TrimLeft, hx, ih, hne]
    · simp [TrimLeft, hx]

theorem mem_TrimRight (c : Char) (s : Str) (hc : IsSpace c = false) :
    c ∈ TrimRight s ↔ c ∈ s := by
  induction s with
  | nil => rfl
  | cons x xs ih =>
    by_cases hn : TrimRight xs = []
    · have hxs : c ∉ xs := fun m => by
        have := ih.mpr m
        rw [hn] at this
        cases this
      by_cases hx : IsSpace x = true
      · have hne : c ≠ x := fun e => by rw [e, hx] at hc; cases hc
        rw [TrimRight_cons_space_nil x xs hx hn]
        simp [hne, hxs]
      · have hx2 : IsSpace x = false := by simpa using hx
        rw [TrimRight_cons_of_not_space x xs hx2, hn]
        simp [hxs]
    · rw [TrimRight_cons_of_ne_nil x xs hn]
      simp [ih]

theorem mem_TrimSpace (c : Char) (s : Str) (hc : IsSpace c = false) :
    c ∈ TrimSpace s ↔ c ∈ s := by
  unfold TrimSpace
  rw [mem_TrimRight c _ hc, mem_TrimLeft c _ hc]

theorem count_TrimLeft (c : Char) (s : Str) (hc : IsSpace c = false) :
    (TrimLeft s).count c = s.count c := by
  induction s with
  | nil => rfl
  | cons x xs ih =>
    by_cases hx : IsSpace x = true
    · have hne : x ≠ c := fun e => by rw [← e, hx] at hc; cases hc
      have hne2 : (x == c) = false := by simpa using hne
      simp [TrimLeft, hx, ih, List.count_cons, hne2]
    · simp [TrimLeft, hx]

theorem count_TrimRight (c : Char) (s : Str) (hc : IsSpace c = false) :
    (TrimRight s).count c = s.count c := by
  induction s with
  | nil => rfl
  | cons x xs ih =>
    by_cases hn : TrimRight xs = []
    · have hxs : xs.count c = 0 := by rw [← ih, hn]; rfl
      by_cases hx : IsSpace x = true
      · have hne : x ≠ c := fun e => by rw [← e, hx] at hc; cases hc
        have hne2 : (x == c) = false := by simpa using hne
        rw [TrimRight_cons_space_nil x xs hx hn]
        simp [List.count_cons, hne2, hxs]
      · have hx2 : IsSpace x = false := by simpa using hx
        rw [TrimRight_cons_of_not_space x xs hx2, hn]
        simp [List.count_cons, hxs]
    · rw [TrimRight_cons_of_ne_nil x xs hn]
      simp [List.count_cons, ih]

theorem count_TrimSpace (c : Char) (s : Str) (hc : IsSpace c = false) :
    (TrimSpace s).count c = s.count c := by
  unfold TrimSpace
  rw [count_TrimRight c _ hc, count_TrimLeft c _ hc]

theorem TrimLeft_eq_nil_iff (s : Str) : TrimLeft s = [] ↔ ∀ c ∈ s, IsSpace c = true := by
  induction s with
  | nil => simp [TrimLeft]
  | cons x xs ih =>
    by_cases hx : IsSpace x = true
    · simp [TrimLeft, hx, ih]
    · simp [TrimLeft, hx]

theorem TrimRight_eq_nil_iff (s : Str) : TrimRight s = [] ↔ ∀ c ∈ s, IsSpace c = true := by
  induction s with
  | nil => simp [TrimRight]
  | cons x xs ih =>
    by_cases hn : TrimRight xs = []
    · by_cases hx : IsSpace x = true
      · rw [TrimRight_cons_space_nil x xs hx hn]
        simp only [List.mem_cons, forall_eq_or_imp, hx, true_and, true_iff]
        exact ih.mp hn
      · have hx2 : IsSpace x = false := by simpa using hx
        rw [TrimRight_cons_of_not_space x xs hx2]
        simp [hx2]
    · rw [TrimRight_cons_of_ne_nil x xs hn]
      have : ¬ ∀ c ∈ xs, IsSpace c = true := fun h => hn (ih.mpr h)
      simp only [List.cons_ne_nil, false_iff]
      intro hall
      exact this (fun c hc => hall c (List.mem_cons_of_mem _ hc))

/-- The trimmed text is empty exactly when the text is empty or all whitespace. -/
theorem TrimSpace_eq_nil_iff (s : Str) : TrimSpace s = [] ↔ ∀ c ∈ s, IsSpace c = true := by
  unfold TrimSpace
  rw [← TrimLeft_TrimRight_comm, TrimLeft_eq_nil_iff]
  constructor
  · intro h
    by_contra hcon
    push_neg at hcon
    obtain ⟨c, hc, hsp⟩ := hcon
    have hsp2 : IsSpace c = false := by simpa using hsp
    have := h c ((mem_TrimRight c s hsp2).mpr hc)
    rw [hsp2] at this
    cases this
  · intro h
    rw [(TrimRight_eq_nil_iff s).mpr h]
    simp

/-! ### Integer parsing -/

theorem foldl_digit_ge (cs : Str) (n : Nat) :
    n ≤ cs.foldl (fun n c => n * 10 + (c.toNat - 48)) n := by
  induction cs generalizing n with
  | nil => exact Nat.le_refl n
  | cons c cs ih =>
    simp only [List.foldl_cons]
    exact Nat.le_trans (by omega) (ih (n * 10 + (c.toNat - 48)))

theorem parseUintLoop_ok_iff (s : Str) (n v : Nat) (hn : n ≤ 2 ^ 64 - 1) :
    parseUintLoop s n = .ok v ↔
      (∀ c ∈ s, 48 ≤ c.toNat ∧ c.toNat ≤ 57) ∧
        s.foldl (fun n c => n * 10 + (c.toNat - 48)) n ≤ 2 ^ 64 - 1 ∧
        v = s.foldl (fun n c => n * 10 + (c.toNat - 48)) n := by
  induction s generalizing n with
  | nil =>
    simp only [parseUintLoop, Except.ok.injEq, List.not_mem_nil, false_implies, implies_true,
      List.foldl_nil, true_and]
    constructor
    · intro h
      exact ⟨hn, h.symm⟩
    · intro h
      exact h.2.symm
  | cons c cs ih =>
    have hge := foldl_digit_ge cs (n * 10 + (c.toNat - 48))
    unfold parseUintLoop
    simp only [List.foldl_cons, List.mem_cons, forall_eq_or_imp]
    by_cases hd : 48 ≤ c.toNat ∧ c.toNat ≤ 57
    · rw [if_pos hd]
      by_cases h1 : n ≥ (2 ^ 64 - 1) / 10 + 1
      · rw [if_pos h1]
        constructor
        · intro h
          cases h
        · rintro ⟨_, hle, _⟩
          exfalso
          have : (2 ^ 64 - 1) / 10 + 1 ≤ n := h1
          norm_num at this hle hge
          omega
      · rw [if_neg h1]
        by_cases h2 : n * 10 + (c.toNat - 48) > 2 ^ 64 - 1
        · rw [if_pos h2]
          constructor
          · intro h
            cases h
          · rintro ⟨_, hle, _⟩
            exfalso
            omega
        · rw [if_neg h2, ih (n * 10 + (c.toNat - 48)) (by omega)]
          constructor
          · rintro ⟨ha, hb, hc⟩
            exact ⟨⟨hd, ha⟩, hb, hc⟩
          · rintro ⟨⟨_, ha⟩, hb, hc⟩
            exact ⟨ha, hb, hc⟩
    · rw [if_neg hd]
      constructor
      · intro h
        cases h
      · rintro ⟨⟨hd2, _⟩, _, _⟩
        exact absurd hd2 hd

theorem isDigits_iff (s : Str) :
    isDigits s = true ↔ s ≠ [] ∧ ∀ c ∈ s, 48 ≤ c.toNat ∧ c.toNat ≤ 57 := by
  cases s with
  | nil => simp [isDigits]
  | cons c cs => simp [isDigits]

theorem ParseUint_ok_iff (s : Str) (v : Nat) :
    ParseUint s = .ok v ↔
      isDigits s = true ∧ decimalValue s ≤ 2 ^ 64 - 1 ∧ v = decimalValue s := by
  rw [isDigits_iff]
  cases s with
  | nil =>
    simp only [ParseUint, ne_eq, not_true_eq_false, false_and, iff_false]
    intro h
    cases h
  | cons c cs =>
    simp only [ParseUint]
    rw [parseUintLoop_ok_iff (c :: cs) 0 v (by norm_num)]
    simp only [ne_eq, List.cons_ne_nil, not_false_eq_true, true_and, decimalValue]

theorem parseSigned_ok_iff (neg : Bool) (s : Str) (v : Int) :
    parseSigned neg s = .ok v ↔
      isDigits s = true ∧
        v = (if neg then -(decimalValue s : Int) else (decimalValue s : Int)) ∧
        InIntRange v := by
  unfold parseSigned
  cases hp : ParseUint s with
  | error e =>
    have hno : ¬ (isDigits s = true ∧ decimalValue s ≤ 2 ^ 64 - 1) := by
      intro h
      have := (ParseUint_ok_iff s (decimalValue s)).mpr ⟨h.1, h.2, rfl⟩
      rw [hp] at this
      cases this
    have hrhs : ¬ (isDigits s = true ∧
        v = (if neg then -(decimalValue s : Int) else (decimalValue s : Int)) ∧
        InIntRange v) := by
      rintro ⟨h1, h2, h3, h4⟩
      apply hno
      refine ⟨h1, ?_⟩
      simp only [intSize] at h3 h4
      cases neg
      · simp only [Bool.false_eq_true, if_false] at h2
        subst h2
        norm_num at h4 ⊢
        omega
      · simp only [if_true] at h2
        subst h2
        norm_num at h3 ⊢
        omega
    cases e
    · simp only []
      exact ⟨fun h => (by cases h), fun h => absurd h hrhs⟩
    · simp only []
      exact ⟨fun h => (by cases h), fun h => absurd h hrhs⟩
  | ok un =>
    obtain ⟨hd, hle, hun⟩ := (ParseUint_ok_iff s un).mp hp
    subst hun
    simp only [hd, true_and, InIntRange, intSize]
    cases neg
    · simp only [Bool.false_eq_true, if_false, true_and, false_and]
      by_cases h1 : decimalValue s ≥ 2 ^ (64 - 1)
      · rw [if_pos h1]
        constructor
        · intro h
          cases h
        · rintro ⟨h2, _, h4⟩
          subst h2
          norm_num at h1 h4
          omega
      · rw [if_neg h1]
        constructor
        · intro h
          injection h with h
          subst h
          norm_num at h1 ⊢
          omega
        · rintro ⟨h2, _⟩
          rw [h2]
    · rw [if_neg (by simp)]
      simp only [if_true, true_and]
      by_cases h1 : decimalValue s > 2 ^ (64 - 1)
      · rw [if_pos h1]
        constructor
        · intro h
          cases h
        · rintro ⟨h2, h3, _⟩
          subst h2
          norm_num at h1 h3
          omega
      · rw [if_neg h1]
        constructor
        · intro h
          injection h with h
          subst h
          norm_num at h1 ⊢
          omega
        · rintro ⟨h2, _⟩
          rw [h2]

/-- The model of `strconv.Atoi` succeeds with `v` exactly on the base-10 signed
integer literals that denote `v` and lie in the range of `int`. -/
theorem Atoi_ok_iff (s : Str) (v : Int) :
    Atoi s = .ok v ↔ literalInt s = some v ∧ InIntRange v := by
  have key : ∀ (r : Except NumErr Int),
      (match r with
        | .ok n => (Except.ok n : Except NumError Int)
        | .error e => .error ⟨s, e⟩) = .ok v ↔ r = .ok v := by
    intro r
    cases r with
    | ok n => simp
    | error e => simp
  unfold Atoi
  simp only []
  rw [key]
  cases s with
  | nil =>
    simp only [literalInt]
    constructor
    · intro h
      cases h
    · rintro ⟨h, _⟩
      cases h
  | cons c cs =>
    simp only [literalInt]
    by_cases h1 : c = '+'
    · simp only [h1, if_true]
      rw [parseSigned_ok_iff]
      by_cases hd : isDigits cs = true
      · simp only [hd, if_true, Bool.false_eq_true, if_false, Option.some.injEq, true_and]
        constructor
        · rintro ⟨h2, h3⟩
          exact ⟨h2.symm, h3⟩
        · rintro ⟨h2, h3⟩
          exact ⟨h2.symm, h3⟩
      · simp [hd]
    · simp only [h1, if_false]
      by_cases h2 : c = '-'
      · simp only [h2, if_true]
        rw [parseSigned_ok_iff]
        by_cases hd : isDigits cs = true
        · simp only [hd, if_true, Option.some.injEq, true_and]
          constructor
          · rintro ⟨h2, h3⟩
            exact ⟨h2.symm, h3⟩
          · rintro ⟨h2, h3⟩
            exact ⟨h2.symm, h3⟩
        · simp [hd]
      · simp only [h2, if_false]
        rw [parseSigned_ok_iff]
        by_cases hd : isDigits (c :: cs) = true
        · simp only [hd, if_true, Bool.false_eq_true, if_false, Option.some.injEq, true_and]
          constructor
          · rintro ⟨h2, h3⟩
            exact ⟨h2.symm, h3⟩
          · rintro ⟨h2, h3⟩
            exact ⟨h2.symm, h3⟩
        · simp [hd]

/-- The model of `strconv.Atoi` fails exactly outside the in-range literals, and
the error then names the offending text. -/
theorem Atoi_error_iff (s : Str) :
    (∃ err, Atoi s = .error err) ↔ ¬ IsIntLiteralInRange s := by
  constructor
  · rintro ⟨err, h⟩ ⟨v, hv, hr⟩
    rw [(Atoi_ok_iff s v).mpr ⟨hv, hr⟩] at h
    cases h
  · intro h
    cases ha : Atoi s with
    | error err => exact ⟨err, rfl⟩
    | ok v => exact absurd ⟨v, (Atoi_ok_iff s v).mp ha⟩ h

theorem Atoi_error_Num (s : Str) (err : NumError) (h : Atoi s = .error err) :
    err.Num = s := by
  unfold Atoi at h
  simp only [] at h
  split at h
  · cases h
  · injection h with h
    rw [← h]

/-! ## The key-value validation -/

theorem validateKeyValue_bracket (idx : Nat) (line : Str) (h : '[' ∈ line ∨ ']' ∈ line) :
    validateKeyValue idx line = .fail (.ForbiddenBracket (idx + 1)) := by
  have : Contains line '[' = true ∨ Contains line ']' = true := by
    simpa [Contains] using h
  simp [validateKeyValue, this]

theorem validateKeyValue_missing (idx : Nat) (line : Str) (h1 : '[' ∉ line)
    (h2 : ']' ∉ line) (h : '=' ∉ line) :
    validateKeyValue idx line = .fail (.MissingSeparator (idx + 1)) := by
  simp [validateKeyValue, Contains, h1, h2, h]

theorem validateKeyValue_ambiguous (idx : Nat) (line : Str) (h1 : '[' ∉ line)
    (h2 : ']' ∉ line) (h : 1 < line.count '=') :
    validateKeyValue idx line = .fail (.AmbiguousSeparator (idx + 1)) := by
  have hmem : '=' ∈ line := List.count_pos_iff.mp (by omega)
  have hne : ¬ Count line '=' = 1 := by unfold Count; omega
  simp [validateKeyValue, Contains, h1, h2, hmem, hne]

theorem validateKeyValue_split (idx : Nat) (l r : Str) (h1 : '[' ∉ l ++ '=' :: r)
    (h2 : ']' ∉ l ++ '=' :: r) (hl : '=' ∉ l) (hr : '=' ∉ r) :
    validateKeyValue idx (l ++ '=' :: r) =
      if TrimSpace l = [] ∨ TrimSpace r = [] then .fail (.EmptyKeyOrValue (idx + 1))
      else .ok (TrimSpace l, TrimSpace r) := by
  have hmem : '=' ∈ l ++ '=' :: r := by simp
  have hcount : Count (l ++ '=' :: r) '=' = 1 := count_split_one '=' l r hl hr
  have hsplit : Split '=' (l ++ '=' :: r) = [l, r] := by
    rw [Split_append_sep '=' l r hl, Split_of_not_mem '=' r hr]
  unfold validateKeyValue
  rw [if_neg (by simpa [Contains] using And.intro h1 h2), if_neg (by simp [Contains]),
    if_neg (by simp [hcount])]
  simp only [hsplit]
  rfl

/-- C2. The key-value validation of `loadIniConfig` accepts a line, yielding
`(key, value)`, exactly when the line holds no `[` or `]`, holds exactly one `=`
(it is `l ++ "=" ++ r` with no `=` in `l` or `r`), both sides are non-empty after
trimming, and `key`, `value` are the two sides with surrounding whitespace removed. -/
theorem validateKeyValue_accepts_iff (idx : Nat) (line key value : Str) :
    validateKeyValue idx line = .ok (key, value) ↔
      '[' ∉ line ∧ ']' ∉ line ∧
        ∃ l r, line = l ++ '=' :: r ∧ '=' ∉ l ∧ '=' ∉ r ∧
          TrimSpace l ≠ [] ∧ TrimSpace r ≠ [] ∧ key = TrimSpace l ∧ value = TrimSpace r := by
  constructor
  · intro h
    by_cases hb : '[' ∈ line ∨ ']' ∈ line
    · rw [validateKeyValue_bracket idx line hb] at h
      cases h
    · have h1 : '[' ∉ line := fun m => hb (Or.inl m)
      have h2 : ']' ∉ line := fun m => hb (Or.inr m)
      by_cases he : '=' ∈ line
      · by_cases hc : line.count '=' = 1
        · obtain ⟨l, r, rfl, hl, hr⟩ := exists_split_of_count_one '=' line hc
          rw [validateKeyValue_split idx l r h1 h2 hl hr] at h
          by_cases hk : TrimSpace l = [] ∨ TrimSpace r = []
          · rw [if_pos hk] at h
            cases h
          · rw [if_neg hk] at h
            injection h with h
            injection h with hk1 hv1
            exact ⟨h1, h2, l, r, rfl, hl, hr, fun e => hk (Or.inl e),
              fun e => hk (Or.inr e), hk1.symm, hv1.symm⟩
        · have hpos : 0 < line.count '=' := List.count_pos_iff.mpr he
          rw [validateKeyValue_ambiguous idx line h1 h2 (by omega)] at h
          cases h
      · rw [validateKeyValue_missing idx line h1 h2 he] at h
        cases h
  · rintro ⟨h1, h2, l, r, rfl, hl, hr, hk, hv, rfl, rfl⟩
    rw [validateKeyValue_split idx l r h1 h2 hl hr, if_neg]
    rintro (e | e)
    · exact hk e
    · exact hv e

/-- The validation never panics: the two index expressions on `key_value` are
evaluated only when the split has two parts. -/
theorem validateKeyValue_no_panic (idx : Nat) (line : Str) (p : PanicKind) :
    validateKeyValue idx line ≠ .panic p := by
  by_cases hb : '[' ∈ line ∨ ']' ∈ line
  · rw [validateKeyValue_bracket idx line hb]
    simp
  · have h1 : '[' ∉ line := fun m => hb (Or.inl m)
    have h2 : ']' ∉ line := fun m => hb (Or.inr m)
    by_cases he : '=' ∈ line
    · by_cases hc : line.count '=' = 1
      · obtain ⟨l, r, rfl, hl, hr⟩ := exists_split_of_count_one '=' line hc
        rw [validateKeyValue_split idx l r h1 h2 hl hr]
        split <;> simp
      · have hpos : 0 < line.count '=' := List.count_pos_iff.mpr he
        rw [validateKeyValue_ambiguous idx line h1 h2 (by omega)]
        simp
    · rw [validateKeyValue_missing idx line h1 h2 he]
      simp

/-! ## The loop -/

theorem runLines_append (pre rest : List Str) (idx : Nat) (st : State) :
    runLines idx (pre ++ rest) st =
      match runLines idx pre st with
      | .next st1 => runLines (idx + pre.length) rest st1
      | .fail e st1 => .fail e st1
      | .panic p st1 => .panic p st1 := by
  induction pre generalizing idx st with
  | nil => simp [runLines]
  | cons l ls ih =>
    simp only [List.cons_append, runLines, List.length_cons]
    cases h : processLine idx l st with
    | next st1 =>
      have e : idx + 1 + ls.length = idx + (ls.length + 1) := by omega
      have := ih (idx + 1) st1
      rw [e] at this
      exact this
    | fail e st1 => rfl
    | panic p st1 => rfl

theorem processLine_skipped (idx : Nat) (raw : Str) (st : State)
    (h : IsSkipped (TrimSpace raw)) : processLine idx raw st = .next st := by
  unfold processLine
  rcases h with h | h | h
  · simp [h]
  · simp [h]
  · simp [h]

theorem byteAt_last (line : Str) : byteAt line (line.length - 1) = line.getLast? := by
  unfold byteAt
  rw [List.get?_eq_getElem?, List.getLast?_eq_getElem?]

theorem processLine_keyValue (idx : Nat) (raw : Str) (st : State)
    (h : IsKeyValueCandidate (TrimSpace raw)) :
    processLine idx raw st =
      match validateKeyValue idx (TrimSpace raw) with
      | .fail e => .fail e st
      | .panic p => .panic p st
      | .ok (content_key, content_value) => assign content_key content_value st := by
  obtain ⟨hs, hh⟩ := h
  unfold IsSkipped at hs
  unfold IsHeaderLine at hh
  push_neg at hs
  obtain ⟨hne, hc1, hc2⟩ := hs
  unfold processLine
  simp only [hne, hc1, hc2, if_false, or_self, Bool.false_eq_true]
  rw [byteAt_last]
  cases hline : TrimSpace raw with
  | nil => exact absurd hline hne
  | cons c cs =>
    rw [hline] at hh
    simp only [byteAt, List.get?_cons_zero]
    by_cases hc : c = '['
    · simp only [hc, if_true]
      subst hc
      simp only [List.head?_cons, true_and] at hh
      cases hl : ('[' :: cs).getLast? with
      | none => simp at hl
      | some last =>
        have : last ≠ ']' := fun e => hh (by rw [hl, e])
        simp only [this, if_false]
    · simp only [hc, if_false]

theorem processLine_header (idx : Nat) (raw : Str) (st : State) (interior : Str)
    (h : TrimSpace raw = '[' :: interior ++ [']']) :
    processLine idx raw st =
      if TrimSpace interior = [] then .fail (.EmptySectionName (idx + 1)) st
      else .next ⟨st.dest, selectSection st.dest.fields (TrimSpace interior) st.structName⟩ := by
  unfold processLine
  simp only [h]
  rw [byteAt_last]
  have hslice : slice ('[' :: (interior ++ [']'])) 1 (List.length interior + 1)
      = some interior := by
    unfold slice
    simp
  have hlast : ('[' :: (interior ++ [']'])).getLast? = some ']' := by
    rw [← List.cons_append, List.getLast?_append]
    simp
  have hfirst : byteAt ('[' :: (interior ++ [']'])) 0 = some '[' := rfl
  simp [HasPrefix, sectionHeader, hslice, hlast, hfirst]

theorem header_shape (line : Str) (h : IsHeaderLine line) :
    ∃ interior, line = '[' :: interior ++ [']'] := by
  obtain ⟨h1, h2⟩ := h
  cases line with
  | nil => simp at h1
  | cons c cs =>
    simp only [List.head?_cons, Option.some.injEq] at h1
    subst h1
    rcases List.eq_nil_or_concat cs with e | ⟨init, last, e⟩
    · subst e
      simp at h2
    · subst e
      rw [List.concat_eq_append, ← List.cons_append, List.getLast?_append] at h2
      simp at h2
      subst h2
      exact ⟨init, by simp⟩

theorem header_of_shape (interior : Str) : IsHeaderLine ('[' :: interior ++ [']']) := by
  refine ⟨rfl, ?_⟩
  rw [List.getLast?_append]
  simp

theorem header_not_skipped (interior : Str) : ¬ IsSkipped ('[' :: interior ++ [']']) := by
  simp [IsSkipped, HasPrefix]

/-- Every trimmed line is skipped, a header, or a key-value candidate. -/
theorem line_cases (line : Str) :
    IsSkipped line ∨ (∃ interior, line = '[' :: interior ++ [']']) ∨
      IsKeyValueCandidate line := by
  by_cases hs : IsSkipped line
  · exact Or.inl hs
  · by_cases hh : IsHeaderLine line
    · exact Or.inr (Or.inl (header_shape line hh))
    · exact Or.inr (Or.inr ⟨hs, hh⟩)

theorem assignSwitch_stopsAt (ro : Bool) (f : Field) (n v : Str) (st : State) :
    (assignSwitch ro f n v st).stopsAt st := by
  unfold assignSwitch
  repeat' split
  all_goals simp [Step.stopsAt]

theorem assign_stopsAt (k v : Str) (st : State) : (assign k v st).stopsAt st := by
  unfold assign
  split
  · simp [Step.stopsAt]
  · split
    · simp [Step.stopsAt]
    · simp only []
      split
      · simp [Step.stopsAt]
      · exact assignSwitch_stopsAt _ _ _ _ _

/-- A line that ends the call (by `return err` or by a panic) has written nothing:
the state at that moment is the state before the line. -/
theorem processLine_stopsAt (idx : Nat) (raw : Str) (st : State) :
    (processLine idx raw st).stopsAt st := by
  rcases line_cases (TrimSpace raw) with hs | ⟨interior, hh⟩ | hk
  · rw [processLine_skipped idx raw st hs]
    trivial
  · rw [processLine_header idx raw st interior hh]
    split <;> simp [Step.stopsAt]
  · rw [processLine_keyValue idx raw st hk]
    cases hv : validateKeyValue idx (TrimSpace raw) with
    | fail e0 => simp [Step.stopsAt]
    | panic p0 => simp [Step.stopsAt]
    | ok kv => exact assign_stopsAt kv.1 kv.2 st

theorem processLine_fail_state (idx : Nat) (raw : Str) (st st1 : State) (e : IniError)
    (h : processLine idx raw st = .fail e st1) : st1 = st := by
  have := processLine_stopsAt idx raw st
  rw [h] at this
  exact this

theorem processLine_panic_state (idx : Nat) (raw : Str) (st st1 : State) (p : PanicKind)
    (h : processLine idx raw st = .panic p st1) : st1 = st := by
  have := processLine_stopsAt idx raw st
  rw [h] at this
  exact this

theorem loadIniConfig_eq (content : Str) (d : Dest) (pre post : List Str) (raw : Str)
    (st : State) (hsplit : Split '\n' content = pre ++ raw :: post)
    (hpre : runLines 0 pre ⟨d, []⟩ = .next st) :
    loadIniConfig (some content) (.structPtr d) =
      match processLine pre.length raw st with
      | .next st1 =>
        (match runLines (pre.length + 1) post st1 with
          | .next st2 => .returned none (.structPtr st2.dest)
          | .fail e st2 => .returned (some e) (.structPtr st2.dest)
          | .panic p st2 => .panicked p (.structPtr st2.dest))
      | .fail e st1 => .returned (some e) (.structPtr st1.dest)
      | .panic p st1 => .panicked p (.structPtr st1.dest) := by
  unfold loadIniConfig
  simp only [hsplit]
  rw [runLines_append, hpre]
  simp only [Nat.zero_add, runLines]
  cases processLine pre.length raw st <;> rfl

theorem loadIniConfig_fail (content : Str) (d : Dest) (pre post : List Str) (raw : Str)
    (st : State) (e : IniError) (hsplit : Split '\n' content = pre ++ raw :: post)
    (hpre : runLines 0 pre ⟨d, []⟩ = .next st)
    (hline : processLine pre.length raw st = .fail e st) :
    loadIniConfig (some content) (.structPtr d) = .returned (some e) (.structPtr st.dest) := by
  rw [loadIniConfig_eq content d pre post raw st hsplit hpre, hline]

/-! ## Errors of key-value candidates -/

theorem processLine_validation_fail (idx : Nat) (raw : Str) (st : State) (e : IniError)
    (hcand : IsKeyValueCandidate (TrimSpace raw))
    (h : validateKeyValue idx (TrimSpace raw) = .fail e) :
    processLine idx raw st = .fail e st := by
  rw [processLine_keyValue idx raw st hcand, h]

/-- C3. When the lines before line `n` are processed without stopping and line `n`
is a key-value candidate, `loadIniConfig` returns, with `n` as the line number:
the forbidden-bracket error if the line contains `[` or `]`; otherwise the
missing-separator error if it contains no `=`; otherwise the ambiguous-separator
error if it contains more than one `=`; otherwise the empty-key-or-value error if
either side of the single `=` trims to empty. -/
theorem keyValue_defect_error (content : Str) (d : Dest) (pre post : List Str) (raw : Str)
    (st : State) (hsplit : Split '\n' content = pre ++ raw :: post)
    (hpre : runLines 0 pre ⟨d, []⟩ = .next st)
    (hcand : IsKeyValueCandidate (TrimSpace raw)) :
    (('[' ∈ raw ∨ ']' ∈ raw) →
      loadIniConfig (some content) (.structPtr d) =
        .returned (some (.ForbiddenBracket (pre.length + 1))) (.structPtr st.dest)) ∧
    ('[' ∉ raw → ']' ∉ raw → '=' ∉ raw →
      loadIniConfig (some content) (.structPtr d) =
        .returned (some (.MissingSeparator (pre.length + 1))) (.structPtr st.dest)) ∧
    ('[' ∉ raw → ']' ∉ raw → 1 < raw.count '=' →
      loadIniConfig (some content) (.structPtr d) =
        .returned (some (.AmbiguousSeparator (pre.length + 1))) (.structPtr st.dest)) ∧
    ('[' ∉ raw → ']' ∉ raw → ∀ l r, raw = l ++ '=' :: r → '=' ∉ l → '=' ∉ r →
      (TrimSpace l = [] ∨ TrimSpace r = []) →
      loadIniConfig (some content) (.structPtr d) =
        .returned (some (.EmptyKeyOrValue (pre.length + 1))) (.structPtr st.dest)) := by
  have hb1 : IsSpace '[' = false := by decide
  have hb2 : IsSpace ']' = false := by decide
  have hb3 : IsSpace '=' = false := by decide
  refine ⟨?_, ?_, ?_, ?_⟩
  · intro hb
    apply loadIniConfig_fail content d pre post raw st _ hsplit hpre
    apply processLine_validation_fail _ _ _ _ hcand
    apply validateKeyValue_bracket
    rcases hb with hb | hb
    · exact Or.inl ((mem_TrimSpace _ _ hb1).mpr hb)
    · exact Or.inr ((mem_TrimSpace _ _ hb2).mpr hb)
  · intro h1 h2 h3
    apply loadIniConfig_fail content d pre post raw st _ hsplit hpre
    apply processLine_validation_fail _ _ _ _ hcand
    exact validateKeyValue_missing _ _ (fun m => h1 ((mem_TrimSpace _ _ hb1).mp m))
      (fun m => h2 ((mem_TrimSpace _ _ hb2).mp m))
      (fun m => h3 ((mem_TrimSpace _ _ hb3).mp m))
  · intro h1 h2 h3
    apply loadIniConfig_fail content d pre post raw st _ hsplit hpre
    apply processLine_validation_fail _ _ _ _ hcand
    exact validateKeyValue_ambiguous _ _ (fun m => h1 ((mem_TrimSpace _ _ hb1).mp m))
      (fun m => h2 ((mem_TrimSpace _ _ hb2).mp m))
      (by rw [count_TrimSpace _ _ hb3]; exact h3)
  · intro h1 h2 l r hraw hl hr hempty
    apply loadIniConfig_fail content d pre post raw st _ hsplit hpre
    apply processLine_validation_fail _ _ _ _ hcand
    have h1t : '[' ∉ TrimSpace raw := fun m => h1 ((mem_TrimSpace _ _ hb1).mp m)
    have h2t : ']' ∉ TrimSpace raw := fun m => h2 ((mem_TrimSpace _ _ hb2).mp m)
    have hshape : TrimSpace raw = TrimLeft l ++ '=' :: TrimRight r := by
      rw [hraw, TrimSpace_append_cons l r '=' hb3]
    rw [hshape] at h1t h2t ⊢
    rw [validateKeyValue_split _ _ _ h1t h2t
      (fun m => hl ((mem_TrimLeft _ _ hb3).mp m)) (fun m => hr ((mem_TrimRight _ _ hb3).mp m)),
      TrimSpace_TrimLeft, TrimSpace_TrimRight, if_pos hempty]

/-- C3, witness: in "[db]\nhost=a=b\n" the second line has two separators. -/
theorem keyValue_defect_error_witness :
    loadIniConfig (some "[db]\nhost=a=b\n".toList) (.structPtr IniConfig) =
      .returned (some (.AmbiguousSeparator 2)) (.structPtr IniConfig) :=
  (keyValue_defect_error "[db]\nhost=a=b\n".toList IniConfig ["[db]".toList] [[]]
    "host=a=b".toList ⟨IniConfig, "AppDbIni".toList⟩ (by decide) (by decide)
    (by decide)).2.2.1 (by decide) (by decide) (by decide)

/-! ## Section headers -/

/-- C9. When the lines before line `n` are processed without stopping and the
trimmed line `n` starts with `[`, ends with `]` and has an empty or all-whitespace
interior, `loadIniConfig` returns the empty-section-name error carrying `n`; the
loop state at the return (destination and active section `structName`) is the one
left by the earlier lines. -/
theorem empty_section_name_error (content : Str) (d : Dest) (pre post : List Str)
    (raw interior : Str) (st : State) (hsplit : Split '\n' content = pre ++ raw :: post)
    (hpre : runLines 0 pre ⟨d, []⟩ = .next st)
    (hline : TrimSpace raw = '[' :: interior ++ [']'])
    (hempty : ∀ c ∈ interior, IsSpace c = true) :
    loadIniConfig (some content) (.structPtr d) =
        .returned (some (.EmptySectionName (pre.length + 1))) (.structPtr st.dest) ∧
      runLines 0 (Split '\n' content) ⟨d, []⟩ =
        .fail (.EmptySectionName (pre.length + 1)) st := by
  have hstep : processLine pre.length raw st = .fail (.EmptySectionName (pre.length + 1)) st := by
    rw [processLine_header pre.length raw st interior hline,
      if_pos ((TrimSpace_eq_nil_iff interior).mpr hempty)]
  refine ⟨loadIniConfig_fail content d pre post raw st _ hsplit hpre hstep, ?_⟩
  rw [hsplit, runLines_append, hpre]
  simp only [Nat.zero_add, runLines, hstep]

/-- C9, witness: "[]\n" returns the empty-section-name error at line 1. -/
theorem empty_section_name_error_witness :
    loadIniConfig (some "[]\n".toList) (.structPtr IniConfig) =
        .returned (some (.EmptySectionName 1)) (.structPtr IniConfig) ∧
      runLines 0 (Split '\n' "[]\n".toList) ⟨IniConfig, []⟩ =
        .fail (.EmptySectionName 1) ⟨IniConfig, []⟩ :=
  empty_section_name_error "[]\n".toList IniConfig [] [[]] "[]".toList [] ⟨IniConfig, []⟩
    (by decide) (by decide) (by decide) (by decide)

/-- C4, the code at "[nosuch]\n": a header naming no sub-record of `IniConfig` is
accepted, the call returns `nil` and the destination is untouched. -/
theorem unknown_section_returns_nil :
    loadIniConfig (some "[nosuch]\n".toList) (.structPtr IniConfig) =
      .returned none (.structPtr IniConfig) := by
  decide

/-- C5, the code at "host=localhost\n": with no section seen, `structName` is empty,
`FieldByName` yields the zero `Value` and `valuestruct.Type()` panics before the
kind check is reached; no error value is returned. -/
theorem keyValue_before_section_panics :
    loadIniConfig (some "host=localhost\n".toList) (.structPtr IniConfig) =
      .panicked .TypeOnZeroValue (.structPtr IniConfig) := by
  decide

/-- C6, the code at "[db]\nnosuchkey=1\n": no field of `AppDbIni` is tagged
`nosuchkey`, `struct_file_name` stays empty, `FieldByName` yields the zero `Value`
and `str_obj.Type()` panics; no error value is returned. -/
theorem unknown_key_panics :
    loadIniConfig (some "[db]\nnosuchkey=1\n".toList) (.structPtr IniConfig) =
      .panicked .TypeOnZeroValue (.structPtr IniConfig) := by
  decide

/-- C8, the code at "[db]\nport=abc\n": the returned error is the wrapped `Atoi`
error, whose message carries no line number. -/
theorem typeConversion_error_has_no_line :
    loadIniConfig (some "[db]\nport=abc\n".toList) (.structPtr IniConfig) =
        .returned (some (.TypeConversion ⟨"abc".toList, .ErrSyntax⟩)) (.structPtr IniConfig) ∧
      (IniError.TypeConversion ⟨"abc".toList, .ErrSyntax⟩).lineNo = none := by
  decide

/-! ## Fail-fast -/

theorem loadIniConfig_structPtr (content : Str) (d : Dest) :
    loadIniConfig (some content) (.structPtr d) =
      match runLines 0 (Split '\n' content) ⟨d, []⟩ with
      | .next st => .returned none (.structPtr st.dest)
      | .fail e st => .returned (some e) (.structPtr st.dest)
      | .panic p st => .panicked p (.structPtr st.dest) :=
  rfl

theorem loadIniConfig_of_lines (content : Str) (d : Dest) (st : State)
    (h : runLines 0 (Split '\n' content) ⟨d, []⟩ = .next st) :
    loadIniConfig (some content) (.structPtr d) = .returned none (.structPtr st.dest) := by
  rw [loadIniConfig_structPtr]
  simp only [h]

/-- C10. If the lines before line `n` are processed without stopping and line `n`
makes the loop return the error `e`, then the call returns `e` with the destination
in the state `st.dest` left by lines `1..n-1`; the same holds for every content that
agrees up to line `n` (whatever follows), and `st.dest` is exactly the destination
produced by a successful load of lines `1..n-1` alone. -/
theorem fail_fast (content : Str) (d : Dest) (pre post : List Str) (raw : Str)
    (st st1 : State) (e : IniError) (hsplit : Split '\n' content = pre ++ raw :: post)
    (hpre : runLines 0 pre ⟨d, []⟩ = .next st)
    (hline : processLine pre.length raw st = .fail e st1) :
    loadIniConfig (some content) (.structPtr d) = .returned (some e) (.structPtr st.dest) ∧
      (∀ content2 post2, Split '\n' content2 = pre ++ raw :: post2 →
        loadIniConfig (some content2) (.structPtr d) =
          .returned (some e) (.structPtr st.dest)) ∧
      loadIniConfig (some (joinLines pre)) (.structPtr d) =
        .returned none (.structPtr st.dest) := by
  have hst : st1 = st := processLine_fail_state _ _ _ _ _ hline
  subst hst
  refine ⟨loadIniConfig_fail content d pre post raw st1 e hsplit hpre hline,
    fun content2 post2 h2 => loadIniConfig_fail content2 d pre post2 raw st1 e h2 hpre hline, ?_⟩
  apply loadIniConfig_of_lines
  by_cases hnil : pre = []
  · subst hnil
    simp only [runLines, Step.next.injEq] at hpre
    subst hpre
    rfl
  · have hno : ∀ l ∈ pre, '\n' ∉ l := fun l hl =>
      Split_no_sep '\n' content l (by rw [hsplit]; exact List.mem_append_left _ hl)
    rw [Split_joinLines pre hnil hno]
    exact hpre

/-- C10, witness: in "[db]\nhost=x\nport=abc\nuser=u\n" the third line fails; the
destination keeps `host = x` from line 2 and `user` is never written. -/
theorem fail_fast_witness :
    loadIniConfig (some "[db]\nhost=x\nport=abc\nuser=u\n".toList) (.structPtr IniConfig) =
        .returned (some (.TypeConversion ⟨"abc".toList, .ErrSyntax⟩))
          (.structPtr (IniConfig.store "AppDbIni".toList "Host".toList (.string "x".toList))) ∧
      (∀ content2 post2,
        Split '\n' content2 = ["[db]".toList, "host=x".toList] ++ "port=abc".toList :: post2 →
        loadIniConfig (some content2) (.structPtr IniConfig) =
          .returned (some (.TypeConversion ⟨"abc".toList, .ErrSyntax⟩))
            (.structPtr (IniConfig.store "AppDbIni".toList "Host".toList
              (.string "x".toList)))) ∧
      loadIniConfig (some (joinLines ["[db]".toList, "host=x".toList])) (.structPtr IniConfig) =
        .returned none
          (.structPtr (IniConfig.store "AppDbIni".toList "Host".toList (.string "x".toList))) :=
  fail_fast "[db]\nhost=x\nport=abc\nuser=u\n".toList IniConfig
    ["[db]".toList, "host=x".toList] ["user=u".toList, []] "port=abc".toList
    ⟨IniConfig.store "AppDbIni".toList "Host".toList (.string "x".toList), "AppDbIni".toList⟩
    ⟨IniConfig.store "AppDbIni".toList "Host".toList (.string "x".toList), "AppDbIni".toList⟩
    (.TypeConversion ⟨"abc".toList, .ErrSyntax⟩) (by decide) (by decide) (by decide)

/-! ## Integer-typed fields -/

theorem assign_int (key value : Str) (st : State) (valuestruct : TopField)
    (fields : List Field) (str_obj : Field) (k : IntKind)
    (hsec : st.dest.FieldByName st.structName = some valuestruct)
    (hstruct : valuestruct.value = .struct fields)
    (hfield : FieldByName fields (findFieldName fields key) = some str_obj)
    (hint : str_obj.value.Kind.toIntKind = some k) :
    assign key value st =
      match Atoi value with
      | .error err => .fail (.TypeConversion err) st
      | .ok num =>
        if ((!valuestruct.Exported && !valuestruct.Anonymous) || !str_obj.Exported) = true then
          .panic .NotSettable st
        else .next
          ⟨st.dest.store st.structName (findFieldName fields key) (.int k (wrapInt k.bits num)),
            st.structName⟩ := by
  have hns : str_obj.value.Kind ≠ Kind.String := by
    intro e
    rw [e] at hint
    cases hint
  unfold assign
  simp only [hsec, hstruct, hfield]
  unfold assignSwitch
  rw [if_neg hns]
  simp only [hint]

/-- C7. For a valid key-value line (line `n`, reached without stopping) whose key
resolves, in the active sub-record, to a field of a signed integer kind: the line
makes the loop return a type-conversion error exactly when the trimmed value is not
a base-10 signed integer literal within the range of `int`; in that case
`loadIniConfig` returns that error, which wraps the `Atoi` error naming the value,
and the destination is the one left by the earlier lines (the field is not
written); when the value is such a literal the line returns no error. -/
theorem typeConversion_iff (content : Str) (d : Dest) (pre post : List Str) (raw : Str)
    (st : State) (key value : Str) (valuestruct : TopField) (fields : List Field)
    (str_obj : Field) (k : IntKind)
    (hsplit : Split '\n' content = pre ++ raw :: post)
    (hpre : runLines 0 pre ⟨d, []⟩ = .next st)
    (hcand : IsKeyValueCandidate (TrimSpace raw))
    (hvalid : validateKeyValue pre.length (TrimSpace raw) = .ok (key, value))
    (hsec : st.dest.FieldByName st.structName = some valuestruct)
    (hstruct : valuestruct.value = .struct fields)
    (hfield : FieldByName fields (findFieldName fields key) = some str_obj)
    (hint : str_obj.value.Kind.toIntKind = some k) :
    ((∃ cause st1, processLine pre.length raw st = .fail (.TypeConversion cause) st1) ↔
        ¬ IsIntLiteralInRange value) ∧
      (¬ IsIntLiteralInRange value →
        ∃ cause, cause.Num = value ∧
          loadIniConfig (some content) (.structPtr d) =
            .returned (some (.TypeConversion cause)) (.structPtr st.dest)) ∧
      (IsIntLiteralInRange value → ∀ e st1, processLine pre.length raw st ≠ .fail e st1) := by
  have hstep : processLine pre.length raw st =
      match Atoi value with
      | .error err => .fail (.TypeConversion err) st
      | .ok num =>
        if ((!valuestruct.Exported && !valuestruct.Anonymous) || !str_obj.Exported) = true then
          .panic .NotSettable st
        else .next
          ⟨st.dest.store st.structName (findFieldName fields key) (.int k (wrapInt k.bits num)),
            st.structName⟩ := by
    rw [processLine_keyValue pre.length raw st hcand, hvalid]
    exact assign_int key value st valuestruct fields str_obj k hsec hstruct hfield hint
  have hok : IsIntLiteralInRange value → ∀ e st1, processLine pre.length raw st ≠ .fail e st1 := by
    rintro ⟨v, hv, hr⟩ e st1 h
    rw [hstep, (Atoi_ok_iff value v).mpr ⟨hv, hr⟩] at h
    simp only [] at h
    split at h <;> cases h
  have herr : ¬ IsIntLiteralInRange value →
      ∃ cause, cause.Num = value ∧
        processLine pre.length raw st = .fail (.TypeConversion cause) st := by
    intro hn
    obtain ⟨err, he⟩ := (Atoi_error_iff value).mpr hn
    refine ⟨err, Atoi_error_Num value err he, ?_⟩
    rw [hstep, he]
  refine ⟨⟨?_, ?_⟩, ?_, hok⟩
  · rintro ⟨cause, st1, h⟩ hlit
    exact hok hlit _ _ h
  · intro hn
    obtain ⟨cause, _, h⟩ := herr hn
    exact ⟨cause, st, h⟩
  · intro hn
    obtain ⟨cause, hnum, h⟩ := herr hn
    exact ⟨cause, hnum, loadIniConfig_fail content d pre post raw st _ hsplit hpre h⟩

/-- C7, witness: in "[db]\nport=abc\n" the value `abc` of the integer field `port`
is no integer literal and the call returns the type-conversion error. -/
theorem typeConversion_iff_witness :
    ∃ cause, cause.Num = "abc".toList ∧
      loadIniConfig (some "[db]\nport=abc\n".toList) (.structPtr IniConfig) =
        .returned (some (.TypeConversion cause)) (.structPtr IniConfig) :=
  (typeConversion_iff "[db]\nport=abc\n".toList IniConfig ["[db]".toList] [[]]
    "port=abc".toList ⟨IniConfig, "AppDbIni".toList⟩ "port".toList "abc".toList
    ⟨"AppDbIni".toList, "db".toList, true, true, .struct AppDbIni⟩ AppDbIni
    ⟨"Post".toList, "port".toList, true, .int .Int 0⟩ .Int
    (by decide) (by decide) (by decide) (by decide) (by decide) rfl (by decide)
    (by decide)).2.1 (by decide)

/-! ## Well-formed files loaded into `IniConfig` -/

theorem activeSection_snoc (lines : List Str) (raw : Str) :
    activeSection (lines ++ [raw]) =
      match headerName raw with
      | some name => some name
      | none => activeSection lines := by
  unfold activeSection activeSectionFrom
  rw [List.foldl_append]
  rfl

theorem takeWhile_split (l r : Str) (hl : '=' ∉ l) :
    (l ++ '=' :: r).takeWhile (fun c => c ≠ '=') = l := by
  induction l with
  | nil => simp
  | cons x xs ih =>
    have hx : x ≠ '=' := fun e => hl (by simp [e])
    have hxs : '=' ∉ xs := fun m => hl (List.mem_cons_of_mem _ m)
    have := ih hxs
    simp only [ne_eq, decide_not] at this
    simp [List.takeWhile_cons, hx, this]

theorem dropWhile_split (l r : Str) (hl : '=' ∉ l) :
    (l ++ '=' :: r).dropWhile (fun c => c ≠ '=') = '=' :: r := by
  induction l with
  | nil => simp
  | cons x xs ih =>
    have hx : x ≠ '=' := fun e => hl (by simp [e])
    have hxs : '=' ∉ xs := fun m => hl (List.mem_cons_of_mem _ m)
    have := ih hxs
    simp only [ne_eq, decide_not] at this
    simp [List.dropWhile_cons, hx, this]

theorem not_header_of_no_bracket (raw : Str) (h : '[' ∉ raw) :
    ¬ IsHeaderLine (TrimSpace raw) := by
  intro hh
  obtain ⟨interior, hi⟩ := header_shape _ hh
  apply h
  apply (mem_TrimSpace '[' raw (by decide)).mp
  rw [hi]
  simp

/-- A line read as a key-value line by `keyValueOf` is a key-value candidate that
the validation of `loadIniConfig` accepts with the same key and value. -/
theorem keyValueOf_some (idx : Nat) (raw key value : Str)
    (h : keyValueOf raw = some (key, value)) :
    IsKeyValueCandidate (TrimSpace raw) ∧
      validateKeyValue idx (TrimSpace raw) = .ok (key, value) ∧ headerName raw = none := by
  have hb1 : IsSpace '[' = false := by decide
  have hb2 : IsSpace ']' = false := by decide
  have hb3 : IsSpace '=' = false := by decide
  unfold keyValueOf at h
  by_cases hs : IsSkipped (TrimSpace raw)
  · rw [if_pos hs] at h
    cases h
  rw [if_neg hs] at h
  by_cases hb : '[' ∈ raw ∨ ']' ∈ raw
  · rw [if_pos hb] at h
    cases h
  rw [if_neg hb] at h
  by_cases hc : raw.count '=' ≠ 1
  · rw [if_pos hc] at h
    cases h
  rw [if_neg hc] at h
  have hc1 : raw.count '=' = 1 := by
    by_contra hne
    exact hc hne
  obtain ⟨l, r, hraw, hl, hr⟩ := exists_split_of_count_one '=' raw hc1
  subst hraw
  rw [takeWhile_split l r hl, dropWhile_split l r hl] at h
  simp only [List.drop_succ_cons, List.drop_zero] at h
  by_cases he : TrimSpace l = [] ∨ TrimSpace r = []
  · rw [if_pos he] at h
    cases h
  rw [if_neg he] at h
  injection h with h
  injection h with hk hv
  have h1 : '[' ∉ l ++ '=' :: r := fun m => hb (Or.inl m)
  have h2 : ']' ∉ l ++ '=' :: r := fun m => hb (Or.inr m)
  have hnh : ¬ IsHeaderLine (TrimSpace (l ++ '=' :: r)) := not_header_of_no_bracket _ h1
  refine ⟨⟨hs, hnh⟩, ?_, ?_⟩
  · have h1t : '[' ∉ TrimSpace (l ++ '=' :: r) := fun m => h1 ((mem_TrimSpace _ _ hb1).mp m)
    have h2t : ']' ∉ TrimSpace (l ++ '=' :: r) := fun m => h2 ((mem_TrimSpace _ _ hb2).mp m)
    rw [TrimSpace_append_cons l r '=' hb3] at h1t h2t ⊢
    rw [validateKeyValue_split _ _ _ h1t h2t
      (fun m => hl ((mem_TrimLeft _ _ hb3).mp m)) (fun m => hr ((mem_TrimRight _ _ hb3).mp m)),
      TrimSpace_TrimLeft, TrimSpace_TrimRight, if_neg he, hk, hv]
  · unfold headerName
    rw [if_neg hnh]

theorem headerName_some (raw name : Str) (h : headerName raw = some name) :
    (∃ interior, TrimSpace raw = '[' :: interior ++ [']'] ∧ TrimSpace interior = name) ∧
      keyValueOf raw = none := by
  unfold headerName at h
  by_cases hh : IsHeaderLine (TrimSpace raw)
  · rw [if_pos hh] at h
    injection h with h
    obtain ⟨interior, hi⟩ := header_shape _ hh
    refine ⟨⟨interior, hi, ?_⟩, ?_⟩
    · rw [hi] at h
      simpa using h
    · have hmem : '[' ∈ raw := by
        apply (mem_TrimSpace '[' raw (by decide)).mp
        rw [hi]
        simp
      unfold keyValueOf
      by_cases hs : IsSkipped (TrimSpace raw)
      · rw [if_pos hs]
      · rw [if_neg hs, if_pos (Or.inl hmem)]
  · rw [if_neg hh] at h
    cases h

theorem skipped_not_header (line : Str) (h : IsSkipped line) : ¬ IsHeaderLine line := by
  intro hh
  obtain ⟨interior, hi⟩ := header_shape _ hh
  rw [hi] at h
  exact header_not_skipped interior h

theorem skipped_headerName (raw : Str) (h : IsSkipped (TrimSpace raw)) :
    headerName raw = none := by
  unfold headerName
  rw [if_neg (skipped_not_header _ h)]

theorem skipped_keyValueOf (raw : Str) (h : IsSkipped (TrimSpace raw)) :
    keyValueOf raw = none := by
  unfold keyValueOf
  rw [if_pos h]

theorem lookup_toDest (v : IniValues) (s k : Str) :
    v.toDest.lookup s k =
      if "db".toList = s then
        (if "host".toList = k then some (.string v.dbHost)
         else if "port".toList = k then some (.int .Int v.dbPort)
         else if "user".toList = k then some (.string v.dbUser)
         else if "pass".toList = k then some (.string v.dbPass)
         else if "name".toList = k then some (.string v.dbName)
         else if "charset".toList = k then some (.string v.dbCharset)
         else none)
      else if "cache".toList = s then
        (if "host".toList = k then some (.string v.cacheHost)
         else if "port".toList = k then some (.int .Int v.cachePort)
         else if "pass".toList = k then some (.string v.cachePass)
         else none)
      else none := by
  unfold Dest.lookup IniValues.toDest
  simp only [List.find?_cons, List.find?_nil]
  by_cases h1 : "db".toList = s
  · simp only [h1, decide_True, if_true]
    repeat' split
    all_goals simp_all
  · simp only [h1, decide_False, if_false]
    by_cases h2 : "cache".toList = s
    · simp only [h2, decide_True, if_true]
      repeat' split
      all_goals simp_all
    · simp only [h2, decide_False, if_false]

theorem wrapInt_of_inRange (n : Int) (h : InIntRange n) : wrapInt IntKind.Int.bits n = n := by
  unfold InIntRange at h
  unfold wrapInt
  simp only [IntKind.bits, intSize] at h ⊢
  norm_num at h ⊢
  rw [Int.emod_eq_of_lt (by omega) (by omega)]
  omega

theorem assign_dbPort (v : IniValues) (value : Str) :
    assign "port".toList value ⟨v.toDest, "AppDbIni".toList⟩ =
      match Atoi value with
      | .error err => .fail (.TypeConversion err) ⟨v.toDest, "AppDbIni".toList⟩
      | .ok num =>
        .next ⟨{ v with dbPort := wrapInt IntKind.Int.bits num }.toDest, "AppDbIni".toList⟩ := by
  rfl

theorem assign_cachePort (v : IniValues) (value : Str) :
    assign "port".toList value ⟨v.toDest, "AppCacheIni".toList⟩ =
      match Atoi value with
      | .error err => .fail (.TypeConversion err) ⟨v.toDest, "AppCacheIni".toList⟩
      | .ok num =>
        .next
          ⟨{ v with cachePort := wrapInt IntKind.Int.bits num }.toDest, "AppCacheIni".toList⟩ := by
  rfl

theorem holds_string (v : IniValues) (sec key value : Str) (hk : key ≠ "port".toList)
    (h : v.toDest.lookup sec key = some (.string value)) : Holds v.toDest sec key value :=
  ⟨fun _ => h, fun e => absurd e hk⟩

theorem holds_port (v : IniValues) (sec value : Str) (n : Int)
    (hn : literalInt value = some n)
    (h : v.toDest.lookup sec "port".toList = some (.int .Int n)) :
    Holds v.toDest sec "port".toList value :=
  ⟨fun hne => absurd rfl hne, fun _ => ⟨n, hn, h⟩⟩

theorem frame_dbHost (v : IniValues) (x : Str) (s k : Str)
    (h : ¬ (s = "db".toList ∧ k = "host".toList)) :
    { v with dbHost := x }.toDest.lookup s k = v.toDest.lookup s k := by
  rw [lookup_toDest, lookup_toDest]
  split_ifs <;> simp_all

theorem assign_dbHost (v : IniValues) (value : Str) :
    assign "host".toList value ⟨v.toDest, "AppDbIni".toList⟩ =
      .next ⟨{ v with dbHost := value }.toDest, "AppDbIni".toList⟩ := by
  rfl

theorem frame_dbPort (v : IniValues) (x : Int) (s k : Str)
    (h : ¬ (s = "db".toList ∧ k = "port".toList)) :
    { v with dbPort := x }.toDest.lookup s k = v.toDest.lookup s k := by
  rw [lookup_toDest, lookup_toDest]
  split_ifs <;> simp_all

theorem frame_dbUser (v : IniValues) (x : Str) (s k : Str)
    (h : ¬ (s = "db".toList ∧ k = "user".toList)) :
    { v with dbUser := x }.toDest.lookup s k = v.toDest.lookup s k := by
  rw [lookup_toDest, lookup_toDest]
  split_ifs <;> simp_all

theorem assign_dbUser (v : IniValues) (value : Str) :
    assign "user".toList value ⟨v.toDest, "AppDbIni".toList⟩ =
      .next ⟨{ v with dbUser := value }.toDest, "AppDbIni".toList⟩ := by
  rfl

theorem frame_dbPass (v : IniValues) (x : Str) (s k : Str)
    (h : ¬ (s = "db".toList ∧ k = "pass".toList)) :
    { v with dbPass := x }.toDest.lookup s k = v.toDest.lookup s k := by
  rw [lookup_toDest, lookup_toDest]
  split_ifs <;> simp_all

theorem assign_dbPass (v : IniValues) (value : Str) :
    assign "pass".toList value ⟨v.toDest, "AppDbIni".toList⟩ =
      .next ⟨{ v with dbPass := value }.toDest, "AppDbIni".toList⟩ := by
  rfl

theorem frame_dbName (v : IniValues) (x : Str) (s k : Str)
    (h : ¬ (s = "db".toList ∧ k = "name".toList)) :
    { v with dbName := x }.toDest.lookup s k = v.toDest.lookup s k := by
  rw [lookup_toDest, lookup_toDest]
  split_ifs <;> simp_all

theorem assign_dbName (v : IniValues) (value : Str) :
    assign "name".toList value ⟨v.toDest, "AppDbIni".toList⟩ =
      .next ⟨{ v with dbName := value }.toDest, "AppDbIni".toList⟩ := by
  rfl

theorem frame_dbCharset (v : IniValues) (x : Str) (s k : Str)
    (h : ¬ (s = "db".toList ∧ k = "charset".toList)) :
    { v with dbCharset := x }.toDest.lookup s k = v.toDest.lookup s k := by
  rw [lookup_toDest, lookup_toDest]
  split_ifs <;> simp_all

theorem assign_dbCharset (v : IniValues) (value : Str) :
    assign "charset".toList value ⟨v.toDest, "AppDbIni".toList⟩ =
      .next ⟨{ v with dbCharset := value }.toDest, "AppDbIni".toList⟩ := by
  rfl

theorem frame_cacheHost (v : IniValues) (x : Str) (s k : Str)
    (h : ¬ (s = "cache".toList ∧ k = "host".toList)) :
    { v with cacheHost := x }.toDest.lookup s k = v.toDest.lookup s k := by
  rw [lookup_toDest, lookup_toDest]
  split_ifs <;> simp_all

theorem assign_cacheHost (v : IniValues) (value : Str) :
    assign "host".toList value ⟨v.toDest, "AppCacheIni".toList⟩ =
      .next ⟨{ v with cacheHost := value }.toDest, "AppCacheIni".toList⟩ := by
  rfl

theorem frame_cachePort (v : IniValues) (x : Int) (s k : Str)
    (h : ¬ (s = "cache".toList ∧ k = "port".toList)) :
    { v with cachePort := x }.toDest.lookup s k = v.toDest.lookup s k := by
  rw [lookup_toDest, lookup_toDest]
  split_ifs <;> simp_all

theorem frame_cachePass (v : IniValues) (x : Str) (s k : Str)
    (h : ¬ (s = "cache".toList ∧ k = "pass".toList)) :
    { v with cachePass := x }.toDest.lookup s k = v.toDest.lookup s k := by
  rw [lookup_toDest, lookup_toDest]
  split_ifs <;> simp_all

theorem assign_cachePass (v : IniValues) (value : Str) :
    assign "pass".toList value ⟨v.toDest, "AppCacheIni".toList⟩ =
      .next ⟨{ v with cachePass := value }.toDest, "AppCacheIni".toList⟩ := by
  rfl

/-- A key-value line of a well-formed file, applied to an `IniConfig` value after
a `db` or `cache` header: the field it names receives the value, every other field
keeps its content, and the loop goes on. -/
theorem assign_wellformed (v : IniValues) (sec key value : Str)
    (hsec : sec = "db".toList ∨ sec = "cache".toList) (hkey : key ∈ schemaKeys sec)
    (hport : key = "port".toList → IsIntLiteralInRange value) :
    ∃ w : IniValues,
      assign key value ⟨v.toDest, structNameOf (some sec)⟩ =
          .next ⟨w.toDest, structNameOf (some sec)⟩ ∧
        Holds w.toDest sec key value ∧
        ∀ s k, ¬ (s = sec ∧ k = key) → w.toDest.lookup s k = v.toDest.lookup s k := by
  have hs1 : structNameOf (some "db".toList) = "AppDbIni".toList := rfl
  have hs2 : structNameOf (some "cache".toList) = "AppCacheIni".toList := rfl
  rcases hsec with rfl | rfl
  · rw [hs1]
    simp only [schemaKeys, if_true, List.mem_cons, List.mem_singleton, List.not_mem_nil,
      or_false] at hkey
    rcases hkey with rfl | rfl | rfl | rfl | rfl | rfl
    · exact ⟨{ v with dbHost := value }, assign_dbHost v value,
        holds_string _ _ _ _ (by decide) rfl, frame_dbHost v value⟩
    · obtain ⟨n, hn, hr⟩ := hport rfl
      refine ⟨{ v with dbPort := n }, ?_, holds_port _ _ _ n hn rfl, frame_dbPort v n⟩
      rw [assign_dbPort, (Atoi_ok_iff value n).mpr ⟨hn, hr⟩]
      simp only [wrapInt_of_inRange n hr]
    · exact ⟨{ v with dbUser := value }, assign_dbUser v value,
        holds_string _ _ _ _ (by decide) rfl, frame_dbUser v value⟩
    · exact ⟨{ v with dbPass := value }, assign_dbPass v value,
        holds_string _ _ _ _ (by decide) rfl, frame_dbPass v value⟩
    · exact ⟨{ v with dbName := value }, assign_dbName v value,
        holds_string _ _ _ _ (by decide) rfl, frame_dbName v value⟩
    · exact ⟨{ v with dbCharset := value }, assign_dbCharset v value,
        holds_string _ _ _ _ (by decide) rfl, frame_dbCharset v value⟩
  · rw [hs2]
    have hne : ¬ "cache".toList = "db".toList := by decide
    simp only [schemaKeys, hne, if_false, if_true, List.mem_cons, List.mem_singleton,
      List.not_mem_nil, or_false] at hkey
    rcases hkey with rfl | rfl | rfl
    · exact ⟨{ v with cacheHost := value }, assign_cacheHost v value,
        holds_string _ _ _ _ (by decide) rfl, frame_cacheHost v value⟩
    · obtain ⟨n, hn, hr⟩ := hport rfl
      refine ⟨{ v with cachePort := n }, ?_, holds_port _ _ _ n hn rfl, frame_cachePort v n⟩
      rw [assign_cachePort, (Atoi_ok_iff value n).mpr ⟨hn, hr⟩]
      simp only [wrapInt_of_inRange n hr]
    · exact ⟨{ v with cachePass := value }, assign_cachePass v value,
        holds_string _ _ _ _ (by decide) rfl, frame_cachePass v value⟩

theorem getD_snoc_lt (ls : List Str) (raw : Str) (i : Nat) (h : i < ls.length) :
    (ls ++ [raw]).getD i [] = ls.getD i [] :=
  List.getD_append ls [raw] [] i h

theorem getD_snoc_last (ls : List Str) (raw : Str) :
    (ls ++ [raw]).getD ls.length [] = raw := by
  rw [List.getD_append_right ls [raw] [] ls.length (Nat.le_refl _)]
  simp

theorem take_snoc_le (ls : List Str) (raw : Str) (i : Nat) (h : i ≤ ls.length) :
    (ls ++ [raw]).take i = ls.take i :=
  List.take_append_of_le_length h

theorem wellFormed_of_snoc (ls : List Str) (raw : Str) (h : WellFormed (ls ++ [raw])) :
    WellFormed ls ∧ lineOk (activeSection ls) raw = true := by
  constructor
  · intro i hi
    have := h i (by rw [List.length_append]; simp; omega)
    rw [take_snoc_le ls raw i (by omega), getD_snoc_lt ls raw i hi] at this
    exact this
  · have := h ls.length (by rw [List.length_append]; simp)
    rw [take_snoc_le ls raw ls.length (Nat.le_refl _), List.take_length,
      getD_snoc_last] at this
    exact this

theorem holds_of_lookup_eq (d d2 : Dest) (sec key value : Str)
    (h : d2.lookup sec key = d.lookup sec key) (hd : Holds d sec key value) :
    Holds d2 sec key value := by
  unfold Holds at hd ⊢
  rw [h]
  exact hd

theorem lastWins_restrict (ls : List Str) (raw : Str) (d : Dest) (hold : LastWins ls d)
    (i : Nat) (sec key value : Str) (hi : i < ls.length)
    (hkv : keyValueOf ((ls ++ [raw]).getD i []) = some (key, value))
    (hsec : activeSection ((ls ++ [raw]).take i) = some sec)
    (hno : ∀ j v2, i < j → j < (ls ++ [raw]).length →
      keyValueOf ((ls ++ [raw]).getD j []) = some (key, v2) →
      activeSection ((ls ++ [raw]).take j) ≠ some sec) :
    Holds d sec key value := by
  rw [getD_snoc_lt ls raw i hi] at hkv
  rw [take_snoc_le ls raw i (by omega)] at hsec
  apply hold i sec key value hi hkv hsec
  intro j v2 hij hj hkj
  have := hno j v2 hij (by rw [List.length_append]; simp; omega)
    (by rw [getD_snoc_lt ls raw j hj]; exact hkj)
  rw [take_snoc_le ls raw j (by omega)] at this
  exact this

theorem lastWins_snoc_other (ls : List Str) (raw : Str) (d : Dest)
    (hkv : keyValueOf raw = none) (hold : LastWins ls d) : LastWins (ls ++ [raw]) d := by
  intro i sec key value hi hkvi hseci hno
  have hi2 : i < ls.length + 1 := by
    rw [List.length_append] at hi
    simpa using hi
  by_cases hlt : i < ls.length
  · exact lastWins_restrict ls raw d hold i sec key value hlt hkvi hseci hno
  · have he : i = ls.length := by omega
    subst he
    rw [getD_snoc_last, hkv] at hkvi
    cases hkvi

theorem lastWins_snoc_kv (ls : List Str) (raw : Str) (d d2 : Dest) (sec key value : Str)
    (hkv : keyValueOf raw = some (key, value)) (hsec : activeSection ls = some sec)
    (hold : LastWins ls d) (hholds : Holds d2 sec key value)
    (hframe : ∀ s k, ¬ (s = sec ∧ k = key) → d2.lookup s k = d.lookup s k) :
    LastWins (ls ++ [raw]) d2 := by
  intro i s k val hi hkvi hseci hno
  have hi2 : i < ls.length + 1 := by
    rw [List.length_append] at hi
    simpa using hi
  by_cases hlt : i < ls.length
  · have hd : Holds d s k val := lastWins_restrict ls raw d hold i s k val hlt hkvi hseci hno
    apply holds_of_lookup_eq d d2 s k val _ hd
    apply hframe
    rintro ⟨hs, hk⟩
    subst hs hk
    have := hno ls.length value hlt (by rw [List.length_append]; simp)
      (by rw [getD_snoc_last]; exact hkv)
    rw [take_snoc_le ls raw ls.length (Nat.le_refl _), List.take_length] at this
    exact this hsec
  · have he : i = ls.length := by omega
    subst he
    rw [getD_snoc_last, hkv] at hkvi
    rw [take_snoc_le ls raw ls.length (Nat.le_refl _), List.take_length, hsec] at hseci
    injection hkvi with hkvi
    injection hkvi with hk hv
    injection hseci with hs
    subst hk hv hs
    exact hholds

theorem lineOk_cases (cur : Option Str) (raw : Str) (h : lineOk cur raw = true) :
    IsSkipped (TrimSpace raw) ∨ headerName raw = some "db".toList ∨
      headerName raw = some "cache".toList ∨
      ∃ key value sec, keyValueOf raw = some (key, value) ∧ cur = some sec ∧
        key ∈ schemaKeys sec ∧ (key = "port".toList → IsIntLiteralInRange value) := by
  unfold lineOk at h
  simp only [Bool.or_eq_true, decide_eq_true_eq] at h
  rcases h with ((h | h) | h) | h
  · exact Or.inl h
  · exact Or.inr (Or.inl h)
  · exact Or.inr (Or.inr (Or.inl h))
  · right; right; right
    cases hk : keyValueOf raw with
    | none =>
      rw [hk] at h
      cases h
    | some kv =>
      obtain ⟨key, value⟩ := kv
      cases cur with
      | none =>
        rw [hk] at h
        cases h
      | some sec =>
        rw [hk] at h
        simp only [Bool.and_eq_true, Bool.or_eq_true, decide_eq_true_eq] at h
        refine ⟨key, value, sec, rfl, rfl, h.1, ?_⟩
        intro hp
        rcases h.2 with h2 | h2
        · exact absurd hp h2
        · exact h2

/-- Loop invariant of a load of a well-formed file into a zero-valued `IniConfig`:
the loop runs through all lines, the destination keeps the shape of `IniConfig`,
`structName` names the sub-record of the last header, and the destination reflects
the key-value lines seen so far. -/
theorem load_invariant (lines : List Str) (hwf : WellFormed lines) :
    ∃ v : IniValues,
      runLines 0 lines ⟨IniConfig, []⟩ =
          .next ⟨v.toDest, structNameOf (activeSection lines)⟩ ∧
        (activeSection lines = none ∨ activeSection lines = some "db".toList ∨
          activeSection lines = some "cache".toList) ∧
        LastWins lines v.toDest := by
  induction lines using List.reverseRecOn with
  | nil =>
    exact ⟨⟨[], 0, [], [], [], [], [], 0, []⟩, rfl, Or.inl rfl,
      fun i _ _ _ hi => absurd hi (by simp)⟩
  | append_singleton ls raw ih =>
    obtain ⟨hwfls, hline⟩ := wellFormed_of_snoc ls raw hwf
    obtain ⟨v, hrun, hact, hlast⟩ := ih hwfls
    have hrun2 : runLines 0 (ls ++ [raw]) ⟨IniConfig, []⟩ =
        match processLine ls.length raw ⟨v.toDest, structNameOf (activeSection ls)⟩ with
        | .next st1 => .next st1
        | .fail e st1 => .fail e st1
        | .panic p st1 => .panic p st1 := by
      rw [runLines_append, hrun]
      simp only [Nat.zero_add, runLines]
    rcases lineOk_cases _ _ hline with hs | hh | hh | ⟨key, value, sec, hkv, hcur, hkey, hport⟩
    · refine ⟨v, ?_, ?_, lastWins_snoc_other ls raw _ (skipped_keyValueOf raw hs) hlast⟩
      · rw [hrun2, processLine_skipped _ _ _ hs, activeSection_snoc, skipped_headerName raw hs]
      · rw [activeSection_snoc, skipped_headerName raw hs]
        exact hact
    · obtain ⟨⟨interior, hi, hname⟩, hkvnone⟩ := headerName_some raw _ hh
      refine ⟨v, ?_, ?_, lastWins_snoc_other ls raw _ hkvnone hlast⟩
      · rw [hrun2, processLine_header _ _ _ interior hi, hname, if_neg (by decide),
          activeSection_snoc, hh]
        rfl
      · rw [activeSection_snoc, hh]
        exact Or.inr (Or.inl rfl)
    · obtain ⟨⟨interior, hi, hname⟩, hkvnone⟩ := headerName_some raw _ hh
      refine ⟨v, ?_, ?_, lastWins_snoc_other ls raw _ hkvnone hlast⟩
      · rw [hrun2, processLine_header _ _ _ interior hi, hname, if_neg (by decide),
          activeSection_snoc, hh]
        rfl
      · rw [activeSection_snoc, hh]
        exact Or.inr (Or.inr rfl)
    · obtain ⟨hcand, hval, hhn⟩ := keyValueOf_some ls.length raw key value hkv
      have hsec : sec = "db".toList ∨ sec = "cache".toList := by
        rw [hcur] at hact
        rcases hact with h | h | h
        · cases h
        · injection h with h
          exact Or.inl h
        · injection h with h
          exact Or.inr h
      obtain ⟨w, hstep, hholds, hframe⟩ := assign_wellformed v sec key value hsec hkey hport
      refine ⟨w, ?_, ?_,
        lastWins_snoc_kv ls raw v.toDest w.toDest sec key value hkv hcur hlast hholds hframe⟩
      · rw [hrun2, processLine_keyValue _ _ _ hcand, hval]
        simp only []
        rw [hcur, hstep, activeSection_snoc, hhn, hcur]
      · rw [activeSection_snoc, hhn]
        exact hact

/-- C1. Let the lines of the content be well formed for `IniConfig`: every line is
blank, a comment, a header whose trimmed interior is `db` or `cache`, or a
key-value line (no bracket, one `=`, non-empty trimmed key and value) that follows
a header and whose key is an annotated key of the sub-record that header names,
the value being an in-range base-10 integer literal when the key is `port`.  Then
`loadIniConfig` on a zero-valued `IniConfig` returns `nil`, and for every key-value
line (key `key`, value `value`, nearest preceding header `sec`) that no later
key-value line with the same key under the same header name follows, the field
`sec`/`key` holds `value`: the text itself, or the integer it denotes for `port`. -/
theorem load_wellformed (content : Str) (hwf : WellFormed (Split '\n' content)) :
    ∃ d, loadIniConfig (some content) (.structPtr IniConfig) =
        .returned none (.structPtr d) ∧
      ∀ i sec key value, i < (Split '\n' content).length →
        keyValueOf ((Split '\n' content).getD i []) = some (key, value) →
        activeSection ((Split '\n' content).take i) = some sec →
        (∀ j v2, i < j → j < (Split '\n' content).length →
          keyValueOf ((Split '\n' content).getD j []) = some (key, v2) →
          activeSection ((Split '\n' content).take j) ≠ some sec) →
        Holds d sec key value := by
  obtain ⟨v, hrun, _, hlast⟩ := load_invariant (Split '\n' content) hwf
  exact ⟨v.toDest, loadIniConfig_of_lines content IniConfig _ hrun, hlast⟩

/-- C1, witness: "[db]\nhost=localhost\nport=5432\n" loads without error and gives
`db.host = "localhost"`, `db.port = 5432`. -/
theorem load_wellformed_witness :
    ∃ d, loadIniConfig (some "[db]\nhost=localhost\nport=5432\n".toList)
        (.structPtr IniConfig) = .returned none (.structPtr d) ∧
      d.lookup "db".toList "host".toList = some (.string "localhost".toList) ∧
      d.lookup "db".toList "port".toList = some (.int .Int 5432) := by
  obtain ⟨d, hret, hlast⟩ :=
    load_wellformed "[db]\nhost=localhost\nport=5432\n".toList (by decide)
  have hlen : (Split '\n' "[db]\nhost=localhost\nport=5432\n".toList).length = 4 := by decide
  refine ⟨d, hret, ?_, ?_⟩
  · have h := hlast 1 "db".toList "host".toList "localhost".toList (by decide) (by decide)
      (by decide) (by
        intro j v2 hij hj hk
        rw [hlen] at hj
        have hk2 := congrArg (Option.map Prod.fst) hk
        simp only [Option.map_some'] at hk2
        interval_cases j
        · exact absurd hk2 (by decide)
        · exact absurd hk2 (by decide))
    exact h.1 (by decide)
  · have h := hlast 2 "db".toList "port".toList "5432".toList (by decide) (by decide)
      (by decide) (by
        intro j v2 hij hj hk
        rw [hlen] at hj
        have hk2 := congrArg (Option.map Prod.fst) hk
        simp only [Option.map_some'] at hk2
        interval_cases j
        exact absurd hk2 (by decide))
    obtain ⟨n, hn, hl⟩ := h.2 rfl
    have hn2 : literalInt "5432".toList = some 5432 := by decide
    rw [hn2] at hn
    injection hn with hn
    rw [hl, ← hn]

/-! ## Line numbers of the returned errors -/

theorem validateKeyValue_fail_line (idx : Nat) (line : Str) (e : IniError)
    (h : validateKeyValue idx line = .fail e) : e.lineNo = some (idx + 1) := by
  by_cases hb : '[' ∈ line ∨ ']' ∈ line
  · rw [validateKeyValue_bracket idx line hb] at h
    injection h with h
    rw [← h]
    rfl
  · have h1 : '[' ∉ line := fun m => hb (Or.inl m)
    have h2 : ']' ∉ line := fun m => hb (Or.inr m)
    by_cases he : '=' ∈ line
    · by_cases hc : line.count '=' = 1
      · obtain ⟨l, r, rfl, hl, hr⟩ := exists_split_of_count_one '=' line hc
        rw [validateKeyValue_split idx l r h1 h2 hl hr] at h
        split at h
        · injection h with h
          rw [← h]
          rfl
        · cases h
      · have hpos : 0 < line.count '=' := List.count_pos_iff.mpr he
        rw [validateKeyValue_ambiguous idx line h1 h2 (by omega)] at h
        injection h with h
        rw [← h]
        rfl
    · rw [validateKeyValue_missing idx line h1 h2 he] at h
      injection h with h
      rw [← h]
      rfl

theorem assignSwitch_fail_kind (ro : Bool) (f : Field) (n v : Str) (st st1 : State)
    (e : IniError) (h : assignSwitch ro f n v st = .fail e st1) :
    ∃ cause, e = .TypeConversion cause := by
  unfold assignSwitch at h
  split at h
  · split at h <;> cases h
  · split at h
    · split at h
      · injection h with h1 h2
        exact ⟨_, h1.symm⟩
      · split at h <;> cases h
    · cases h

theorem assign_fail_kind (k v : Str) (st st1 : State) (e : IniError)
    (h : assign k v st = .fail e st1) : e = .NeedStruct ∨ ∃ cause, e = .TypeConversion cause := by
  unfold assign at h
  split at h
  · cases h
  · split at h
    · injection h with h1 h2
      exact Or.inl h1.symm
    · simp only [] at h
      split at h
      · cases h
      · exact Or.inr (assignSwitch_fail_kind _ _ _ _ _ _ _ h)

/-- The errors returned by line `idx + 1` carry that line number, except the two
built without it: "type need is struct" and the wrapped conversion error. -/
theorem processLine_error_line (idx : Nat) (raw : Str) (st st1 : State) (e : IniError)
    (h : processLine idx raw st = .fail e st1) :
    e.lineNo = some (idx + 1) ∨ e = .NeedStruct ∨ ∃ cause, e = .TypeConversion cause := by
  rcases line_cases (TrimSpace raw) with hs | ⟨interior, hh⟩ | hk
  · rw [processLine_skipped idx raw st hs] at h
    cases h
  · rw [processLine_header idx raw st interior hh] at h
    split at h
    · injection h with h1 h2
      rw [← h1]
      exact Or.inl rfl
    · cases h
  · rw [processLine_keyValue idx raw st hk] at h
    cases hv : validateKeyValue idx (TrimSpace raw) with
    | fail e0 =>
      rw [hv] at h
      injection h with h1 h2
      rw [← h1]
      exact Or.inl (validateKeyValue_fail_line idx _ e0 hv)
    | panic p0 =>
      rw [hv] at h
      cases h
    | ok kv =>
      rw [hv] at h
      exact Or.inr (assign_fail_kind kv.1 kv.2 st st1 e h)

/-! ## Destinations that are not struct pointers, unknown sections, narrow integers -/

/-- The guard on an argument that carries a type: when `t.Kind()` is not `Ptr` or
`t.Elem().Kind()` is not `Struct`, the call returns the invalid-destination error
for every file (any content, or none when the file cannot be read), and the
argument is left as it was. -/
theorem guard_rejects (ic : Arg) (t : RType) (data_file : Option Str)
    (ht : ic.TypeOf = some t) (hg : t.kind ≠ Kind.Ptr ∨ t.elem ≠ some Kind.Struct) :
    loadIniConfig data_file ic = .returned (some .InvalidDestination) ic := by
  unfold loadIniConfig
  rw [ht]
  simp only [if_pos hg]

/-- A struct passed by value, a value of another non-pointer kind and a pointer to a
non-struct are rejected by the guard before the file is read, whatever the file is. -/
theorem invalid_destination_typed (data_file : Option Str) :
    (∀ d, loadIniConfig data_file (.structValue d) =
        .returned (some .InvalidDestination) (.structValue d)) ∧
      (∀ k h, loadIniConfig data_file (.value k h) =
        .returned (some .InvalidDestination) (.value k h)) ∧
      (∀ elem h, loadIniConfig data_file (.pointer elem h) =
        .returned (some .InvalidDestination) (.pointer elem h)) := by
  refine ⟨fun d => ?_, fun k h => ?_, fun elem h => ?_⟩
  · exact guard_rejects _ ⟨.Struct, none⟩ _ rfl (Or.inl (by decide))
  · exact guard_rejects _ ⟨k, none⟩ _ rfl (Or.inl h.1)
  · exact guard_rejects _ ⟨.Ptr, some elem⟩ _ rfl
      (Or.inr (fun e => h.1 (Option.some.inj e)))

/-- Only pointers to a struct, nil or not, pass the guard. -/
theorem guard_passes (ic : Arg) (t : RType) (ht : ic.TypeOf = some t)
    (hg : ¬ (t.kind ≠ Kind.Ptr ∨ t.elem ≠ some Kind.Struct)) :
    ∃ d, ic = .structPtr d ∨ ic = .nilStructPtr d := by
  push_neg at hg
  obtain ⟨hk, he⟩ := hg
  cases ic with
  | untypedNil => cases ht
  | structPtr d => exact ⟨d, Or.inl rfl⟩
  | nilStructPtr d => exact ⟨d, Or.inr rfl⟩
  | structValue d =>
    injection ht with ht
    rw [← ht] at hk
    cases hk
  | value k h =>
    injection ht with ht
    rw [← ht] at hk
    exact absurd hk h.1
  | pointer elem h =>
    injection ht with ht
    rw [← ht] at he
    exact absurd (Option.some.inj he) h.1

/-- The file is read only once the guard has passed: with a pointer to a struct, nil
or not, an unreadable file ends the process. -/
theorem struct_pointer_reads_file (d : Dest) :
    loadIniConfig none (.structPtr d) = .exited ∧
      loadIniConfig none (.nilStructPtr d) = .exited :=
  ⟨rfl, rfl⟩

/-- C11, the code at the untyped `nil` argument.  `reflect.TypeOf(nil)` is the nil
`Type`, so the guard's first operand `t.Kind()` panics: for every file, readable or
not, the call ends in that panic and does not return the invalid-destination
error, although the untyped `nil` is not a pointer to a struct. -/
theorem untyped_nil_panics (data_file : Option Str) :
    Arg.untypedNil.TypeOf = none ∧
      loadIniConfig data_file .untypedNil = .panicked .NilType .untypedNil ∧
      loadIniConfig data_file .untypedNil ≠
        .returned (some .InvalidDestination) .untypedNil := by
  refine ⟨rfl, rfl, ?_⟩
  intro h
  cases h

/-- C14, the code at "[db]\n[nosuch]\nhost=x\n": the header `[nosuch]` leaves
`structName` at `AppDbIni`, so the third line is applied and overwrites `db.host`;
the call returns `nil`. -/
theorem unknown_section_writes_previous :
    loadIniConfig (some "[db]\n[nosuch]\nhost=x\n".toList) (.structPtr IniConfig) =
      .returned none
        (.structPtr (IniConfig.store "AppDbIni".toList "Host".toList (.string "x".toList))) ∧
      IniConfig.store "AppDbIni".toList "Host".toList (.string "x".toList) ≠ IniConfig := by
  decide

/-- C15, the code at "[limits]\nlevel=300\n" with an `int8` field `level`: `Atoi`
accepts 300, `SetInt` stores `int8(300)`, and the field holds 44 although the text
denotes 300; the call returns `nil`. -/
theorem int8_value_wraps :
    loadIniConfig (some "[limits]\nlevel=300\n".toList) (.structPtr Int8Config) =
      .returned none
        (.structPtr (Int8Config.store "Limits".toList "Level".toList (.int .Int8 44))) ∧
      literalInt "300".toList = some 300 := by
  decide

theorem assign_other (key value : Str) (st : State) (valuestruct : TopField)
    (fields : List Field) (str_obj : Field)
    (hsec : st.dest.FieldByName st.structName = some valuestruct)
    (hstruct : valuestruct.value = .struct fields)
    (hfield : FieldByName fields (findFieldName fields key) = some str_obj)
    (hnotstr : str_obj.value.Kind ≠ Kind.String)
    (hnotint : str_obj.value.Kind.toIntKind = none) :
    assign key value st = .next st := by
  unfold assign
  simp only [hsec, hstruct, hfield]
  unfold assignSwitch
  rw [if_neg hnotstr]
  simp only [hnotint]

/-- C16. A valid key-value line (line `n`, reached without stopping) whose key
resolves to a field whose kind is neither `String` nor a signed integer kind: the
step returns no error and leaves the whole state (and so the field) as it was, and
the call goes on with the next line from that same state. -/
theorem unsupported_kind_skipped (content : Str) (d : Dest) (pre post : List Str) (raw : Str)
    (st : State) (key value : Str) (valuestruct : TopField) (fields : List Field)
    (str_obj : Field)
    (hsplit : Split '\n' content = pre ++ raw :: post)
    (hpre : runLines 0 pre ⟨d, []⟩ = .next st)
    (hcand : IsKeyValueCandidate (TrimSpace raw))
    (hvalid : validateKeyValue pre.length (TrimSpace raw) = .ok (key, value))
    (hsec : st.dest.FieldByName st.structName = some valuestruct)
    (hstruct : valuestruct.value = .struct fields)
    (hfield : FieldByName fields (findFieldName fields key) = some str_obj)
    (hnotstr : str_obj.value.Kind ≠ Kind.String)
    (hnotint : str_obj.value.Kind.toIntKind = none) :
    processLine pre.length raw st = .next st ∧
      loadIniConfig (some content) (.structPtr d) =
        (runLines (pre.length + 1) post st).toOutcome := by
  have hstep : processLine pre.length raw st = .next st := by
    rw [processLine_keyValue pre.length raw st hcand, hvalid]
    exact assign_other key value st valuestruct fields str_obj hsec hstruct hfield hnotstr hnotint
  refine ⟨hstep, ?_⟩
  rw [loadIniConfig_eq content d pre post raw st hsplit hpre, hstep]
  rfl

/-- C16, witness: in "[opts]\ndebug=true\nname=x\n" the line for the `bool` field
`debug` changes nothing and the load continues with `name=x`. -/
theorem unsupported_kind_skipped_witness :
    processLine 1 "debug=true".toList ⟨FlagConfig, "Opts".toList⟩ =
        .next ⟨FlagConfig, "Opts".toList⟩ ∧
      loadIniConfig (some "[opts]\ndebug=true\nname=x\n".toList) (.structPtr FlagConfig) =
        (runLines 2 ["name=x".toList, []] ⟨FlagConfig, "Opts".toList⟩).toOutcome :=
  unsupported_kind_skipped "[opts]\ndebug=true\nname=x\n".toList FlagConfig ["[opts]".toList]
    ["name=x".toList, []] "debug=true".toList ⟨FlagConfig, "Opts".toList⟩ "debug".toList
    "true".toList ⟨"Opts".toList, "opts".toList, true, false, .struct
        [ ⟨"Debug".toList, "debug".toList, true, .other .Bool 0⟩,
          ⟨"Name".toList, "name".toList, true, .string []⟩ ]⟩
    [ ⟨"Debug".toList, "debug".toList, true, .other .Bool 0⟩,
          ⟨"Name".toList, "name".toList, true, .string []⟩ ]
    ⟨"Debug".toList, "debug".toList, true, .other .Bool 0⟩
    (by decide) (by decide) (by decide) (by decide) (by decide) rfl (by decide) (by decide)
    (by decide)

/-! ## Bounds of index and slice expressions -/

theorem assignSwitch_panic_kind (ro : Bool) (f : Field) (n v : Str) (st st1 : State)
    (p : PanicKind) (h : assignSwitch ro f n v st = .panic p st1) : p = .NotSettable := by
  unfold assignSwitch at h
  split at h
  · split at h
    · injection h with h1 h2
      exact h1.symm
    · cases h
  · split at h
    · split at h
      · cases h
      · split at h
        · injection h with h1 h2
          exact h1.symm
        · cases h
    · cases h

theorem assign_panic_kind (k v : Str) (st st1 : State) (p : PanicKind)
    (h : assign k v st = .panic p st1) : p = .TypeOnZeroValue ∨ p = .NotSettable := by
  unfold assign at h
  split at h
  · injection h with h1 h2
    exact Or.inl h1.symm
  · split at h
    · cases h
    · simp only [] at h
      split at h
      · injection h with h1 h2
        exact Or.inl h1.symm
      · exact Or.inr (assignSwitch_panic_kind _ _ _ _ _ _ _ h)

theorem processLine_panic_kind (idx : Nat) (raw : Str) (st st1 : State) (p : PanicKind)
    (h : processLine idx raw st = .panic p st1) : p = .TypeOnZeroValue ∨ p = .NotSettable := by
  rcases line_cases (TrimSpace raw) with hs | ⟨interior, hh⟩ | hk
  · rw [processLine_skipped idx raw st hs] at h
    cases h
  · rw [processLine_header idx raw st interior hh] at h
    split at h <;> cases h
  · rw [processLine_keyValue idx raw st hk] at h
    cases hv : validateKeyValue idx (TrimSpace raw) with
    | fail e0 =>
      rw [hv] at h
      cases h
    | panic p0 => exact absurd hv (validateKeyValue_no_panic idx _ p0)
    | ok kv =>
      rw [hv] at h
      exact assign_panic_kind kv.1 kv.2 st st1 p h

theorem runLines_panic_kind (lines : List Str) (idx : Nat) (st st1 : State) (p : PanicKind)
    (h : runLines idx lines st = .panic p st1) : p = .TypeOnZeroValue ∨ p = .NotSettable := by
  induction lines generalizing idx st with
  | nil => cases h
  | cons raw rest ih =>
    unfold runLines at h
    cases hp : processLine idx raw st with
    | next st2 =>
      rw [hp] at h
      exact ih (idx + 1) st2 h
    | fail e st2 =>
      rw [hp] at h
      cases h
    | panic p2 st2 =>
      rw [hp] at h
      injection h with h1 h2
      rw [← h1]
      exact processLine_panic_kind idx raw st st2 p2 hp

theorem header_length (line : Str) (h : IsHeaderLine line) :
    2 ≤ line.length ∧ (slice line 1 (line.length - 1)).isSome = true := by
  obtain ⟨interior, rfl⟩ := header_shape line h
  constructor
  · simp
  · unfold slice
    rw [if_pos]
    · rfl
    · simp

theorem processLineNil_skipped (idx : Nat) (raw : Str) (st : State)
    (h : IsSkipped (TrimSpace raw)) : processLineNil idx raw st = .next st := by
  unfold processLineNil
  rcases h with h | h | h
  · simp [h]
  · simp [h]
  · simp [h]

theorem processLineNil_keyValue (idx : Nat) (raw : Str) (st : State)
    (h : IsKeyValueCandidate (TrimSpace raw)) :
    processLineNil idx raw st =
      match validateKeyValue idx (TrimSpace raw) with
      | .fail e => .fail e st
      | .panic p => .panic p st
      | .ok _ => .panic .FieldByNameOnZeroValue st := by
  obtain ⟨hs, hh⟩ := h
  unfold IsSkipped at hs
  unfold IsHeaderLine at hh
  push_neg at hs
  obtain ⟨hne, hc1, hc2⟩ := hs
  unfold processLineNil
  simp only [hne, hc1, hc2, if_false, or_self, Bool.false_eq_true]
  rw [byteAt_last]
  cases hline : TrimSpace raw with
  | nil => exact absurd hline hne
  | cons c cs =>
    rw [hline] at hh
    simp only [byteAt, List.get?_cons_zero]
    by_cases hc : c = '['
    · simp only [hc, if_true]
      subst hc
      simp only [List.head?_cons, true_and] at hh
      cases hl : ('[' :: cs).getLast? with
      | none => simp at hl
      | some last =>
        have : last ≠ ']' := fun e => hh (by rw [hl, e])
        simp only [this, if_false]
    · simp only [hc, if_false]

theorem processLineNil_header (idx : Nat) (raw : Str) (st : State) (interior : Str)
    (h : TrimSpace raw = '[' :: interior ++ [']']) :
    processLineNil idx raw st = processLine idx raw st := by
  rw [processLine_header idx raw st interior h]
  unfold processLineNil
  simp only [h]
  rw [byteAt_last]
  have hslice : slice ('[' :: (interior ++ [']'])) 1 (List.length interior + 1)
      = some interior := by
    unfold slice
    simp
  have hlast : ('[' :: (interior ++ [']'])).getLast? = some ']' := by
    rw [← List.cons_append, List.getLast?_append]
    simp
  have hfirst : byteAt ('[' :: (interior ++ [']'])) 0 = some '[' := rfl
  simp [HasPrefix, sectionHeader, hslice, hlast, hfirst]

theorem processLineNil_panic_kind (idx : Nat) (raw : Str) (st st1 : State) (p : PanicKind)
    (h : processLineNil idx raw st = .panic p st1) : p = .FieldByNameOnZeroValue := by
  rcases line_cases (TrimSpace raw) with hs | ⟨interior, hh⟩ | hk
  · rw [processLineNil_skipped idx raw st hs] at h
    cases h
  · rw [processLineNil_header idx raw st interior hh,
      processLine_header idx raw st interior hh] at h
    split at h <;> cases h
  · rw [processLineNil_keyValue idx raw st hk] at h
    cases hv : validateKeyValue idx (TrimSpace raw) with
    | fail e0 =>
      rw [hv] at h
      cases h
    | panic p0 => exact absurd hv (validateKeyValue_no_panic idx _ p0)
    | ok kv =>
      rw [hv] at h
      injection h with h1 h2
      exact h1.symm

theorem runLinesNil_panic_kind (lines : List Str) (idx : Nat) (st st1 : State)
    (p : PanicKind) (h : runLinesNil idx lines st = .panic p st1) :
    p = .FieldByNameOnZeroValue := by
  induction lines generalizing idx st with
  | nil => cases h
  | cons raw rest ih =>
    unfold runLinesNil at h
    cases hp : processLineNil idx raw st with
    | next st2 =>
      rw [hp] at h
      exact ih (idx + 1) st2 h
    | fail e st2 =>
      rw [hp] at h
      cases h
    | panic p2 st2 =>
      rw [hp] at h
      injection h with h1 h2
      rw [← h1]
      exact processLineNil_panic_kind idx raw st st2 p2 hp

theorem loadIniConfig_nilStructPtr (content : Str) (d : Dest) :
    loadIniConfig (some content) (.nilStructPtr d) =
      match runLinesNil 0 (Split '\n' content) ⟨d, []⟩ with
      | .next _ => .returned none (.nilStructPtr d)
      | .fail e _ => .returned (some e) (.nilStructPtr d)
      | .panic p _ => .panicked p (.nilStructPtr d) :=
  rfl

/-- C20. Every index and slice expression of the parser is within bounds: no call
of `loadIniConfig` ends in an index-out-of-range or slice-bounds panic.  The two
byte reads `line[0]`, `line[len(line)-1]` succeed on every non-empty trimmed line;
a line that starts with `[` and ends with `]` has length at least 2, so the slice
`line[1:len(line)-1]` is in bounds; a line with exactly one `=` splits into exactly
two parts, so `key_value[0]` and `key_value[1]` exist. -/
theorem bounds_safe :
    (∀ data_file ic p ic2, loadIniConfig data_file ic = .panicked p ic2 → ¬ p.IsBounds) ∧
    (∀ line : Str, line ≠ [] →
      (byteAt line 0).isSome = true ∧ (byteAt line (line.length - 1)).isSome = true) ∧
    (∀ line : Str, IsHeaderLine line →
      2 ≤ line.length ∧ (slice line 1 (line.length - 1)).isSome = true) ∧
    (∀ line : Str, Count line '=' = 1 →
      (Split '=' line).length = 2 ∧ ((Split '=' line).get? 0).isSome = true ∧
        ((Split '=' line).get? 1).isSome = true) := by
  refine ⟨?_, ?_, header_length, ?_⟩
  · intro data_file ic p ic2 h
    cases ic with
    | untypedNil =>
      have e : loadIniConfig data_file .untypedNil = .panicked .NilType .untypedNil := rfl
      rw [e] at h
      injection h with h1 h2
      rw [← h1]
      exact id
    | structValue d =>
      rw [guard_rejects (.structValue d) ⟨.Struct, none⟩ data_file rfl
        (Or.inl (by decide))] at h
      cases h
    | value k hk =>
      rw [guard_rejects (.value k hk) ⟨k, none⟩ data_file rfl (Or.inl hk.1)] at h
      cases h
    | pointer elem he =>
      rw [guard_rejects (.pointer elem he) ⟨.Ptr, some elem⟩ data_file rfl
        (Or.inr (fun e => he.1 (Option.some.inj e)))] at h
      cases h
    | nilStructPtr d =>
      cases data_file with
      | none => cases h
      | some content =>
        rw [loadIniConfig_nilStructPtr] at h
        cases hr : runLinesNil 0 (Split '\n' content) ⟨d, []⟩ with
        | next st =>
          rw [hr] at h
          cases h
        | fail e st =>
          rw [hr] at h
          cases h
        | panic p2 st =>
          rw [hr] at h
          injection h with h1 h2
          rw [← h1, runLinesNil_panic_kind _ _ _ _ _ hr]
          exact id
    | structPtr d =>
      cases data_file with
      | none => cases h
      | some content =>
        rw [loadIniConfig_structPtr] at h
        cases hr : runLines 0 (Split '\n' content) ⟨d, []⟩ with
        | next st =>
          rw [hr] at h
          cases h
        | fail e st =>
          rw [hr] at h
          cases h
        | panic p2 st =>
          rw [hr] at h
          injection h with h1 h2
          rw [← h1]
          rcases runLines_panic_kind _ _ _ _ _ hr with e | e <;> rw [e] <;> exact id
  · intro line hne
    cases line with
    | nil => exact absurd rfl hne
    | cons c cs =>
      refine ⟨rfl, ?_⟩
      rw [byteAt_last]
      cases hl : (c :: cs).getLast? with
      | none => simp at hl
      | some x => rfl
  · intro line hc
    obtain ⟨l, r, rfl, hl, hr⟩ := exists_split_of_count_one '=' line hc
    rw [Split_append_sep '=' l r hl, Split_of_not_mem '=' r hr]
    exact ⟨rfl, rfl, rfl⟩

/-! ## Matching of section names and keys -/

theorem selectSection_cases (fields : List TopField) (name cur : Str) :
    (∃ t ∈ fields, t.Tag = name ∧ selectSection fields name cur = t.Name) ∨
      ((∀ t ∈ fields, t.Tag ≠ name) ∧ selectSection fields name cur = cur) := by
  induction fields generalizing cur with
  | nil => exact Or.inr ⟨fun t ht => (by cases ht), rfl⟩
  | cons t rest ih =>
    have hstep : selectSection (t :: rest) name cur =
        selectSection rest name (if t.Tag = name then t.Name else cur) := rfl
    rw [hstep]
    rcases ih (if t.Tag = name then t.Name else cur) with ⟨t2, hmem, htag, hsel⟩ | ⟨hno, hsel⟩
    · exact Or.inl ⟨t2, List.mem_cons_of_mem _ hmem, htag, hsel⟩
    · by_cases ht : t.Tag = name
      · rw [if_pos ht] at hsel
        exact Or.inl ⟨t, List.mem_cons_self _ _, ht, by rw [if_pos ht]; exact hsel⟩
      · rw [if_neg ht] at hsel ⊢
        refine Or.inr ⟨?_, hsel⟩
        intro t2 hmem
        rcases List.mem_cons.mp hmem with e | m
        · rw [e]
          exact ht
        · exact hno t2 m

theorem findFieldName_cases (fs : List Field) (key : Str) :
    (∃ f ∈ fs, f.Tag = key ∧ findFieldName fs key = f.Name) ∨
      ((∀ f ∈ fs, f.Tag ≠ key) ∧ findFieldName fs key = []) := by
  unfold findFieldName
  cases h : fs.find? (fun f => decide (f.Tag = key)) with
  | none =>
    refine Or.inr ⟨?_, rfl⟩
    intro f hf
    have := List.find?_eq_none.mp h f hf
    simpa using this
  | some f =>
    refine Or.inl ⟨f, List.mem_of_find?_eq_some h, ?_, rfl⟩
    have := List.find?_some h
    simpa using this

/-- C17. Matching is by exact equality of character sequences.  A header line with
a non-empty trimmed interior either selects a sub-record whose annotation equals
that interior (`structName` becomes its name), or no annotation equals it and the
state is unchanged (nothing is selected).  A key either resolves to the name of a
field whose annotation equals the key, or no annotation equals it and no field name
is found. -/
theorem exact_matching (idx : Nat) (raw interior : Str) (st : State) (fs : List Field)
    (key : Str) (hline : TrimSpace raw = '[' :: interior ++ [']'])
    (hne : TrimSpace interior ≠ []) :
    ((∃ t ∈ st.dest.fields, t.Tag = TrimSpace interior ∧
        processLine idx raw st = .next ⟨st.dest, t.Name⟩) ∨
      ((∀ t ∈ st.dest.fields, t.Tag ≠ TrimSpace interior) ∧
        processLine idx raw st = .next st)) ∧
    (∀ t ∈ st.dest.fields, t.Tag = TrimSpace interior →
      (∀ t2 ∈ st.dest.fields, t2.Tag = t.Tag → t2.Name = t.Name) →
      processLine idx raw st = .next ⟨st.dest, t.Name⟩) ∧
    ((∃ f ∈ fs, f.Tag = key ∧ findFieldName fs key = f.Name) ∨
      ((∀ f ∈ fs, f.Tag ≠ key) ∧ findFieldName fs key = [])) := by
  have hstep := processLine_header idx raw st interior hline
  rw [if_neg hne] at hstep
  refine ⟨?_, ?_, findFieldName_cases fs key⟩
  · rw [hstep]
    rcases selectSection_cases st.dest.fields (TrimSpace interior) st.structName with
      ⟨t, hmem, htag, hsel⟩ | ⟨hno, hsel⟩
    · exact Or.inl ⟨t, hmem, htag, by rw [hsel]⟩
    · exact Or.inr ⟨hno, by rw [hsel]⟩
  · intro t hmem htag huniq
    rw [hstep]
    rcases selectSection_cases st.dest.fields (TrimSpace interior) st.structName with
      ⟨t2, hmem2, htag2, hsel⟩ | ⟨hno, hsel⟩
    · rw [hsel, huniq t2 hmem2 (by rw [htag2, htag])]
    · exact absurd htag (hno t hmem)

/-- C17, witness: on `IniConfig`, the line "[ db ]" and the key "host". -/
theorem exact_matching_witness :
    ((∃ t ∈ IniConfig.fields, t.Tag = TrimSpace " db ".toList ∧
        processLine 0 "[ db ]".toList ⟨IniConfig, []⟩ = .next ⟨IniConfig, t.Name⟩) ∨
      ((∀ t ∈ IniConfig.fields, t.Tag ≠ TrimSpace " db ".toList) ∧
        processLine 0 "[ db ]".toList ⟨IniConfig, []⟩ = .next ⟨IniConfig, []⟩)) ∧
    (∀ t ∈ IniConfig.fields, t.Tag = TrimSpace " db ".toList →
      (∀ t2 ∈ IniConfig.fields, t2.Tag = t.Tag → t2.Name = t.Name) →
      processLine 0 "[ db ]".toList ⟨IniConfig, []⟩ = .next ⟨IniConfig, t.Name⟩) ∧
    ((∃ f ∈ AppDbIni, f.Tag = "host".toList ∧ findFieldName AppDbIni "host".toList = f.Name) ∨
      ((∀ f ∈ AppDbIni, f.Tag ≠ "host".toList) ∧ findFieldName AppDbIni "host".toList = [])) :=
  exact_matching 0 "[ db ]".toList " db ".toList ⟨IniConfig, []⟩ AppDbIni "host".toList
    (by decide) (by decide)

/-- The examples of exact matching on `IniConfig`: "[ db ]" selects `AppDbIni`,
"[DB]" and "[d b]" select nothing, the key "host" finds `Host`, the key "Host"
finds no field. -/
theorem exact_matching_examples :
    processLine 0 "[ db ]".toList ⟨IniConfig, []⟩ = .next ⟨IniConfig, "AppDbIni".toList⟩ ∧
      processLine 0 "[DB]".toList ⟨IniConfig, []⟩ = .next ⟨IniConfig, []⟩ ∧
      processLine 0 "[d b]".toList ⟨IniConfig, []⟩ = .next ⟨IniConfig, []⟩ ∧
      findFieldName AppDbIni "host".toList = "Host".toList ∧
      findFieldName AppDbIni "Host".toList = [] := by
  decide

/-! ## Blank and comment lines -/

theorem loadIniConfig_toOutcome (content : Str) (d : Dest) :
    loadIniConfig (some content) (.structPtr d) =
      (runLines 0 (Split '\n' content) ⟨d, []⟩).toOutcome := by
  unfold loadIniConfig Step.toOutcome
  rfl

theorem eraseLine_shiftLine (e : IniError) : e.shiftLine.eraseLine = e.eraseLine := by
  cases e <;> rfl

theorem validateKeyValue_succ (idx : Nat) (line : Str) :
    validateKeyValue (idx + 1) line = (validateKeyValue idx line).shiftLine := by
  by_cases hb : '[' ∈ line ∨ ']' ∈ line
  · rw [validateKeyValue_bracket _ line hb, validateKeyValue_bracket _ line hb]
    rfl
  · have h1 : '[' ∉ line := fun m => hb (Or.inl m)
    have h2 : ']' ∉ line := fun m => hb (Or.inr m)
    by_cases he : '=' ∈ line
    · by_cases hc : line.count '=' = 1
      · obtain ⟨l, r, rfl, hl, hr⟩ := exists_split_of_count_one '=' line hc
        rw [validateKeyValue_split _ l r h1 h2 hl hr, validateKeyValue_split _ l r h1 h2 hl hr]
        split <;> rfl
      · have hpos : 0 < line.count '=' := List.count_pos_iff.mpr he
        rw [validateKeyValue_ambiguous _ line h1 h2 (by omega),
          validateKeyValue_ambiguous _ line h1 h2 (by omega)]
        rfl
    · rw [validateKeyValue_missing _ line h1 h2 he, validateKeyValue_missing _ line h1 h2 he]
      rfl

theorem assign_shiftLine (k v : Str) (st : State) :
    (assign k v st).shiftLine = assign k v st := by
  cases h : assign k v st with
  | next st1 => rfl
  | panic p st1 => rfl
  | fail e st1 =>
    rcases assign_fail_kind k v st st1 e h with he | ⟨cause, he⟩
    · rw [he]
      rfl
    · rw [he]
      rfl

theorem processLine_succ (idx : Nat) (raw : Str) (st : State) :
    processLine (idx + 1) raw st = (processLine idx raw st).shiftLine := by
  rcases line_cases (TrimSpace raw) with hs | ⟨interior, hh⟩ | hk
  · rw [processLine_skipped _ raw st hs, processLine_skipped _ raw st hs]
    rfl
  · rw [processLine_header _ raw st interior hh, processLine_header _ raw st interior hh]
    split <;> rfl
  · rw [processLine_keyValue _ raw st hk, processLine_keyValue _ raw st hk,
      validateKeyValue_succ]
    cases hv : validateKeyValue idx (TrimSpace raw) with
    | fail e0 => rfl
    | panic p0 => rfl
    | ok kv => exact (assign_shiftLine kv.1 kv.2 st).symm

theorem runLines_succ (lines : List Str) (idx : Nat) (st : State) :
    runLines (idx + 1) lines st = (runLines idx lines st).shiftLine := by
  induction lines generalizing idx st with
  | nil => rfl
  | cons raw rest ih =>
    unfold runLines
    rw [processLine_succ]
    cases hp : processLine idx raw st with
    | next st1 => exact ih (idx + 1) st1
    | fail e st1 => rfl
    | panic p st1 => rfl

theorem runLines_cons (idx : Nat) (raw : Str) (rest : List Str) (st : State) :
    runLines idx (raw :: rest) st =
      match processLine idx raw st with
      | .next st1 => runLines (idx + 1) rest st1
      | .fail e st1 => .fail e st1
      | .panic p st1 => .panic p st1 := rfl

theorem runLines_insert_skipped (pre post : List Str) (raw : Str) (st : State)
    (hs : IsSkipped (TrimSpace raw)) :
    runLines 0 (pre ++ raw :: post) st = runLines 0 (pre ++ post) st ∨
      runLines 0 (pre ++ raw :: post) st = (runLines 0 (pre ++ post) st).shiftLine := by
  rw [runLines_append, runLines_append]
  cases hp : runLines 0 pre st with
  | fail e st1 => exact Or.inl rfl
  | panic p st1 => exact Or.inl rfl
  | next st1 =>
    simp only [Nat.zero_add]
    right
    rw [runLines_cons, processLine_skipped _ raw st1 hs]
    exact runLines_succ post pre.length st1

/-- C12. Blank and comment lines are no-ops.  If two contents differ by one line
that is empty after trimming or whose trimmed text starts with `#` or `;`, loading
them into the same destination gives outcomes that agree on everything but the line
number of the error: same success or failure, same kind of error, same panic, same
final destination.  The outcome with the extra line is the other outcome, either
unchanged or with its error reported one line further down. -/
theorem skipped_line_noop (content1 content2 : Str) (d : Dest) (pre post : List Str)
    (raw : Str) (h1 : Split '\n' content1 = pre ++ post)
    (h2 : Split '\n' content2 = pre ++ raw :: post) (hs : IsSkipped (TrimSpace raw)) :
    (loadIniConfig (some content2) (.structPtr d)).eraseLine =
        (loadIniConfig (some content1) (.structPtr d)).eraseLine ∧
      (loadIniConfig (some content2) (.structPtr d) =
          loadIniConfig (some content1) (.structPtr d) ∨
        loadIniConfig (some content2) (.structPtr d) =
          (loadIniConfig (some content1) (.structPtr d)).shiftLine) := by
  rw [loadIniConfig_toOutcome, loadIniConfig_toOutcome, h1, h2]
  rcases runLines_insert_skipped pre post raw ⟨d, []⟩ hs with h | h
  · rw [h]
    exact ⟨rfl, Or.inl rfl⟩
  · rw [h]
    cases runLines 0 (pre ++ post) ⟨d, []⟩ with
    | next st1 => exact ⟨rfl, Or.inl rfl⟩
    | panic p st1 => exact ⟨rfl, Or.inl rfl⟩
    | fail e st1 =>
      refine ⟨?_, Or.inr rfl⟩
      show Outcome.returned (some e.shiftLine.eraseLine) _ = Outcome.returned (some e.eraseLine) _
      rw [eraseLine_shiftLine]

/-- C12, witness: a comment line inserted before the faulty line of
"[db]\nhost=a=b\n" moves the error from line 2 to line 3 and changes nothing else. -/
theorem skipped_line_noop_witness :
    (loadIniConfig (some "[db]\n# note\nhost=a=b\n".toList) (.structPtr IniConfig)).eraseLine =
        (loadIniConfig (some "[db]\nhost=a=b\n".toList) (.structPtr IniConfig)).eraseLine ∧
      (loadIniConfig (some "[db]\n# note\nhost=a=b\n".toList) (.structPtr IniConfig) =
          loadIniConfig (some "[db]\nhost=a=b\n".toList) (.structPtr IniConfig) ∨
        loadIniConfig (some "[db]\n# note\nhost=a=b\n".toList) (.structPtr IniConfig) =
          (loadIniConfig (some "[db]\nhost=a=b\n".toList) (.structPtr IniConfig)).shiftLine) :=
  skipped_line_noop "[db]\nhost=a=b\n".toList "[db]\n# note\nhost=a=b\n".toList IniConfig
    ["[db]".toList] ["host=a=b".toList, []] "# note".toList (by decide) (by decide) (by decide)
/-! ## Algebra of writes -/

theorem updateFirst_twice {α : Type} (p : α → Bool) (f g : α → α)
    (hg : ∀ a, p (g a) = p a) (l : List α) :
    updateFirst p f (updateFirst p g l) = updateFirst p (fun a => f (g a)) l := by
  induction l with
  | nil => rfl
  | cons a as ih =>
    by_cases hp : p a = true
    · have hpg : p (g a) = true := by rw [hg]; exact hp
      simp [updateFirst, hp, hpg]
    · have hp2 : p a = false := by simpa using hp
      simp [updateFirst, hp2, ih]

theorem updateFirst_comm {α : Type} (p q : α → Bool) (f g : α → α)
    (hpq : ∀ a, p a = true → q a = false) (hf : ∀ a, q (f a) = q a)
    (hg : ∀ a, p (g a) = p a) (l : List α) :
    updateFirst p f (updateFirst q g l) = updateFirst q g (updateFirst p f l) := by
  induction l with
  | nil => rfl
  | cons a as ih =>
    by_cases hp : p a = true
    · have hq : q a = false := hpq a hp
      have hqf : q (f a) = false := by rw [hf]; exact hq
      simp [updateFirst, hp, hq, hqf]
    · have hp2 : p a = false := by simpa using hp
      by_cases hq : q a = true
      · have hpg : p (g a) = false := by rw [hg]; exact hp2
        simp [updateFirst, hp2, hq, hpg]
      · have hq2 : q a = false := by simpa using hq
        simp [updateFirst, hp2, hq2, ih]

theorem updateFirst_congr {α : Type} (p : α → Bool) (f g : α → α) (h : ∀ a, f a = g a)
    (l : List α) : updateFirst p f l = updateFirst p g l := by
  have : f = g := funext h
  rw [this]

/-- A later write to the same field overrides an earlier one. -/
theorem store_store_same (d : Dest) (s f : Str) (v v2 : Value) :
    (d.store s f v2).store s f v = d.store s f v := by
  unfold Dest.store
  simp only
  rw [updateFirst_twice]
  · congr 1
    apply updateFirst_congr
    intro t
    cases hv : t.value with
    | nonStruct k p => simp [hv]
    | struct fs =>
      simp only [hv]
      rw [updateFirst_twice]
      intro a
      rfl
  · intro t
    cases hv : t.value <;> simp [hv]

/-- Writes to different fields commute. -/
theorem store_store_comm (d : Dest) (s f s2 f2 : Str) (v v2 : Value)
    (hne : ¬ (s = s2 ∧ f = f2)) :
    (d.store s2 f2 v2).store s f v = (d.store s f v).store s2 f2 v2 := by
  unfold Dest.store
  simp only
  by_cases hs : s = s2
  · subst hs
    have hf : f ≠ f2 := fun e => hne ⟨rfl, e⟩
    rw [updateFirst_twice, updateFirst_twice]
    · congr 1
      apply updateFirst_congr
      intro t
      cases hv : t.value with
      | nonStruct k p => simp [hv]
      | struct fs =>
        simp only [hv]
        rw [updateFirst_comm]
        · intro a ha
          have : a.Name = f := by simpa using ha
          simp [this, hf]
        · intro a
          rfl
        · intro a
          rfl
    · intro t
      cases hv : t.value <;> simp [hv]
    · intro t
      cases hv : t.value <;> simp [hv]
  · rw [updateFirst_comm]
    · intro t ht
      have : t.Name = s := by simpa using ht
      simp [this, hs]
    · intro t
      cases hv : t.value <;> simp [hv]
    · intro t
      cases hv : t.value <;> simp [hv]

theorem writeAll_cons (d : Dest) (w : Write) (ws : List Write) :
    d.writeAll (w :: ws) = (d.write w).writeAll ws := rfl

theorem writeAll_append (d : Dest) (ws vs : List Write) :
    d.writeAll (ws ++ vs) = (d.writeAll ws).writeAll vs := by
  unfold Dest.writeAll
  rw [List.foldl_append]

theorem write_absorb (u : Write) (vs : List Write) (d : Dest) :
    ((d.write u).writeAll vs).write u = (d.writeAll vs).write u := by
  induction vs generalizing d with
  | nil => exact store_store_same d u.structName u.fieldName u.value u.value
  | cons v vs ih =>
    rw [writeAll_cons, writeAll_cons]
    by_cases hsame : v.structName = u.structName ∧ v.fieldName = u.fieldName
    · have : (d.write u).write v = d.write v := by
        unfold Dest.write
        rw [hsame.1, hsame.2]
        exact store_store_same d u.structName u.fieldName v.value u.value
      rw [this]
    · have : (d.write u).write v = (d.write v).write u := by
        unfold Dest.write
        exact store_store_comm d v.structName v.fieldName u.structName u.fieldName
          v.value u.value hsame
      rw [this]
      exact ih (d.write v)

theorem writeAll_absorb (ws vs : List Write) (d : Dest) :
    ((d.writeAll ws).writeAll vs).writeAll ws = (d.writeAll vs).writeAll ws := by
  induction ws generalizing vs d with
  | nil => rfl
  | cons u us ih =>
    have e1 : ((d.writeAll (u :: us)).writeAll vs).writeAll (u :: us) =
        (((d.write u).writeAll us).writeAll (vs ++ [u])).writeAll us := by
      rw [writeAll_append]
      rfl
    have e2 : ((d.write u).writeAll (vs ++ [u])).writeAll us =
        (((d.write u).writeAll vs).write u).writeAll us := by
      rw [writeAll_append]
      rfl
    rw [e1, ih (vs ++ [u]) (d.write u), e2, write_absorb]
    rfl

/-- Replaying a sequence of writes on its own result changes nothing. -/
theorem writeAll_idem (ws : List Write) (d : Dest) :
    (d.writeAll ws).writeAll ws = d.writeAll ws :=
  writeAll_absorb ws [] d

/-! ## The assignment as a plan that depends on the shape only -/

theorem assignSwitch_eq_plan (ro : Bool) (f : Field) (n v : Str) (st : State) :
    assignSwitch ro f n v st = Step.ofPlan st (switchPlan ro f.value.Kind st.structName n v) := by
  unfold assignSwitch switchPlan
  by_cases hs : f.value.Kind = Kind.String
  · rw [if_pos hs, if_pos hs]
    cases ro <;> rfl
  · rw [if_neg hs, if_neg hs]
    cases f.value.Kind.toIntKind with
    | none => rfl
    | some k =>
      simp only []
      cases Atoi v with
      | error err => rfl
      | ok num => cases ro <;> rfl

theorem assign_eq_plan (k v : Str) (st : State) :
    assign k v st = Step.ofPlan st (assignPlan st.dest st.structName k v) := by
  unfold assign assignPlan
  cases st.dest.FieldByName st.structName with
  | none => rfl
  | some valuestruct =>
    simp only []
    cases valuestruct.value with
    | nonStruct k0 p0 => rfl
    | struct fields =>
      simp only []
      cases FieldByName fields (findFieldName fields k) with
      | none => rfl
      | some str_obj => exact assignSwitch_eq_plan _ _ _ _ _

theorem toIntKind_kind (K : Kind) (k : IntKind) (h : K.toIntKind = some k) : k.kind = K := by
  cases K <;> simp [Kind.toIntKind] at h <;> subst h <;> rfl

theorem toIntKind_of_kind (k : IntKind) : k.kind.toIntKind = some k := by
  cases k <;> rfl

theorem intKind_ne_string (k : IntKind) : k.kind ≠ Kind.String := by
  cases k <;> decide

theorem Value.erase_Kind (v : Value) : v.erase.Kind = v.Kind := by
  unfold Value.erase
  by_cases hs : v.Kind = Kind.String
  · rw [if_pos hs, hs]
    rfl
  · rw [if_neg hs]
    cases hk : v.Kind.toIntKind with
    | none => rfl
    | some k => exact toIntKind_kind _ _ hk

theorem Value.erase_of_Kind (v w : Value) (h : v.Kind = w.Kind)
    (hw : w.Kind = Kind.String ∨ ∃ k, w.Kind.toIntKind = some k) : v.erase = w.erase := by
  unfold Value.erase
  rcases hw with hs | ⟨k, hk⟩
  · rw [if_pos (h.trans hs), if_pos hs]
  · have hns : w.Kind ≠ Kind.String := by
      intro e
      rw [e] at hk
      cases hk
    have hnsv : v.Kind ≠ Kind.String := by
      rw [h]
      exact hns
    rw [if_neg hnsv, if_neg hns, h, hk]

theorem find?_map_erase {α : Type} (E : α → α) (p : α → Bool) (hp : ∀ a, p (E a) = p a)
    (l : List α) : (l.map E).find? p = (l.find? p).map E := by
  induction l with
  | nil => rfl
  | cons a as ih =>
    by_cases h : p a = true
    · have h2 : p (E a) = true := by rw [hp]; exact h
      simp [List.find?_cons, h, h2]
    · have h1 : p a = false := by simpa using h
      have h2 : p (E a) = false := by rw [hp]; exact h1
      simp [List.find?_cons, h1, h2, ih]

theorem FieldByName_erase (fs : List Field) (n : Str) :
    FieldByName (fs.map Field.erase) n = (FieldByName fs n).map Field.erase := by
  unfold FieldByName
  by_cases hn : n = []
  · simp [hn]
  · rw [if_neg hn, if_neg hn]
    exact find?_map_erase Field.erase (fun f => decide (f.Name = n)) (fun a => rfl) fs

theorem findFieldName_erase (fs : List Field) (key : Str) :
    findFieldName (fs.map Field.erase) key = findFieldName fs key := by
  unfold findFieldName
  rw [find?_map_erase Field.erase (fun f => decide (f.Tag = key)) (fun a => rfl) fs]
  cases fs.find? (fun f => decide (f.Tag = key)) <;> rfl

theorem destFieldByName_erase (d : Dest) (n : Str) :
    d.erase.FieldByName n = (d.FieldByName n).map TopField.erase := by
  unfold Dest.FieldByName Dest.erase
  by_cases hn : n = []
  · simp [hn]
  · rw [if_neg hn, if_neg hn]
    exact find?_map_erase TopField.erase (fun t => decide (t.Name = n)) (fun a => rfl) d.fields

theorem assignPlan_erase (d : Dest) (s k v : Str) :
    assignPlan d.erase s k v = assignPlan d s k v := by
  unfold assignPlan
  rw [destFieldByName_erase]
  cases d.FieldByName s with
  | none => rfl
  | some t =>
    simp only [Option.map_some']
    cases hv : t.value with
    | nonStruct k0 p0 =>
      have : t.erase.value = .nonStruct k0 p0 := by
        simp [TopField.erase, hv, SubValue.erase]
      rw [this]
    | struct fs =>
      have : t.erase.value = .struct (fs.map Field.erase) := by
        simp [TopField.erase, hv, SubValue.erase]
      rw [this]
      simp only []
      rw [findFieldName_erase, FieldByName_erase]
      cases FieldByName fs (findFieldName fs k) with
      | none => rfl
      | some f =>
        simp only [Option.map_some']
        have h1 : f.erase.value.Kind = f.value.Kind := Value.erase_Kind f.value
        rw [h1]
        rfl

theorem selectSection_erase (d : Dest) (n c : Str) :
    selectSection d.erase.fields n c = selectSection d.fields n c := by
  unfold selectSection Dest.erase
  rw [List.foldl_map]
  rfl

theorem map_updateFirst {α : Type} (E : α → α) (p : α → Bool) (G : α → α) (l : List α)
    (h : ∀ a, l.find? p = some a → E (G a) = E a) :
    (updateFirst p G l).map E = l.map E := by
  induction l with
  | nil => rfl
  | cons a as ih =>
    by_cases hp : p a = true
    · have := h a (by simp [List.find?_cons, hp])
      simp [updateFirst, hp, this]
    · have hp2 : p a = false := by simpa using hp
      have ih2 := ih (fun b hb => h b (by simp [List.find?_cons, hp2, hb]))
      simp [updateFirst, hp2, ih2]

/-- A planned write keeps the shape of the destination. -/
theorem write_erase (d : Dest) (s k v : Str) (w : Write)
    (h : assignPlan d s k v = .ok (some w)) : (d.write w).erase = d.erase := by
  unfold assignPlan at h
  cases ht : d.FieldByName s with
  | none =>
    rw [ht] at h
    cases h
  | some t =>
    rw [ht] at h
    simp only [] at h
    cases hv : t.value with
    | nonStruct k0 p0 =>
      rw [hv] at h
      cases h
    | struct fs =>
      rw [hv] at h
      simp only [] at h
      cases hf : FieldByName fs (findFieldName fs k) with
      | none =>
        rw [hf] at h
        cases h
      | some f =>
        rw [hf] at h
        simp only [] at h
        have hw : w.structName = s ∧ w.fieldName = findFieldName fs k ∧
            w.value.erase = f.value.erase := by
          unfold switchPlan at h
          by_cases hs : f.value.Kind = Kind.String
          · rw [if_pos hs] at h
            split at h
            · cases h
            · injection h with h
              injection h with h
              subst h
              exact ⟨rfl, rfl, Value.erase_of_Kind _ _ (by rw [hs]; rfl) (Or.inl hs)⟩
          · rw [if_neg hs] at h
            cases hk : f.value.Kind.toIntKind with
            | none =>
              rw [hk] at h
              cases h
            | some ik =>
              rw [hk] at h
              simp only [] at h
              split at h
              · cases h
              · split at h
                · cases h
                · injection h with h
                  injection h with h
                  subst h
                  exact ⟨rfl, rfl, Value.erase_of_Kind _ _
                    (by exact toIntKind_kind _ _ hk) (Or.inr ⟨ik, hk⟩)⟩
        obtain ⟨hw1, hw2, hw3⟩ := hw
        have hsne : s ≠ [] := by
          intro e
          unfold Dest.FieldByName at ht
          rw [if_pos e] at ht
          cases ht
        have hfne : findFieldName fs k ≠ [] := by
          intro e
          unfold FieldByName at hf
          rw [if_pos e] at hf
          cases hf
        have htfind : d.fields.find? (fun t => decide (t.Name = s)) = some t := by
          unfold Dest.FieldByName at ht
          rw [if_neg hsne] at ht
          exact ht
        have hffind : fs.find? (fun f => decide (f.Name = findFieldName fs k)) = some f := by
          unfold FieldByName at hf
          rw [if_neg hfne] at hf
          exact hf
        unfold Dest.write Dest.store Dest.erase
        rw [hw1, hw2]
        simp only [Dest.mk.injEq]
        apply map_updateFirst
        intro a ha
        rw [htfind] at ha
        injection ha with ha
        subst ha
        simp only [hv, TopField.erase, SubValue.erase, TopField.mk.injEq, SubValue.struct.injEq,
          true_and]
        apply map_updateFirst
        intro b hb
        rw [hffind] at hb
        injection hb with hb
        subst hb
        simp only [Field.erase, Field.mk.injEq, true_and]
        exact hw3
/-! ## Re-loading -/

/-- A line that lets the loop go on does so on every destination of the same shape,
with the same writes and the same new cursor; the shape is kept. -/
theorem processLine_lockstep (idx : Nat) (raw : Str) (d e d1 : Dest) (s s1 : Str)
    (hshape : d.erase = e.erase) (h : processLine idx raw ⟨d, s⟩ = .next ⟨d1, s1⟩) :
    ∃ ws, d1 = d.writeAll ws ∧ d1.erase = d.erase ∧
      processLine idx raw ⟨e, s⟩ = .next ⟨e.writeAll ws, s1⟩ := by
  rcases line_cases (TrimSpace raw) with hs | ⟨interior, hh⟩ | hk
  · rw [processLine_skipped idx raw _ hs] at h
    injection h with h
    injection h with hd hs1
    subst hd hs1
    exact ⟨[], rfl, rfl, processLine_skipped idx raw _ hs⟩
  · rw [processLine_header idx raw _ interior hh] at h
    by_cases hempty : TrimSpace interior = []
    · rw [if_pos hempty] at h
      cases h
    · rw [if_neg hempty] at h
      injection h with h
      injection h with hd hs1
      simp only [] at hd hs1
      subst hd hs1
      refine ⟨[], rfl, rfl, ?_⟩
      rw [processLine_header idx raw _ interior hh, if_neg hempty]
      simp only []
      rw [← selectSection_erase d, ← selectSection_erase e, hshape]
      rfl
  · rw [processLine_keyValue idx raw _ hk] at h
    rw [processLine_keyValue idx raw _ hk]
    cases hv : validateKeyValue idx (TrimSpace raw) with
    | fail e0 =>
      rw [hv] at h
      cases h
    | panic p0 =>
      rw [hv] at h
      cases h
    | ok kv =>
      rw [hv] at h
      simp only [] at h ⊢
      rw [assign_eq_plan] at h ⊢
      simp only [] at h ⊢
      have hplan : assignPlan e s kv.1 kv.2 = assignPlan d s kv.1 kv.2 := by
        rw [← assignPlan_erase e, ← assignPlan_erase d, hshape]
      rw [hplan]
      cases hp : assignPlan d s kv.1 kv.2 with
      | fail e0 =>
        rw [hp] at h
        cases h
      | panic p0 =>
        rw [hp] at h
        cases h
      | ok ow =>
        rw [hp] at h
        cases ow with
        | none =>
          injection h with h
          injection h with hd hs1
          subst hd hs1
          exact ⟨[], rfl, rfl, rfl⟩
        | some w =>
          injection h with h
          injection h with hd hs1
          subst hd hs1
          exact ⟨[w], rfl, write_erase d s kv.1 kv.2 w hp, rfl⟩

theorem runLines_lockstep (lines : List Str) (idx : Nat) (d e d1 : Dest) (s s1 : Str)
    (hshape : d.erase = e.erase) (h : runLines idx lines ⟨d, s⟩ = .next ⟨d1, s1⟩) :
    ∃ ws, d1 = d.writeAll ws ∧ d1.erase = d.erase ∧
      runLines idx lines ⟨e, s⟩ = .next ⟨e.writeAll ws, s1⟩ := by
  induction lines generalizing idx d e s with
  | nil =>
    injection h with h
    injection h with hd hs1
    subst hd hs1
    exact ⟨[], rfl, rfl, rfl⟩
  | cons raw rest ih =>
    rw [runLines_cons] at h ⊢
    cases hp : processLine idx raw ⟨d, s⟩ with
    | fail e0 st0 =>
      rw [hp] at h
      cases h
    | panic p0 st0 =>
      rw [hp] at h
      cases h
    | next st2 =>
      rw [hp] at h
      simp only [] at h
      obtain ⟨d2, s2⟩ := st2
      obtain ⟨ws1, hd2, hsh2, hstep⟩ := processLine_lockstep idx raw d e d2 s s2 hshape hp
      obtain ⟨ws1e, hd2e, hsh2e, _⟩ := processLine_lockstep idx raw e e (e.writeAll ws1) s s2
        rfl hstep
      have hshape2 : d2.erase = (e.writeAll ws1).erase := by
        rw [hsh2, hsh2e, hshape]
      obtain ⟨ws2, hd1, hsh1, hrun⟩ := ih (idx + 1) d2 (e.writeAll ws1) s2 hshape2 h
      refine ⟨ws1 ++ ws2, ?_, ?_, ?_⟩
      · rw [writeAll_append, ← hd2]
        exact hd1
      · rw [hsh1, hsh2]
      · rw [hstep]
        simp only []
        rw [writeAll_append]
        exact hrun

/-- C19. Re-loading is idempotent: if `loadIniConfig` succeeds on a content and a
destination `d`, leaving the destination `d1`, then loading the same content into
`d1` succeeds as well and leaves `d1` unchanged. -/
theorem reload_idempotent (content : Str) (d d1 : Dest)
    (h : loadIniConfig (some content) (.structPtr d) = .returned none (.structPtr d1)) :
    loadIniConfig (some content) (.structPtr d1) = .returned none (.structPtr d1) := by
  rw [loadIniConfig_toOutcome] at h
  cases hr : runLines 0 (Split '\n' content) ⟨d, []⟩ with
  | fail e0 st0 =>
    rw [hr] at h
    cases h
  | panic p0 st0 =>
    rw [hr] at h
    cases h
  | next st =>
    rw [hr] at h
    obtain ⟨d2, s2⟩ := st
    have hd : d2 = d1 := by
      injection h with h1 h2
      injection h2
    subst hd
    obtain ⟨ws0, _, hsh, _⟩ := runLines_lockstep _ 0 d d d2 [] s2 rfl hr
    obtain ⟨ws, hd2, _, hrun⟩ := runLines_lockstep _ 0 d d2 d2 [] s2 hsh.symm hr
    rw [loadIniConfig_toOutcome, hrun]
    have : d2.writeAll ws = d2 := by
      conv_lhs => rw [hd2]
      rw [writeAll_idem]
      exact hd2.symm
    rw [this]
    rfl

/-- C19, witness: "[db]\nhost=localhost\nport=5432\n" loaded a second time into the
destination the first load produced. -/
theorem reload_idempotent_witness :
    loadIniConfig (some "[db]\nhost=localhost\nport=5432\n".toList)
        (.structPtr ((IniConfig.store "AppDbIni".toList "Host".toList
          (.string "localhost".toList)).store "AppDbIni".toList "Post".toList
          (.int .Int 5432))) =
      .returned none
        (.structPtr ((IniConfig.store "AppDbIni".toList "Host".toList
          (.string "localhost".toList)).store "AppDbIni".toList "Post".toList
          (.int .Int 5432))) :=
  reload_idempotent "[db]\nhost=localhost\nport=5432\n".toList IniConfig _ (by decide)

/-! ## Frame -/

theorem isFirstAt_unique {α : Type} (p : α → Bool) (l : List α) (n m : Nat)
    (hn : IsFirstAt p l n) (hm : IsFirstAt p l m) : n = m := by
  obtain ⟨⟨a, ha, hpa⟩, hfn⟩ := hn
  obtain ⟨⟨b, hb, hpb⟩, hfm⟩ := hm
  rcases Nat.lt_trichotomy n m with h | h | h
  · have := hfm n a h ha
    rw [hpa] at this
    cases this
  · exact h
  · have := hfn m b h hb
    rw [hpb] at this
    cases this

theorem get?_updateFirst {α : Type} (p : α → Bool) (G : α → α) (l : List α) (n : Nat) :
    (updateFirst p G l).get? n = l.get? n ∨
      ∃ a, l.find? p = some a ∧ l.get? n = some a ∧ IsFirstAt p l n ∧
        (updateFirst p G l).get? n = some (G a) := by
  induction l generalizing n with
  | nil => exact Or.inl rfl
  | cons x xs ih =>
    by_cases hp : p x = true
    · cases n with
      | zero =>
        right
        refine ⟨x, by simp [List.find?_cons, hp], rfl, ⟨⟨x, rfl, hp⟩, ?_⟩, by simp [updateFirst, hp]⟩
        intro m b hm
        omega
      | succ k =>
        left
        simp [updateFirst, hp]
    · have hp2 : p x = false := by simpa using hp
      cases n with
      | zero =>
        left
        simp [updateFirst, hp2]
      | succ k =>
        rcases ih k with h | ⟨a, hfind, hget, hfirst, hnew⟩
        · left
          simp only [updateFirst, hp2, Bool.false_eq_true, if_false, List.get?_cons_succ]
          exact h
        · right
          refine ⟨a, by simp [List.find?_cons, hp2, hfind], by simpa using hget, ?_, ?_⟩
          · obtain ⟨⟨a2, ha2, hpa2⟩, hf⟩ := hfirst
            refine ⟨⟨a2, by simpa using ha2, hpa2⟩, ?_⟩
            intro m b hm hb
            cases m with
            | zero =>
              simp only [List.get?_cons_zero, Option.some.injEq] at hb
              rw [← hb]
              exact hp2
            | succ m2 =>
              exact hf m2 b (by omega) (by simpa using hb)
          · simp only [updateFirst, hp2, Bool.false_eq_true, if_false, List.get?_cons_succ]
            exact hnew

theorem store_fields (d : Dest) (s f : Str) (v : Value) :
    (d.store s f v).fields =
      updateFirst (fun (t : TopField) => decide (t.Name = s)) (TopField.storeField f v)
        d.fields := rfl

/-- A store changes at most the field found first under the two names. -/
theorem valueAt_store (d : Dest) (s f : Str) (v : Value) (i j : Nat)
    (h : (d.store s f v).valueAt i j ≠ d.valueAt i j) :
    ∃ t fs a, d.fields.find? (fun t => decide (t.Name = s)) = some t ∧
      d.fields.get? i = some t ∧ IsFirstAt (fun t => decide (t.Name = s)) d.fields i ∧
      t.value = .struct fs ∧ fs.find? (fun x => decide (x.Name = f)) = some a ∧
      fs.get? j = some a ∧ IsFirstAt (fun x => decide (x.Name = f)) fs j := by
  unfold Dest.valueAt at h
  rw [store_fields] at h
  rcases get?_updateFirst (fun (t : TopField) => decide (t.Name = s))
      (TopField.storeField f v) d.fields i with h1 | ⟨t, hfind, hget, hfirst, hnew⟩
  · rw [h1] at h
    exact absurd rfl h
  · rw [hnew, hget] at h
    cases hv : t.value with
    | nonStruct k p =>
      simp only [TopField.storeField, hv] at h
      exact absurd rfl h
    | struct fs =>
      simp only [TopField.storeField, hv] at h
      rcases get?_updateFirst (fun (x : Field) => decide (x.Name = f))
          (fun x => { x with value := v }) fs j with h2 | ⟨a, hfind2, hget2, hfirst2, _⟩
      · rw [h2] at h
        exact absurd rfl h
      · exact ⟨t, fs, a, hfind, hget, hfirst, hv, hfind2, hget2, hfirst2⟩

theorem assignPlan_write_inv (d : Dest) (s k v : Str) (w : Write)
    (h : assignPlan d s k v = .ok (some w)) :
    ∃ t fs f0, d.fields.find? (fun t => decide (t.Name = s)) = some t ∧
      t.value = .struct fs ∧ fs.find? (fun x => decide (x.Tag = k)) = some f0 ∧
      w.structName = s ∧ w.fieldName = f0.Name := by
  unfold assignPlan at h
  cases ht : d.FieldByName s with
  | none =>
    rw [ht] at h
    cases h
  | some t =>
    rw [ht] at h
    simp only [] at h
    cases hv : t.value with
    | nonStruct k0 p0 =>
      rw [hv] at h
      cases h
    | struct fs =>
      rw [hv] at h
      simp only [] at h
      cases hf : FieldByName fs (findFieldName fs k) with
      | none =>
        rw [hf] at h
        cases h
      | some f =>
        rw [hf] at h
        simp only [] at h
        have hw : w.structName = s ∧ w.fieldName = findFieldName fs k := by
          unfold switchPlan at h
          split at h
          · split at h
            · cases h
            · injection h with h
              injection h with h
              subst h
              exact ⟨rfl, rfl⟩
          · split at h
            · split at h
              · cases h
              · split at h
                · cases h
                · injection h with h
                  injection h with h
                  subst h
                  exact ⟨rfl, rfl⟩
            · cases h
        have hsne : s ≠ [] := by
          intro e
          unfold Dest.FieldByName at ht
          rw [if_pos e] at ht
          cases ht
        have hfne : findFieldName fs k ≠ [] := by
          intro e
          unfold FieldByName at hf
          rw [if_pos e] at hf
          cases hf
        have htfind : d.fields.find? (fun t => decide (t.Name = s)) = some t := by
          unfold Dest.FieldByName at ht
          rw [if_neg hsne] at ht
          exact ht
        cases hf0 : fs.find? (fun x => decide (x.Tag = k)) with
        | none =>
          exfalso
          apply hfne
          unfold findFieldName
          rw [hf0]
        | some f0 =>
          refine ⟨t, fs, f0, htfind, hv, hf0, hw.1, ?_⟩
          rw [hw.2]
          unfold findFieldName
          rw [hf0]
theorem processLine_next_write (idx : Nat) (raw : Str) (st st2 : State)
    (h : processLine idx raw st = .next st2) :
    st2.dest = st.dest ∨
      (IsKeyValueCandidate (TrimSpace raw) ∧
        ∃ key value w, validateKeyValue idx (TrimSpace raw) = .ok (key, value) ∧
          assignPlan st.dest st.structName key value = .ok (some w) ∧
          st2.dest = st.dest.write w) := by
  rcases line_cases (TrimSpace raw) with hs | ⟨interior, hh⟩ | hk
  · rw [processLine_skipped idx raw _ hs] at h
    injection h with h
    subst h
    exact Or.inl rfl
  · rw [processLine_header idx raw _ interior hh] at h
    split at h
    · cases h
    · injection h with h
      subst h
      exact Or.inl rfl
  · rw [processLine_keyValue idx raw _ hk] at h
    cases hv : validateKeyValue idx (TrimSpace raw) with
    | fail e0 =>
      rw [hv] at h
      cases h
    | panic p0 =>
      rw [hv] at h
      cases h
    | ok kv =>
      rw [hv] at h
      simp only [] at h
      rw [assign_eq_plan] at h
      cases hp : assignPlan st.dest st.structName kv.1 kv.2 with
      | fail e0 =>
        rw [hp] at h
        cases h
      | panic p0 =>
        rw [hp] at h
        cases h
      | ok ow =>
        rw [hp] at h
        cases ow with
        | none =>
          injection h with h
          subst h
          exact Or.inl rfl
        | some w =>
          injection h with h
          subst h
          exact Or.inr ⟨hk, kv.1, kv.2, w, rfl, hp, rfl⟩

theorem changed_position (d : Dest) (hnames : d.DistinctNames) (s key value : Str)
    (w : Write) (hplan : assignPlan d s key value = .ok (some w)) (i j : Nat)
    (hch : (d.write w).valueAt i j ≠ d.valueAt i j) :
    IsFirstAt (fun t => decide (t.Name = w.structName)) d.fields i ∧
      ∃ t fs f, d.fields.get? i = some t ∧ t.Name = s ∧ t.value = .struct fs ∧
        IsFirstAt (fun x => decide (x.Name = w.fieldName)) fs j ∧
        fs.get? j = some f ∧ f.Tag = key := by
  obtain ⟨t, fs, a, hfind, hget, hfirst, hv, hfind2, hget2, hfirst2⟩ :=
    valueAt_store d w.structName w.fieldName w.value i j hch
  obtain ⟨t2, fs2, f0, hfindB, hvB, hf0, hws, hwf⟩ := assignPlan_write_inv d s key value w hplan
  rw [hws] at hfind
  rw [hfindB] at hfind
  injection hfind with ht
  subst ht
  rw [hvB] at hv
  injection hv with hfs
  subst hfs
  have htname : t2.Name = s := by
    have := List.find?_some hfindB
    simpa using this
  have haname : a.Name = w.fieldName := by
    have := List.find?_some hfind2
    simpa using this
  have hnodup : (fs2.map (fun f => f.Name)).Nodup := by
    have := hnames t2 (List.mem_of_find?_eq_some hfindB)
    rw [hvB] at this
    simpa [SubValue.namesNodup] using this
  have hEq : a = f0 :=
    List.inj_on_of_nodup_map hnodup (List.mem_of_find?_eq_some hfind2)
      (List.mem_of_find?_eq_some hf0) (by rw [haname, hwf])
  have htag : f0.Tag = key := by
    have := List.find?_some hf0
    simpa using this
  refine ⟨hfirst, t2, fs2, a, hget, htname, hvB, hfirst2, hget2, ?_⟩
  rw [hEq]
  exact htag

theorem DistinctNames_of_erase (d e : Dest) (h : d.erase = e.erase) (hd : d.DistinctNames) :
    e.DistinctNames := by
  intro t2 ht2
  have hmem : t2.erase ∈ d.erase.fields := by
    rw [h]
    exact List.mem_map_of_mem TopField.erase ht2
  obtain ⟨t, ht, hte⟩ := List.mem_map.mp hmem
  have hn := hd t ht
  have hval : t.value.erase = t2.value.erase := by
    have := congrArg TopField.value hte
    exact this
  cases hv2 : t2.value with
  | nonStruct k p => rfl
  | struct fs2 =>
    cases hv : t.value with
    | nonStruct k p =>
      rw [hv, hv2] at hval
      cases hval
    | struct fs =>
      rw [hv, hv2] at hval
      rw [hv] at hn
      simp only [SubValue.erase, SubValue.struct.injEq] at hval
      have hnames : fs2.map (fun f => f.Name) = fs.map (fun f => f.Name) := by
        have := congrArg (List.map (fun (f : Field) => f.Name)) hval
        simp only [List.map_map] at this
        exact this.symm
      simp only [SubValue.namesNodup, decide_eq_true_eq] at hn ⊢
      rw [hnames]
      exact hn

theorem processLine_erase (idx : Nat) (raw : Str) (st st2 : State)
    (h : processLine idx raw st = .next st2) : st2.dest.erase = st.dest.erase := by
  obtain ⟨ws, _, hsh, _⟩ :=
    processLine_lockstep idx raw st.dest st.dest st2.dest st.structName st2.structName rfl h
  exact hsh

/-- A line changes only a field it names. -/
theorem processLine_frame (idx : Nat) (raw : Str) (st st2 : State)
    (hnames : st.dest.DistinctNames) (h : processLine idx raw st = .next st2) (i j : Nat)
    (hno : ¬ NamesField st raw i j) : st2.dest.valueAt i j = st.dest.valueAt i j := by
  by_contra hch
  rcases processLine_next_write idx raw st st2 h with he | ⟨hk, key, value, w, hv, hp, hd⟩
  · rw [he] at hch
    exact hch rfl
  · rw [hd] at hch
    obtain ⟨_, t, fs, f, hget, htn, htv, _, hgetf, htag⟩ :=
      changed_position st.dest hnames st.structName key value w hp i j hch
    exact hno ⟨hk, idx, key, value, t, fs, f, hv, hget, htn, htv, hgetf, htag⟩

theorem runLines_frame (lines : List Str) (idx : Nat) (st st2 : State)
    (hnames : st.dest.DistinctNames) (h : runLines idx lines st = .next st2) (i j : Nat)
    (hno : ∀ k raw st1, lines.get? k = some raw →
      runLines idx (lines.take k) st = .next st1 → ¬ NamesField st1 raw i j) :
    st2.dest.valueAt i j = st.dest.valueAt i j := by
  induction lines generalizing idx st with
  | nil =>
    injection h with h
    rw [h]
  | cons raw rest ih =>
    rw [runLines_cons] at h
    cases hp : processLine idx raw st with
    | fail e0 st0 =>
      rw [hp] at h
      cases h
    | panic p0 st0 =>
      rw [hp] at h
      cases h
    | next st1 =>
      rw [hp] at h
      simp only [] at h
      have hfr := processLine_frame idx raw st st1 hnames hp i j (hno 0 raw st rfl rfl)
      have hnames1 : st1.dest.DistinctNames :=
        DistinctNames_of_erase st.dest st1.dest (processLine_erase idx raw st st1 hp).symm hnames
      rw [← hfr]
      apply ih (idx + 1) st1 hnames1 h
      intro k raw2 st3 hget hrun
      apply hno (k + 1) raw2 st3 hget
      rw [List.take_succ_cons, runLines_cons, hp]
      exact hrun

/-- Frame with respect to the cursor `structName`.  In a destination whose
sub-records have pairwise distinct field names: a line that lets the loop go on
changes no field when it is blank, a comment or a header; it changes only a field
it names (a key-value line whose key is the annotation of that field, the
sub-record of the field being the one `structName` selects); and it changes at most
one field.  Consequently, after a load that returns `nil`, every field that no line
named while `structName` selected its sub-record holds the value it had before the
call. -/
theorem write_frame (content : Str) (d d2 : Dest) (hnames : d.DistinctNames)
    (hload : loadIniConfig (some content) (.structPtr d) = .returned none (.structPtr d2)) :
    (∀ idx raw st st2, st.dest.DistinctNames → processLine idx raw st = .next st2 →
      (¬ IsKeyValueCandidate (TrimSpace raw) → st2.dest = st.dest) ∧
      (∀ i j, st2.dest.valueAt i j ≠ st.dest.valueAt i j → NamesField st raw i j) ∧
      (∀ i j i2 j2, st2.dest.valueAt i j ≠ st.dest.valueAt i j →
        st2.dest.valueAt i2 j2 ≠ st.dest.valueAt i2 j2 → i = i2 ∧ j = j2)) ∧
    (∀ i j,
      (∀ k raw st1, (Split '\n' content).get? k = some raw →
        runLines 0 ((Split '\n' content).take k) ⟨d, []⟩ = .next st1 →
        ¬ NamesField st1 raw i j) →
      d2.valueAt i j = d.valueAt i j) := by
  constructor
  · intro idx raw st st2 hn hstep
    refine ⟨?_, ?_, ?_⟩
    · intro hnk
      rcases processLine_next_write idx raw st st2 hstep with he | ⟨hk, _⟩
      · exact he
      · exact absurd hk hnk
    · intro i j hch
      by_contra hno
      exact hch (processLine_frame idx raw st st2 hn hstep i j hno)
    · intro i j i2 j2 hch hch2
      rcases processLine_next_write idx raw st st2 hstep with he | ⟨hk, key, value, w, hv, hp, hd⟩
      · rw [he] at hch
        exact absurd rfl hch
      · rw [hd] at hch hch2
        obtain ⟨hf1, t, fs, f, hget, _, htv, hfj, _, _⟩ :=
          changed_position st.dest hn st.structName key value w hp i j hch
        obtain ⟨hf2, t2, fs2, f2, hget2, _, htv2, hfj2, _, _⟩ :=
          changed_position st.dest hn st.structName key value w hp i2 j2 hch2
        have hi : i = i2 := isFirstAt_unique _ _ _ _ hf1 hf2
        subst hi
        rw [hget] at hget2
        injection hget2 with ht
        subst ht
        rw [htv] at htv2
        injection htv2 with hfs
        subst hfs
        exact ⟨rfl, isFirstAt_unique _ _ _ _ hfj hfj2⟩
  · intro i j hno
    rw [loadIniConfig_toOutcome] at hload
    cases hr : runLines 0 (Split '\n' content) ⟨d, []⟩ with
    | fail e0 st0 =>
      rw [hr] at hload
      cases hload
    | panic p0 st0 =>
      rw [hr] at hload
      cases hload
    | next st =>
      rw [hr] at hload
      have hd : st.dest = d2 := by
        injection hload with h1 h2
        injection h2
      rw [← hd]
      exact runLines_frame _ 0 ⟨d, []⟩ st hnames hr i j hno

/-- The frame at the load of "[db]\nhost=x\n" into a zero-valued `IniConfig`, which
writes `db.host` only. -/
theorem write_frame_witness :
    (∀ idx raw st st2, st.dest.DistinctNames → processLine idx raw st = .next st2 →
      (¬ IsKeyValueCandidate (TrimSpace raw) → st2.dest = st.dest) ∧
      (∀ i j, st2.dest.valueAt i j ≠ st.dest.valueAt i j → NamesField st raw i j) ∧
      (∀ i j i2 j2, st2.dest.valueAt i j ≠ st.dest.valueAt i j →
        st2.dest.valueAt i2 j2 ≠ st.dest.valueAt i2 j2 → i = i2 ∧ j = j2)) ∧
    (∀ i j,
      (∀ k raw st1, (Split '\n' "[db]\nhost=x\n".toList).get? k = some raw →
        runLines 0 ((Split '\n' "[db]\nhost=x\n".toList).take k) ⟨IniConfig, []⟩ = .next st1 →
        ¬ NamesField st1 raw i j) →
      (IniConfig.store "AppDbIni".toList "Host".toList (.string "x".toList)).valueAt i j =
        IniConfig.valueAt i j) :=
  write_frame "[db]\nhost=x\n".toList IniConfig
    (IniConfig.store "AppDbIni".toList "Host".toList (.string "x".toList)) (by decide)
    (by decide)

/-! ## Independence of calls -/

theorem toStep_toOutcome (v : Verdict) (st : State) :
    (v.toStep st).toOutcome = v.toOutcome st.dest := by
  cases v with
  | returned err => cases err <;> rfl
  | panicked p => rfl

/-- What a line does is fixed by the line, the cursor and the shape of the
destination: on two destinations of one shape it ends with the same verdict, leaves
the same cursor and performs the same writes. -/
theorem processLine_shape (idx : Nat) (raw : Str) (d e : Dest) (s : Str)
    (hshape : d.erase = e.erase) :
    ∃ (ws : List Write) (v : Verdict) (c : Str), processLine idx raw ⟨d, s⟩ = v.toStep ⟨d.writeAll ws, c⟩ ∧
      processLine idx raw ⟨e, s⟩ = v.toStep ⟨e.writeAll ws, c⟩ ∧
      (d.writeAll ws).erase = d.erase ∧ (e.writeAll ws).erase = e.erase := by
  rcases line_cases (TrimSpace raw) with hs | ⟨interior, hh⟩ | hk
  · exact ⟨[], .returned none, s, processLine_skipped idx raw _ hs,
      processLine_skipped idx raw _ hs, rfl, rfl⟩
  · rw [processLine_header idx raw _ interior hh, processLine_header idx raw _ interior hh]
    by_cases hempty : TrimSpace interior = []
    · rw [if_pos hempty, if_pos hempty]
      exact ⟨[], .returned (some (.EmptySectionName (idx + 1))), s, rfl, rfl, rfl, rfl⟩
    · rw [if_neg hempty, if_neg hempty]
      refine ⟨[], .returned none, selectSection d.fields (TrimSpace interior) s, rfl, ?_,
        rfl, rfl⟩
      simp only []
      rw [← selectSection_erase d, ← selectSection_erase e, hshape]
      rfl
  · rw [processLine_keyValue idx raw _ hk, processLine_keyValue idx raw _ hk]
    cases hv : validateKeyValue idx (TrimSpace raw) with
    | fail e0 => exact ⟨[], .returned (some e0), s, rfl, rfl, rfl, rfl⟩
    | panic p0 => exact ⟨[], .panicked p0, s, rfl, rfl, rfl, rfl⟩
    | ok kv =>
      simp only []
      rw [assign_eq_plan, assign_eq_plan]
      simp only []
      have hplan : assignPlan e s kv.1 kv.2 = assignPlan d s kv.1 kv.2 := by
        rw [← assignPlan_erase e, ← assignPlan_erase d, hshape]
      rw [hplan]
      cases hp : assignPlan d s kv.1 kv.2 with
      | fail e0 => exact ⟨[], .returned (some e0), s, rfl, rfl, rfl, rfl⟩
      | panic p0 => exact ⟨[], .panicked p0, s, rfl, rfl, rfl, rfl⟩
      | ok ow =>
        cases ow with
        | none => exact ⟨[], .returned none, s, rfl, rfl, rfl, rfl⟩
        | some w =>
          exact ⟨[w], .returned none, s, rfl, rfl, write_erase d s kv.1 kv.2 w hp,
            write_erase e s kv.1 kv.2 w (hplan.trans hp)⟩

theorem runLines_shape (lines : List Str) (idx : Nat) (d e : Dest) (s : Str)
    (hshape : d.erase = e.erase) :
    ∃ (ws : List Write) (v : Verdict) (c : Str), runLines idx lines ⟨d, s⟩ = v.toStep ⟨d.writeAll ws, c⟩ ∧
      runLines idx lines ⟨e, s⟩ = v.toStep ⟨e.writeAll ws, c⟩ := by
  induction lines generalizing idx d e s with
  | nil => exact ⟨[], .returned none, s, rfl, rfl⟩
  | cons raw rest ih =>
    obtain ⟨ws1, v1, c1, h1, h2, hd, he⟩ := processLine_shape idx raw d e s hshape
    rw [runLines_cons, runLines_cons, h1, h2]
    cases v1 with
    | panicked p => exact ⟨ws1, .panicked p, c1, rfl, rfl⟩
    | returned err =>
      cases err with
      | some e0 => exact ⟨ws1, .returned (some e0), c1, rfl, rfl⟩
      | none =>
        obtain ⟨ws2, v2, c2, h3, h4⟩ := ih (idx + 1) (d.writeAll ws1) (e.writeAll ws1) c1
          (by rw [hd, he, hshape])
        refine ⟨ws1 ++ ws2, v2, c2, ?_, ?_⟩
        · rw [writeAll_append]
          exact h3
        · rw [writeAll_append]
          exact h4

/-- In every call the cursor starts unset: lines that only blank and comment lines
precede are processed with the empty `structName`, whatever the destination holds. -/
theorem runLines_skipped_only (pre : List Str) (idx : Nat) (st : State)
    (h : ∀ l ∈ pre, IsSkipped (TrimSpace l)) : runLines idx pre st = .next st := by
  induction pre generalizing idx with
  | nil => rfl
  | cons l ls ih =>
    rw [runLines_cons, processLine_skipped idx l st (h l (List.mem_cons_self _ _))]
    exact ih (idx + 1) (fun x hx => h x (List.mem_cons_of_mem _ hx))

theorem assign_unset (k v : Str) (d : Dest) :
    assign k v ⟨d, []⟩ = .panic .TypeOnZeroValue ⟨d, []⟩ := by
  unfold assign
  have : d.FieldByName [] = none := by
    unfold Dest.FieldByName
    rfl
  simp only [this]

/-- C13. The result of a call is a function of the file content and of the
destination handed to it, and of nothing else.  For two destinations of one shape
(two zero values of one type, for instance) there are one verdict `v` (`nil`, the
error, or the panic) and one list of writes `ws` such that the call on either ends
with `v` and leaves that destination with the writes `ws` applied: the two return
values are equal, and with equal initial states so are the two destinations after
the calls.  The cursor starts unset in every call: a key-value line that only blank
and comment lines precede finds no section selected and the call panics at it
without a write, whatever the destination holds. -/
theorem load_deterministic (content : Str) (d1 d2 : Dest) (hshape : d1.erase = d2.erase) :
    (∃ (ws : List Write) (v : Verdict),
      loadIniConfig (some content) (.structPtr d1) = v.toOutcome (d1.writeAll ws) ∧
        loadIniConfig (some content) (.structPtr d2) = v.toOutcome (d2.writeAll ws)) ∧
      (∀ pre raw post key value, Split '\n' content = pre ++ raw :: post →
        (∀ l ∈ pre, IsSkipped (TrimSpace l)) → IsKeyValueCandidate (TrimSpace raw) →
        validateKeyValue pre.length (TrimSpace raw) = .ok (key, value) →
        loadIniConfig (some content) (.structPtr d1) =
          .panicked .TypeOnZeroValue (.structPtr d1)) := by
  constructor
  · obtain ⟨ws, v, c, h1, h2⟩ := runLines_shape (Split '\n' content) 0 d1 d2 [] hshape
    refine ⟨ws, v, ?_, ?_⟩
    · rw [loadIniConfig_toOutcome, h1, toStep_toOutcome]
    · rw [loadIniConfig_toOutcome, h2, toStep_toOutcome]
  · intro pre raw post key value hsplit hpre hk hv
    rw [loadIniConfig_eq content d1 pre post raw ⟨d1, []⟩ hsplit
      (runLines_skipped_only pre 0 _ hpre), processLine_keyValue _ raw _ hk, hv]
    simp only []
    rw [assign_unset]

/-- C13, witness: "[db]\nhost=localhost\n" loaded into a zero-valued `IniConfig` and
into an `IniConfig` whose `db.host` already holds "old"; and "# c\nhost=x\n", whose
key-value line no header precedes, loaded into that second destination. -/
theorem load_deterministic_witness :
    IniConfig.erase =
        (IniConfig.store "AppDbIni".toList "Host".toList (.string "old".toList)).erase ∧
      (∃ (ws : List Write) (v : Verdict),
        loadIniConfig (some "[db]\nhost=localhost\n".toList) (.structPtr IniConfig) =
            v.toOutcome (IniConfig.writeAll ws) ∧
          loadIniConfig (some "[db]\nhost=localhost\n".toList)
              (.structPtr (IniConfig.store "AppDbIni".toList "Host".toList
                (.string "old".toList))) =
            v.toOutcome ((IniConfig.store "AppDbIni".toList "Host".toList
              (.string "old".toList)).writeAll ws)) ∧
      loadIniConfig (some "# c\nhost=x\n".toList)
          (.structPtr (IniConfig.store "AppDbIni".toList "Host".toList
            (.string "old".toList))) =
        .panicked .TypeOnZeroValue
          (.structPtr (IniConfig.store "AppDbIni".toList "Host".toList
            (.string "old".toList))) :=
  ⟨by decide,
    (load_deterministic "[db]\nhost=localhost\n".toList IniConfig
      (IniConfig.store "AppDbIni".toList "Host".toList (.string "old".toList))
      (by decide)).1,
    (load_deterministic "# c\nhost=x\n".toList
      (IniConfig.store "AppDbIni".toList "Host".toList (.string "old".toList))
      IniConfig (by decide)).2 ["# c".toList] "host=x".toList [[]] "host".toList "x".toList
      (by decide) (by decide) (by decide) (by decide)⟩

/-! ## A field changed by a line outside its section -/

/-- C18, the code at "[db]\n[nosuch]\nhost=x\n" loaded into a zero-valued
`IniConfig`.  The only key-value line is line 3 and the header nearest above it is
`[nosuch]`: no key-value line names `host` under the section `db` (as the second
line of "[db]\nhost=x\n" does).  Yet the call succeeds and the field `host` of the
sub-record `db`, empty before the call, holds "x" after it: the unmatched header
has left `structName` at `AppDbIni`. -/
theorem unnamed_field_changes :
    loadIniConfig (some "[db]\n[nosuch]\nhost=x\n".toList) (.structPtr IniConfig) =
        .returned none
          (.structPtr (IniConfig.store "AppDbIni".toList "Host".toList (.string "x".toList))) ∧
      ¬ NamedUnder (Split '\n' "[db]\n[nosuch]\nhost=x\n".toList) "db".toList "host".toList ∧
      NamedUnder (Split '\n' "[db]\n[nosuch]\nhost=x\n".toList) "nosuch".toList "host".toList ∧
      NamedUnder (Split '\n' "[db]\nhost=x\n".toList) "db".toList "host".toList ∧
      IniConfig.lookup "db".toList "host".toList = some (.string []) ∧
      (IniConfig.store "AppDbIni".toList "Host".toList (.string "x".toList)).lookup
        "db".toList "host".toList = some (.string "x".toList) := by
  decide

end IniParser
